import Mathlib

/-!
# CPU scheduling simulation: FCFS, non-preemptive SJF and Round Robin

A shallow embedding of `src/scheduler.c`.

* C `int` values are embedded as `Int`.  Signed overflow is undefined behaviour
  in C, so the embedding describes the runs in which no intermediate time leaves
  the `int` range; the one `int` constant the code depends on, `INT_MAX`, is kept.
* The working array `p[]` is a `List Process`, read with `nth` and written with
  `upd`.
* `while` loops whose termination is not structurally evident take a fuel
  argument and return `none` when the fuel runs out before the loop condition
  turns false.
* The three `float` averages are given twice.  `metrics_of`, in `fcfs_metrics`,
  `sjf_metrics` and `rr_metrics`, takes the sums and the division as exact rationals
  `sum / n`, the values that the formulas of the specification name.  `metrics_f32`, in
  `fcfs_metrics_f32`, `sjf_metrics_f32` and `rr_metrics_f32`, follows the C evaluation in
  binary32: every conversion, addition and division is rounded to nearest, ties to even,
  and the sums run over `p[]` in array order.  The two agree on the sums while the
  turnaround times add up to less than `2 ^ 24` (`metrics_f32_small`); beyond that the
  binary32 sums depend on the order of the array.
-/

namespace Scheduler

/-! ## Data model -/

/-- Modelled from the spec: the `Process` record declared in `scheduler.h`, which is
not part of the sources.  It carries the fields `scheduler.c` reads and writes
(`arrivalTime`, `burstTime`, `remainingTime`, `startTime`, `completionTime`) and the
identifier `id` that the simulators copy but never read. -/
structure Process where
  id : Int
  arrivalTime : Int
  burstTime : Int
  remainingTime : Int
  startTime : Int
  completionTime : Int
deriving DecidableEq, Repr, Inhabited

/-- Modelled from the spec: the `Metrics` record declared in `scheduler.h`.  Each field
holds a rational: the exact average in the results of `metrics_of`, the rational that the
`float` denotes in the results of `metrics_f32`. -/
structure Metrics where
  avgTurnaround : ℚ
  avgWaiting : ℚ
  avgResponse : ℚ
deriving DecidableEq, Repr

/-- The constant `INT_MAX` of `<limits.h>` for a 32-bit `int`. -/
def INT_MAX : Int := 2147483647

/-- Array read `p[i]`. -/
def nth (p : List Process) (i : Nat) : Process := (p[i]?).getD default

/-- Array write `p[i] = q`. -/
def upd (p : List Process) (i : Nat) (q : Process) : List Process := p.set i q

/-- The copy loop that opens each simulator: `p[i] = proc[i]` followed by the reset of
the three simulation fields. -/
def reset (q : Process) : Process :=
  { q with remainingTime := q.burstTime, startTime := -1, completionTime := 0 }

/-- The working copy `p[]` after the copy loop. -/
def init_copy (proc : List Process) : List Process := proc.map reset

/-- A process list as the caller supplies it, from `(arrivalTime, burstTime)` pairs; the
identifier is the position in the list. -/
def mkProcs (l : List (Int × Int)) : List Process :=
  l.enum.map (fun x => Process.mk (x.1 : Int) x.2.1 x.2.2 0 0 0)

/-- Valid input of the specification: at least one process, no negative arrival time,
every burst time positive. -/
def Valid (proc : List Process) : Prop :=
  1 ≤ proc.length ∧ ∀ q ∈ proc, 0 ≤ q.arrivalTime ∧ 0 < q.burstTime

instance (proc : List Process) : Decidable (Valid proc) := by
  unfold Valid; exact inferInstance

/-- The input with each identifier set to the position of its process; the simulators
copy the identifier and never read it, so it names a process across the sort. -/
def tagIdx (proc : List Process) : List Process :=
  proc.enum.map (fun x => { x.2 with id := (x.1 : Int) })

/-! ## Sorting -/

/-- Comparator `cmp_arrival_proc`. -/
def cmp_arrival_proc (pa pb : Process) : Int :=
  if pa.arrivalTime < pb.arrivalTime then -1
  else if pa.arrivalTime > pb.arrivalTime then 1
  else 0

/-- Comparator `cmp_arrival_idx`; the global `rr_p_global` is the argument `p`. -/
def cmp_arrival_idx (p : List Process) (ia ib : Nat) : Int :=
  if (nth p ia).arrivalTime < (nth p ib).arrivalTime then -1
  else if (nth p ia).arrivalTime > (nth p ib).arrivalTime then 1
  else 0

/-- Insertion step of the sort model: `x` goes in front of the first element that does
not compare below it. -/
def qsort_insert {α : Type} (cmp : α → α → Int) (x : α) : List α → List α
  | [] => [x]
  | y :: ys => if cmp x y ≤ 0 then x :: y :: ys else y :: qsort_insert cmp x ys

/-- Modelled from the spec: the C library function `qsort`, which is not part of the
sources.  The result is the ascending rearrangement under the comparator in which
elements that compare equal keep their input order ("ties broken by original input
order", "stable tie-break by original index, using the same sort discipline as FCFS"). -/
def qsort {α : Type} (cmp : α → α → Int) : List α → List α
  | [] => []
  | x :: xs => qsort_insert cmp x (qsort cmp xs)

/-! ## Metrics -/

/-- The closing loop of each simulator with its arithmetic taken exactly: the three sums
over `p[]`, divided by `n`, as rationals.  The rounding of the `float` accumulators is
left out here; `metrics_f32` has it. -/
def metrics_of (p : List Process) : Metrics :=
  let n : ℚ := (p.length : ℚ)
  let sumTurnaround : Int := (p.map (fun q => q.completionTime - q.arrivalTime)).sum
  let sumWaiting : Int :=
    (p.map (fun q => (q.completionTime - q.arrivalTime) - q.burstTime)).sum
  let sumResponse : Int := (p.map (fun q => q.startTime - q.arrivalTime)).sum
  { avgTurnaround := (sumTurnaround : ℚ) / n
    avgWaiting := (sumWaiting : ℚ) / n
    avgResponse := (sumResponse : ℚ) / n }

/-! ## FCFS -/

/-- The simulation loop of `fcfs_metrics` over the sorted array, `t` being
`currentTime` on entry. -/
def fcfs_loop : Int → List Process → List Process
  | _, [] => []
  | t, q :: qs =>
    let t1 := if t < q.arrivalTime then q.arrivalTime else t
    let q1 := { q with startTime := t1 }
    let q2 := { q1 with completionTime := q1.burstTime + q1.startTime }
    q2 :: fcfs_loop q2.completionTime qs

/-- The array `p[]` of `fcfs_metrics` when its simulation loop has ended. -/
def fcfs_sim (proc : List Process) : List Process :=
  fcfs_loop 0 (qsort cmp_arrival_proc (init_copy proc))

/-- The function `fcfs_metrics`, its averages as exact rationals. -/
def fcfs_metrics (proc : List Process) : Metrics := metrics_of (fcfs_sim proc)

/-! ## SJF -/

/-- State of the `while` loop of `sjf_metrics`. -/
structure SjfState where
  p : List Process
  done : List Bool
  completed : Nat
  currentTime : Int
deriving DecidableEq, Repr

/-- Array read `done[i]`. -/
def isDone (done : List Bool) (i : Nat) : Bool := (done[i]?).getD false

/-- Body of the selection scan: candidate `i` against the running `(idx, minBurst)`;
`idx = -1` is `none`. -/
def sjf_scan_body (p : List Process) (done : List Bool) (t : Int)
    (acc : Option Nat × Int) (i : Nat) : Option Nat × Int :=
  if !isDone done i && decide ((nth p i).arrivalTime ≤ t) then
    if (nth p i).burstTime < acc.2 then (some i, (nth p i).burstTime) else acc
  else acc

/-- The selection scan `for (i = 0; i < n; i++)`, from `idx = -1, minBurst = INT_MAX`. -/
def sjf_scan (p : List Process) (done : List Bool) (t : Int) : Option Nat × Int :=
  (List.range p.length).foldl (sjf_scan_body p done t) (none, INT_MAX)

/-- Body of the idle scan: the running `earliestArrival` against candidate `i`. -/
def sjf_earliest_body (p : List Process) (done : List Bool) (acc : Int) (i : Nat) : Int :=
  if !isDone done i && decide ((nth p i).arrivalTime < acc) then (nth p i).arrivalTime
  else acc

/-- The idle scan, from `earliestArrival = INT_MAX`. -/
def sjf_earliest (p : List Process) (done : List Bool) : Int :=
  (List.range p.length).foldl (sjf_earliest_body p done) INT_MAX

/-- One pass through the body of the `while (completed < n)` loop of `sjf_metrics`. -/
def sjf_step (s : SjfState) : SjfState :=
  match (sjf_scan s.p s.done s.currentTime).1 with
  | none => { s with currentTime := sjf_earliest s.p s.done }
  | some idx =>
    let q := nth s.p idx
    let q1 := { q with startTime := s.currentTime }
    let q2 := { q1 with completionTime := s.currentTime + q1.burstTime }
    { p := upd s.p idx q2
      done := s.done.set idx true
      completed := s.completed + 1
      currentTime := q2.completionTime }

/-- The `while (completed < n)` loop of `sjf_metrics`; `none` when `fuel` passes do not
reach `completed = n`. -/
def sjf_loop : Nat → SjfState → Option SjfState
  | 0, s => if s.completed < s.p.length then none else some s
  | fuel + 1, s => if s.completed < s.p.length then sjf_loop fuel (sjf_step s) else some s

/-- State on entry to the loop of `sjf_metrics`. -/
def sjf_init (proc : List Process) : SjfState :=
  { p := init_copy proc
    done := List.replicate proc.length false
    completed := 0
    currentTime := 0 }

/-- The array `p[]` of `sjf_metrics` when its loop has ended. -/
def sjf_sim (fuel : Nat) (proc : List Process) : Option (List Process) :=
  (sjf_loop fuel (sjf_init proc)).map (fun s => s.p)

/-- The function `sjf_metrics`, its averages as exact rationals. -/
def sjf_metrics (fuel : Nat) (proc : List Process) : Option Metrics :=
  (sjf_sim fuel proc).map metrics_of

/-- The state after `k` passes of the loop of `sjf_metrics`, or at loop exit when that
comes first. -/
def sjf_run : Nat → SjfState → SjfState
  | 0, s => s
  | k + 1, s => if s.completed < s.p.length then sjf_run k (sjf_step s) else s

/-! ## Round Robin -/

/-- State of the `while (completed < n)` loop of `rr_metrics`; `queue` is the linked
list from `head` to `tail`. -/
structure RRState where
  p : List Process
  queue : List Nat
  currentTime : Int
  completed : Nat
  nextArrIdx : Nat
deriving DecidableEq, Repr

/-- The function `enqueue`: a new node after `tail`. -/
def enqueue (queue : List Nat) (idx : Nat) : List Nat := queue ++ [idx]

/-- The function `dequeue`: the index at `head` and the rest of the list; the return
value `-1` for an empty list is `none`. -/
def dequeue : List Nat → Option Nat × List Nat
  | [] => (none, [])
  | idx :: rest => (some idx, rest)

/-- Array read `order[k]`. -/
def ord (order : List Nat) (k : Nat) : Nat := (order[k]?).getD 0

/-- The array `order[]`: the indices `0 .. n-1` sorted by `cmp_arrival_idx`. -/
def rr_order (p : List Process) : List Nat :=
  qsort (cmp_arrival_idx p) (List.range p.length)

/-- Step (a) of the loop body: with an empty queue and an arrival left, jump to that
arrival and enqueue it. -/
def rr_ff (order : List Nat) (s : RRState) : RRState :=
  if s.queue = [] then
    if s.nextArrIdx < s.p.length then
      { s with currentTime := (nth s.p (ord order s.nextArrIdx)).arrivalTime
               queue := enqueue s.queue (ord order s.nextArrIdx)
               nextArrIdx := s.nextArrIdx + 1 }
    else s
  else s

/-- The admission loop
`while (nextArrIdx < n && p[order[nextArrIdx]].arrivalTime <= currentTime)`, run for at
most `fuel` passes on the pair `(queue, nextArrIdx)`; `n` passes always suffice. -/
def rr_enqueue_arrived (p : List Process) (order : List Nat) (t : Int) :
    Nat → List Nat × Nat → List Nat × Nat
  | 0, qn => qn
  | fuel + 1, qn =>
    if qn.2 < p.length ∧ (nth p (ord order qn.2)).arrivalTime ≤ t then
      rr_enqueue_arrived p order t fuel (enqueue qn.1 (ord order qn.2), qn.2 + 1)
    else qn

/-- The time slice granted to a process with `remainingTime = r`. -/
def rr_slice (tq r : Int) : Int := if r < tq then r else tq

/-- The loop body after a successful `dequeue` of `idx` (the queue now being `rest`):
record the start time, run the slice, admit arrivals, re-enqueue or complete. -/
def rr_exec (order : List Nat) (tq : Int) (s : RRState) (idx : Nat) (rest : List Nat) :
    RRState :=
  let q := nth s.p idx
  let q1 := if q.startTime < 0 then { q with startTime := s.currentTime } else q
  let slice := rr_slice tq q1.remainingTime
  let q2 := { q1 with remainingTime := q1.remainingTime - slice }
  let t := s.currentTime + slice
  let p2 := upd s.p idx q2
  let qn := rr_enqueue_arrived p2 order t p2.length (rest, s.nextArrIdx)
  if q2.remainingTime > 0 then
    { p := p2, queue := enqueue qn.1 idx, currentTime := t,
      completed := s.completed, nextArrIdx := qn.2 }
  else
    { p := upd p2 idx { q2 with completionTime := t }, queue := qn.1, currentTime := t,
      completed := s.completed + 1, nextArrIdx := qn.2 }

/-- One pass through the body of the `while (completed < n)` loop of `rr_metrics`. -/
def rr_step (order : List Nat) (tq : Int) (s : RRState) : RRState :=
  let s1 := rr_ff order s
  match dequeue s1.queue with
  | (none, _) => s1
  | (some idx, rest) => rr_exec order tq s1 idx rest

/-- The `while (completed < n)` loop of `rr_metrics`; `none` when `fuel` passes do not
reach `completed = n`. -/
def rr_loop (order : List Nat) (tq : Int) : Nat → RRState → Option RRState
  | 0, s => if s.completed < s.p.length then none else some s
  | fuel + 1, s =>
    if s.completed < s.p.length then rr_loop order tq fuel (rr_step order tq s) else some s

/-- The state after `k` passes of the loop of `rr_metrics`, or at loop exit when that
comes first. -/
def rr_run (order : List Nat) (tq : Int) : Nat → RRState → RRState
  | 0, s => s
  | k + 1, s =>
    if s.completed < s.p.length then rr_run order tq k (rr_step order tq s) else s

/-- The dispatch made by one pass from `s`: the index dequeued and the slice it is
given; `none` when the pass ends at `continue`. -/
def rr_dispatch (order : List Nat) (tq : Int) (s : RRState) : Option (Nat × Int) :=
  let s1 := rr_ff order s
  match dequeue s1.queue with
  | (none, _) => none
  | (some idx, _) =>
    let q := nth s1.p idx
    some (idx, rr_slice tq q.remainingTime)

/-- The dispatches of the first `k` passes from `s`, in order. -/
def rr_log (order : List Nat) (tq : Int) : Nat → RRState → List (Nat × Int)
  | 0, _ => []
  | k + 1, s =>
    if s.completed < s.p.length then
      (rr_dispatch order tq s).toList ++ rr_log order tq k (rr_step order tq s)
    else []

/-- State on entry to the loop of `rr_metrics`. -/
def rr_init (proc : List Process) : RRState :=
  { p := init_copy proc, queue := [], currentTime := 0, completed := 0, nextArrIdx := 0 }

/-- The array `p[]` of `rr_metrics` when its loop has ended. -/
def rr_sim (fuel : Nat) (proc : List Process) (timeQuantum : Int) : Option (List Process) :=
  (rr_loop (rr_order (init_copy proc)) timeQuantum fuel (rr_init proc)).map (fun s => s.p)

/-- The function `rr_metrics`, its averages as exact rationals. -/
def rr_metrics (fuel : Nat) (proc : List Process) (timeQuantum : Int) : Option Metrics :=
  (rr_sim fuel proc timeQuantum).map metrics_of

/-- Invariant of the loop of `sjf_metrics` on input `proc`, at the loop head. -/
structure SjfInv (proc : List Process) (s : SjfState) : Prop where
  len_p : s.p.length = proc.length
  len_done : s.done.length = proc.length
  static : ∀ i, i < proc.length →
    reset (nth s.p i) = reset (nth proc i) ∧ (nth s.p i).remainingTime = (nth proc i).burstTime
  undone : ∀ i, i < proc.length → isDone s.done i = false →
    (nth s.p i).startTime = -1 ∧ (nth s.p i).completionTime = 0
  started : ∀ i, i < proc.length → isDone s.done i = true →
    (nth s.p i).arrivalTime ≤ (nth s.p i).startTime ∧
    (nth s.p i).completionTime = (nth s.p i).startTime + (nth s.p i).burstTime
  count : s.completed = (List.range proc.length).countP (fun i => isDone s.done i)
  clock : (∀ i, i < proc.length → isDone s.done i = true →
    (nth s.p i).completionTime ≤ s.currentTime) ∨ sjf_step s = s
  shortest : ∀ i j, i < proc.length → j < proc.length → i ≠ j → isDone s.done i = true →
    (nth s.p j).arrivalTime ≤ (nth s.p i).startTime →
    (isDone s.done j = false ∨ (nth s.p i).startTime < (nth s.p j).startTime) →
    (nth s.p i).burstTime ≤ (nth s.p j).burstTime ∧
    ((nth s.p i).burstTime = (nth s.p j).burstTime → i < j)
  disjoint : ∀ i j, i < proc.length → j < proc.length → i ≠ j → isDone s.done i = true →
    isDone s.done j = true →
    (nth s.p i).completionTime ≤ (nth s.p j).startTime ∨
    (nth s.p j).completionTime ≤ (nth s.p i).startTime

/-- What the simulation of `rr_metrics` uses of the array `order[]`: it lists the indices
`0 .. n-1` once each, by ascending arrival time. -/
structure OrderOK (proc : List Process) (order : List Nat) : Prop where
  len : order.length = proc.length
  lt : ∀ i, i < proc.length → ord order i < proc.length
  inj : ∀ i j, i < proc.length → j < proc.length → ord order i = ord order j → i = j
  surj : ∀ x, x < proc.length → ∃ i, i < proc.length ∧ ord order i = x
  sorted : ∀ i j, i ≤ j → j < proc.length →
    (nth proc (ord order i)).arrivalTime ≤ (nth proc (ord order j)).arrivalTime

/-- Invariant of the loop of `rr_metrics` on input `proc`, at the loop head. -/
structure RRInv (proc : List Process) (order : List Nat) (s : RRState) : Prop where
  len_p : s.p.length = proc.length
  static : ∀ x, x < proc.length →
    (nth s.p x).arrivalTime = (nth proc x).arrivalTime ∧
    (nth s.p x).burstTime = (nth proc x).burstTime ∧ (nth s.p x).id = (nth proc x).id
  next_le : s.nextArrIdx ≤ proc.length
  rem_range : ∀ x, x < proc.length →
    0 ≤ (nth s.p x).remainingTime ∧ (nth s.p x).remainingTime ≤ (nth proc x).burstTime
  queue_nodup : s.queue.Nodup
  queue_mem : ∀ x, x ∈ s.queue ↔
    ∃ i, i < s.nextArrIdx ∧ ord order i = x ∧ 0 < (nth s.p x).remainingTime
  count : s.completed + s.queue.length = s.nextArrIdx
  fresh : ∀ i, s.nextArrIdx ≤ i → i < proc.length →
    (nth s.p (ord order i)).remainingTime = (nth proc (ord order i)).burstTime ∧
    (nth s.p (ord order i)).startTime = -1 ∧
    s.currentTime ≤ (nth proc (ord order i)).arrivalTime
  arrived : ∀ i, i < s.nextArrIdx → (nth proc (ord order i)).arrivalTime ≤ s.currentTime
  time_nonneg : 0 ≤ s.currentTime
  unstarted : ∀ x, x < proc.length → (nth s.p x).startTime < 0 →
    (nth s.p x).remainingTime = (nth proc x).burstTime
  start_ge : ∀ x, x < proc.length → 0 ≤ (nth s.p x).startTime →
    (nth proc x).arrivalTime ≤ (nth s.p x).startTime
  run_bound : ∀ x, x < proc.length → 0 ≤ (nth s.p x).startTime →
    (nth s.p x).startTime + ((nth proc x).burstTime - (nth s.p x).remainingTime) ≤
      s.currentTime
  done_bound : ∀ x, x < proc.length → (nth s.p x).remainingTime = 0 →
    (nth s.p x).startTime + (nth proc x).burstTime ≤ (nth s.p x).completionTime

/-- The identifier, arrival, burst, start and completion time of a record: what the
policies are compared on (`remainingTime` is written by Round Robin only). -/
def outcome (q : Process) : Int × Int × Int × Int × Int :=
  (q.id, q.arrivalTime, q.burstTime, q.startTime, q.completionTime)

/-- Invariant of the loop of `rr_metrics` when the quantum is at least every burst time:
the processes `order[0 .. completed-1]` have run, the queue holds
`order[completed .. nextArrIdx-1]` in that order, and no later process has started. -/
structure RRBig (proc : List Process) (order : List Nat) (s : RRState) : Prop where
  le : s.completed ≤ s.nextArrIdx
  queue_eq : s.queue =
    (List.range' s.completed (s.nextArrIdx - s.completed)).map (ord order)
  pending : ∀ i, s.completed ≤ i → i < proc.length →
    (nth s.p (ord order i)).remainingTime = (nth proc (ord order i)).burstTime ∧
    (nth s.p (ord order i)).startTime < 0

/-- Invariant of the loop of `sjf_metrics` on input that it serves in input order: the
processes `0 .. completed-1` are done and no other. -/
structure SjfSeq (proc : List Process) (s : SjfState) : Prop where
  done_iff : ∀ i, i < proc.length → (isDone s.done i = true ↔ i < s.completed)

/-- Invariant of the loop of `rr_metrics` on first dispatches: the processes that have
started are `order[0 .. m-1]`, with increasing start times, all before the clock; the
queued processes that have not started are `order[m .. nextArrIdx-1]`, in that order. -/
structure RRFirst (proc : List Process) (order : List Nat) (s : RRState) (m : Nat) :
    Prop where
  m_le : m ≤ s.nextArrIdx
  started_iff : ∀ i, i < proc.length → (0 ≤ (nth s.p (ord order i)).startTime ↔ i < m)
  waiting : s.queue.filter (fun x => decide ((nth s.p x).startTime < 0)) =
    (List.range' m (s.nextArrIdx - m)).map (ord order)
  before_clock : ∀ i, i < m → (nth s.p (ord order i)).startTime < s.currentTime
  increasing : ∀ a b, a < b → b < m →
    (nth s.p (ord order a)).startTime < (nth s.p (ord order b)).startTime

/-- The exponent of the leading binary digit of `a`, found by halving at most `fuel`
times; `0` when `a < 2`. -/
def ilog2_aux : Nat → Nat → Nat
  | 0, _ => 0
  | fuel + 1, a => if a < 2 then 0 else ilog2_aux fuel (a / 2) + 1

/-- The exponent of the leading binary digit of `a`: `2 ^ ilog2 a ≤ a < 2 ^ (ilog2 a + 1)`
for `0 < a`. -/
def ilog2 (a : Nat) : Nat := ilog2_aux a a

/-- The integer nearest to `num / den`, a tie going to the even one. -/
def round_even (num den : Nat) : Nat :=
  if 2 * (num % den) < den then num / den
  else if den < 2 * (num % den) then num / den + 1
  else if (num / den) % 2 = 0 then num / den
  else num / den + 1

/-- The binary32 value nearest to the natural number `a`: `a` is cut to 24 significant
binary digits, rounding to nearest with ties to even.  The result is again an integer, and
it is `a` itself when `a < 2 ^ 24`. -/
def f32_nat (a : Nat) : Nat :=
  round_even a (2 ^ (ilog2 a - 23)) * 2 ^ (ilog2 a - 23)

/-- The binary32 value nearest to the integer `x`: the conversion `(float) x` of an `int`,
and the rounding of the exact sum of two integer-valued `float`s. -/
def f32_int (x : Int) : Int :=
  if x < 0 then -((f32_nat x.natAbs : Nat) : Int) else ((f32_nat x.natAbs : Nat) : Int)

/-- The accumulation `sum = 0.0f; for (i ...) sum += (float) x[i];` in array order.  Each
addition rounds its exact result to binary32; every value the accumulator takes is an
integer. -/
def f32_sum (xs : List Int) : Int := xs.foldl (fun s x => f32_int (s + f32_int x)) 0

/-- The binary exponent of the quotient `a / b` of two positive integers:
`2 ^ e ≤ a / b < 2 ^ (e + 1)`. -/
def f32_exp (a b : Nat) : Int :=
  if b * 2 ^ ((ilog2 a : Int) - (ilog2 b : Int)).toNat
      ≤ a * 2 ^ ((ilog2 b : Int) - (ilog2 a : Int)).toNat
  then (ilog2 a : Int) - (ilog2 b : Int)
  else (ilog2 a : Int) - (ilog2 b : Int) - 1

/-- The exponent of the last binary digit binary32 keeps of `a / b`: 23 places below the
leading digit, and no lower than the subnormal limit `-149`. -/
def f32_ulp (a b : Nat) : Int := max (f32_exp a b - 23) (-149)

/-- The quotient `a / b` in units of `2 ^ f32_ulp a b`, rounded to nearest with ties to
even. -/
def f32_mant (a b : Nat) : Nat :=
  round_even (a * 2 ^ (- f32_ulp a b).toNat) (b * 2 ^ (f32_ulp a b).toNat)

/-- The binary32 quotient of two non-negative integer-valued `float`s, as the rational it
denotes.  A zero divisor, which C answers with an infinity or a NaN, gives `0` here; it
does not arise for `1 ≤ n`. -/
def f32_quot (a b : Nat) : ℚ :=
  if a = 0 ∨ b = 0 then 0 else (f32_mant a b : ℚ) * 2 ^ f32_ulp a b

/-- The expression `sum / n` of the closing code: `n` is converted to `float` and the
division is rounded to binary32. -/
def f32_avg (sum : Int) (n : Nat) : ℚ :=
  if sum < 0 then - f32_quot sum.natAbs (f32_nat n) else f32_quot sum.natAbs (f32_nat n)

/-- The closing loop of each simulator as C evaluates it in binary32 (`float` is IEEE 754
single precision, rounding to nearest with ties to even, each operation rounded to
`float`): the three sums are accumulated over `p[]` in array order and divided by `n`.
With `int` operands and at most `INT_MAX` of them every value is `0` or has magnitude
between `2 ^ (-31)` and `2 ^ 62`, so the overflow threshold of binary32 is not modelled.
The fields of the result hold the rationals that the three `float`s denote. -/
def metrics_f32 (p : List Process) : Metrics :=
  { avgTurnaround :=
      f32_avg (f32_sum (p.map (fun q => q.completionTime - q.arrivalTime))) p.length
    avgWaiting :=
      f32_avg (f32_sum (p.map (fun q => (q.completionTime - q.arrivalTime) - q.burstTime)))
        p.length
    avgResponse := f32_avg (f32_sum (p.map (fun q => q.startTime - q.arrivalTime))) p.length }

/-- The function `fcfs_metrics` with the averages in binary32. -/
def fcfs_metrics_f32 (proc : List Process) : Metrics := metrics_f32 (fcfs_sim proc)

/-- The function `sjf_metrics` with the averages in binary32. -/
def sjf_metrics_f32 (fuel : Nat) (proc : List Process) : Option Metrics :=
  (sjf_sim fuel proc).map metrics_f32

/-- The function `rr_metrics` with the averages in binary32. -/
def rr_metrics_f32 (fuel : Nat) (proc : List Process) (timeQuantum : Int) : Option Metrics :=
  (rr_sim fuel proc timeQuantum).map metrics_f32

/-! ## Arrays -/

theorem nth_eq_getElem (p : List Process) (i : Nat) (h : i < p.length) : nth p i = p[i] := by
  simp [nth, h]

theorem nth_mem (p : List Process) (i : Nat) (h : i < p.length) : nth p i ∈ p := by
  rw [nth_eq_getElem p i h]
  exact List.getElem_mem h

theorem mem_iff_nth (p : List Process) (q : Process) :
    q ∈ p ↔ ∃ i, i < p.length ∧ nth p i = q := by
  constructor
  · intro h
    obtain ⟨i, hi, rfl⟩ := List.getElem_of_mem h
    exact ⟨i, hi, nth_eq_getElem p i hi⟩
  · rintro ⟨i, hi, rfl⟩
    exact nth_mem p i hi

theorem length_upd (p : List Process) (i : Nat) (q : Process) :
    (upd p i q).length = p.length := by
  simp [upd]

theorem nth_upd_same (p : List Process) (i : Nat) (q : Process) (h : i < p.length) :
    nth (upd p i q) i = q := by
  simp [nth, upd, h]

theorem nth_upd_ne (p : List Process) (i j : Nat) (q : Process) (h : i ≠ j) :
    nth (upd p i q) j = nth p j := by
  simp [nth, upd, List.getElem?_set_ne h]

theorem nth_upd (p : List Process) (i j : Nat) (q : Process) (h : i < p.length) :
    nth (upd p i q) j = if i = j then q else nth p j := by
  by_cases hij : i = j
  · subst hij
    simp [nth_upd_same p i q h]
  · simp [hij, nth_upd_ne p i j q hij]

theorem length_init_copy (proc : List Process) : (init_copy proc).length = proc.length := by
  simp [init_copy]

theorem nth_init_copy (proc : List Process) (i : Nat) (h : i < proc.length) :
    nth (init_copy proc) i = reset (nth proc i) := by
  simp [nth, init_copy, h]

/-! ## The sort -/

theorem qsort_insert_perm {α : Type} (cmp : α → α → Int) (x : α) (l : List α) :
    (qsort_insert cmp x l).Perm (x :: l) := by
  induction l with
  | nil => simp [qsort_insert]
  | cons y ys ih =>
    simp only [qsort_insert]
    split
    · exact List.Perm.refl _
    · exact (List.Perm.cons y ih).trans (List.Perm.swap x y ys)

theorem qsort_perm {α : Type} (cmp : α → α → Int) (l : List α) : (qsort cmp l).Perm l := by
  induction l with
  | nil => simp [qsort]
  | cons x xs ih =>
    simp only [qsort]
    exact (qsort_insert_perm cmp x _).trans (List.Perm.cons x ih)

theorem length_qsort {α : Type} (cmp : α → α → Int) (l : List α) :
    (qsort cmp l).length = l.length :=
  (qsort_perm cmp l).length_eq

theorem qsort_insert_sorted {α : Type} {cmp : α → α → Int} {k : α → Int}
    (hc : ∀ a b, cmp a b ≤ 0 ↔ k a ≤ k b) (x : α) (l : List α)
    (hl : l.Pairwise (fun a b => k a ≤ k b)) :
    (qsort_insert cmp x l).Pairwise (fun a b => k a ≤ k b) := by
  induction l with
  | nil => simp [qsort_insert]
  | cons y ys ih =>
    rw [List.pairwise_cons] at hl
    simp only [qsort_insert]
    split
    · rename_i h
      rw [hc] at h
      refine List.Pairwise.cons ?_ (List.Pairwise.cons hl.1 hl.2)
      intro z hz
      rcases List.mem_cons.1 hz with rfl | hz
      · exact h
      · exact le_trans h (hl.1 z hz)
    · rename_i h
      rw [hc] at h
      refine List.Pairwise.cons ?_ (ih hl.2)
      intro z hz
      rcases List.mem_cons.1 ((qsort_insert_perm cmp x ys).mem_iff.1 hz) with rfl | hz
      · omega
      · exact hl.1 z hz

theorem qsort_sorted {α : Type} {cmp : α → α → Int} {k : α → Int}
    (hc : ∀ a b, cmp a b ≤ 0 ↔ k a ≤ k b) (l : List α) :
    (qsort cmp l).Pairwise (fun a b => k a ≤ k b) := by
  induction l with
  | nil => simp [qsort]
  | cons x xs ih =>
    simp only [qsort]
    exact qsort_insert_sorted hc x _ ih

theorem qsort_insert_filter {α : Type} {cmp : α → α → Int} {k : α → Int}
    (hc : ∀ a b, cmp a b ≤ 0 ↔ k a ≤ k b) (x : α) (l : List α) (v : Int) :
    (qsort_insert cmp x l).filter (fun a => decide (k a = v)) =
      (x :: l).filter (fun a => decide (k a = v)) := by
  induction l with
  | nil => simp [qsort_insert]
  | cons y ys ih =>
    simp only [qsort_insert]
    split
    · rfl
    · rename_i h
      rw [hc] at h
      rw [List.filter_cons, ih]
      by_cases hx : k x = v <;> by_cases hy : k y = v
      · omega
      · simp [List.filter_cons, hx, hy]
      · simp [List.filter_cons, hx, hy]
      · simp [List.filter_cons, hx, hy]

/-- The sort is stable: the elements with a given key keep their input order. -/
theorem qsort_filter {α : Type} {cmp : α → α → Int} {k : α → Int}
    (hc : ∀ a b, cmp a b ≤ 0 ↔ k a ≤ k b) (l : List α) (v : Int) :
    (qsort cmp l).filter (fun a => decide (k a = v)) =
      l.filter (fun a => decide (k a = v)) := by
  induction l with
  | nil => simp [qsort]
  | cons x xs ih =>
    simp only [qsort]
    rw [qsort_insert_filter hc, List.filter_cons, List.filter_cons, ih]

theorem qsort_insert_map {α β : Type} (cmp : β → β → Int) (f : α → β) (x : α) (l : List α) :
    qsort_insert cmp (f x) (l.map f) =
      (qsort_insert (fun a b => cmp (f a) (f b)) x l).map f := by
  induction l with
  | nil => simp [qsort_insert]
  | cons y ys ih =>
    simp only [qsort_insert, List.map_cons]
    split
    · simp
    · simp [ih]

/-- Sorting records and sorting their indices by the same keys give the same order. -/
theorem qsort_map {α β : Type} (cmp : β → β → Int) (f : α → β) (l : List α) :
    qsort cmp (l.map f) = (qsort (fun a b => cmp (f a) (f b)) l).map f := by
  induction l with
  | nil => simp [qsort]
  | cons x xs ih =>
    simp only [qsort, List.map_cons]
    rw [ih, qsort_insert_map]

/-- Two lists sorted by key in which the elements of each key come in the same order are
equal. -/
theorem eq_of_sorted_of_filter_eq {α : Type} {k : α → Int} :
    ∀ (l1 l2 : List α), l1.Pairwise (fun a b => k a ≤ k b) →
      l2.Pairwise (fun a b => k a ≤ k b) →
      (∀ v, l1.filter (fun a => decide (k a = v)) = l2.filter (fun a => decide (k a = v))) →
      l1 = l2
  | [], [], _, _, _ => rfl
  | [], y :: t2, _, _, h => by
    have := h (k y)
    simp [List.filter_cons] at this
  | x :: t1, [], _, _, h => by
    have := h (k x)
    simp [List.filter_cons] at this
  | x :: t1, y :: t2, h1, h2, h => by
    rw [List.pairwise_cons] at h1 h2
    have hxy : k x = k y := by
      have hx : x ∈ (y :: t2).filter (fun a => decide (k a = k x)) := by
        rw [← h (k x)]
        simp [List.filter_cons]
      have hy : y ∈ (x :: t1).filter (fun a => decide (k a = k y)) := by
        rw [h (k y)]
        simp [List.filter_cons]
      have hx2 : x ∈ y :: t2 := (List.mem_filter.1 hx).1
      have hy2 : y ∈ x :: t1 := (List.mem_filter.1 hy).1
      have a1 : k y ≤ k x := by
        rcases List.mem_cons.1 hx2 with e | e
        · rw [e]
        · exact h2.1 x e
      have a2 : k x ≤ k y := by
        rcases List.mem_cons.1 hy2 with e | e
        · rw [e]
        · exact h1.1 y e
      omega
    have hh := h (k x)
    simp only [List.filter_cons, hxy, decide_True, if_true] at hh
    have hh' := hh
    simp only [← hxy] at hh'
    simp at hh
    obtain ⟨e1, e2⟩ := hh
    subst e1
    have : t1 = t2 := by
      apply eq_of_sorted_of_filter_eq t1 t2 h1.2 h2.2
      intro v
      by_cases hv : k x = v
      · subst hv
        exact e2
      · have := h v
        simpa [List.filter_cons, hv] using this
    rw [this]

/-! ## FCFS -/

theorem cmp_arrival_proc_le (a b : Process) :
    cmp_arrival_proc a b ≤ 0 ↔ a.arrivalTime ≤ b.arrivalTime := by
  unfold cmp_arrival_proc
  split_ifs <;> omega

theorem cmp_arrival_idx_le (p : List Process) (a b : Nat) :
    cmp_arrival_idx p a b ≤ 0 ↔ (nth p a).arrivalTime ≤ (nth p b).arrivalTime := by
  unfold cmp_arrival_idx
  split_ifs <;> omega

theorem reset_eq_iff (a b : Process) :
    reset a = reset b ↔
      a.id = b.id ∧ a.arrivalTime = b.arrivalTime ∧ a.burstTime = b.burstTime := by
  simp only [reset, Process.mk.injEq]
  tauto

theorem reset_reset (a : Process) : reset (reset a) = reset a := rfl

theorem init_copy_map_reset (proc : List Process) :
    (init_copy proc).map reset = init_copy proc := by
  simp [init_copy, Function.comp_def, reset_reset]

theorem fcfs_loop_length (t : Int) (l : List Process) : (fcfs_loop t l).length = l.length := by
  induction l generalizing t with
  | nil => rfl
  | cons q qs ih => simp [fcfs_loop, ih]

theorem fcfs_loop_map_reset (t : Int) (l : List Process) :
    (fcfs_loop t l).map reset = l.map reset := by
  induction l generalizing t with
  | nil => rfl
  | cons q qs ih =>
    simp only [fcfs_loop, List.map_cons, ih]
    rfl

theorem fcfs_loop_map_remaining (t : Int) (l : List Process) :
    (fcfs_loop t l).map (fun q => q.remainingTime) = l.map (fun q => q.remainingTime) := by
  induction l generalizing t with
  | nil => rfl
  | cons q qs ih => simp only [fcfs_loop, List.map_cons, ih]

/-- What the FCFS loop leaves in each record: the identifier, arrival and burst it found,
a start no earlier than the entry time and the arrival, and completion one burst later. -/
theorem fcfs_loop_mem (t : Int) (l : List Process) (hb : ∀ q ∈ l, 0 ≤ q.burstTime)
    (q : Process) (hq : q ∈ fcfs_loop t l) :
    (∃ q0 ∈ l, reset q = reset q0 ∧ q.remainingTime = q0.remainingTime) ∧
      t ≤ q.startTime ∧ q.arrivalTime ≤ q.startTime ∧
      q.completionTime = q.burstTime + q.startTime := by
  induction l generalizing t with
  | nil => simp [fcfs_loop] at hq
  | cons a as ih =>
    simp only [fcfs_loop, List.mem_cons] at hq
    rcases hq with rfl | hq
    · refine ⟨⟨a, List.mem_cons_self _ _, rfl, rfl⟩, ?_, ?_, rfl⟩
      · show t ≤ (if t < a.arrivalTime then a.arrivalTime else t)
        split_ifs <;> omega
      · show a.arrivalTime ≤ (if t < a.arrivalTime then a.arrivalTime else t)
        split_ifs <;> omega
    · obtain ⟨⟨q0, h0, h1⟩, h2, h3, h4⟩ :=
        ih _ (fun q hq => hb q (List.mem_cons_of_mem _ hq)) hq
      refine ⟨⟨q0, List.mem_cons_of_mem _ h0, h1⟩, ?_, h3, h4⟩
      have h5 : a.burstTime + (if t < a.arrivalTime then a.arrivalTime else t) ≤ q.startTime := h2
      have h6 : t ≤ (if t < a.arrivalTime then a.arrivalTime else t) := by
        split_ifs <;> omega
      have h7 := hb a (List.mem_cons_self _ _)
      omega

/-- The FCFS loop runs the records one after the other in array order, and keeps any
order on identifiers and arrival times that the array has. -/
theorem fcfs_loop_pairwise (L : Process → Process → Prop)
    (hL : ∀ a b a1 b1, reset a = reset a1 → reset b = reset b1 → L a b → L a1 b1)
    (t : Int) (l : List Process) (hb : ∀ q ∈ l, 0 ≤ q.burstTime) (hl : l.Pairwise L) :
    (fcfs_loop t l).Pairwise (fun a b => L a b ∧ a.completionTime ≤ b.startTime) := by
  induction l generalizing t with
  | nil => simp [fcfs_loop]
  | cons a as ih =>
    rw [List.pairwise_cons] at hl
    have hb2 : ∀ q ∈ as, 0 ≤ q.burstTime := fun q hq => hb q (List.mem_cons_of_mem _ hq)
    simp only [fcfs_loop]
    refine List.Pairwise.cons ?_ (ih _ hb2 hl.2)
    intro b hb1
    obtain ⟨⟨b0, h0, h1, _⟩, h2, _, _⟩ := fcfs_loop_mem _ as hb2 b hb1
    exact ⟨hL a b0 _ b rfl h1.symm (hl.1 b0 h0), h2⟩

theorem valid_init_copy (proc : List Process) (hv : Valid proc) :
    ∀ q ∈ init_copy proc, 0 ≤ q.arrivalTime ∧ 0 < q.burstTime ∧ q.remainingTime = q.burstTime ∧
      q.startTime = -1 ∧ q.completionTime = 0 := by
  intro q hq
  simp only [init_copy, List.mem_map] at hq
  obtain ⟨a, ha, rfl⟩ := hq
  have := hv.2 a ha
  exact ⟨this.1, this.2, rfl, rfl, rfl⟩

theorem sorted_copy_burst (proc : List Process) (hv : Valid proc) :
    ∀ q ∈ qsort cmp_arrival_proc (init_copy proc), 0 ≤ q.burstTime := by
  intro q hq
  have := valid_init_copy proc hv q ((qsort_perm _ _).mem_iff.1 hq)
  omega

/-- The FCFS half of the start/completion contract: the final array holds every input
process once (the reset records are a rearrangement of the working copies), and each
record has `startTime ≥ arrivalTime` and `completionTime = startTime + burstTime`. -/
theorem fcfs_start_completion (proc : List Process) (hv : Valid proc) :
    ((fcfs_sim proc).map reset).Perm (init_copy proc) ∧
      ∀ q ∈ fcfs_sim proc, q.arrivalTime ≤ q.startTime ∧
        q.completionTime = q.startTime + q.burstTime ∧
        q.startTime < q.completionTime := by
  constructor
  · unfold fcfs_sim
    rw [fcfs_loop_map_reset]
    have h := (qsort_perm cmp_arrival_proc (init_copy proc)).map reset
    rwa [init_copy_map_reset] at h
  · intro q hq
    obtain ⟨⟨q0, h0, h1, _⟩, _, h3, h4⟩ :=
      fcfs_loop_mem 0 _ (sorted_copy_burst proc hv) q hq
    have h5 := valid_init_copy proc hv q0 ((qsort_perm _ _).mem_iff.1 h0)
    have h6 := (reset_eq_iff q q0).1 h1
    omega

theorem fcfs_start_completion_witness :
    Valid (mkProcs [(0, 5), (1, 3), (2, 8)]) ∧
      (((fcfs_sim (mkProcs [(0, 5), (1, 3), (2, 8)])).map reset).Perm
          (init_copy (mkProcs [(0, 5), (1, 3), (2, 8)])) ∧
        ∀ q ∈ fcfs_sim (mkProcs [(0, 5), (1, 3), (2, 8)]), q.arrivalTime ≤ q.startTime ∧
          q.completionTime = q.startTime + q.burstTime ∧
          q.startTime < q.completionTime) :=
  ⟨by decide, fcfs_start_completion _ (by decide)⟩

/-! ### Identifiers as input positions -/

theorem tagIdx_length (proc : List Process) : (tagIdx proc).length = proc.length := by
  simp [tagIdx]

theorem nth_tagIdx (proc : List Process) (i : Nat) (h : i < proc.length) :
    nth (tagIdx proc) i = { nth proc i with id := (i : Int) } := by
  simp [nth, tagIdx, h, List.getElem?_enum]

theorem tagIdx_pairwise (proc : List Process) :
    (tagIdx proc).Pairwise (fun a b => a.id < b.id) := by
  unfold tagIdx
  rw [List.pairwise_map]
  have h : (proc.enum.map Prod.fst).Pairwise (fun a b => a < b) := by
    rw [List.enum_map_fst]
    exact List.pairwise_lt_range _
  rw [List.pairwise_map] at h
  exact h.imp (fun h => by simpa using h)

theorem valid_tagIdx (proc : List Process) (hv : Valid proc) : Valid (tagIdx proc) := by
  refine ⟨by rw [tagIdx_length]; exact hv.1, ?_⟩
  intro q hq
  simp only [tagIdx, List.mem_map] at hq
  obtain ⟨x, hx, rfl⟩ := hq
  exact hv.2 x.2 (List.snd_mem_of_mem_enum hx)

/-- Arrival time, then identifier: the order in which FCFS serves tagged input. -/
theorem qsort_insert_lex (x : Process) (l : List Process)
    (hl : l.Pairwise (fun a b => a.arrivalTime < b.arrivalTime ∨
      (a.arrivalTime = b.arrivalTime ∧ a.id < b.id)))
    (hx : ∀ y ∈ l, x.id < y.id) :
    (qsort_insert cmp_arrival_proc x l).Pairwise (fun a b => a.arrivalTime < b.arrivalTime ∨
      (a.arrivalTime = b.arrivalTime ∧ a.id < b.id)) := by
  induction l with
  | nil => simp [qsort_insert]
  | cons y ys ih =>
    rw [List.pairwise_cons] at hl
    simp only [qsort_insert]
    split
    · rename_i h
      rw [cmp_arrival_proc_le] at h
      refine List.Pairwise.cons ?_ (List.Pairwise.cons hl.1 hl.2)
      intro z hz
      have hz1 := hx z hz
      rcases List.mem_cons.1 hz with rfl | hz
      · omega
      · have := hl.1 z hz
        omega
    · rename_i h
      rw [cmp_arrival_proc_le] at h
      refine List.Pairwise.cons ?_ (ih hl.2 (fun y hy => hx y (List.mem_cons_of_mem _ hy)))
      intro z hz
      rcases List.mem_cons.1 ((qsort_insert_perm _ x ys).mem_iff.1 hz) with rfl | hz
      · omega
      · exact hl.1 z hz

theorem qsort_lex (l : List Process) (hl : l.Pairwise (fun a b => a.id < b.id)) :
    (qsort cmp_arrival_proc l).Pairwise (fun a b => a.arrivalTime < b.arrivalTime ∨
      (a.arrivalTime = b.arrivalTime ∧ a.id < b.id)) := by
  induction l with
  | nil => simp [qsort]
  | cons x xs ih =>
    rw [List.pairwise_cons] at hl
    simp only [qsort]
    refine qsort_insert_lex x _ (ih hl.2) ?_
    intro y hy
    exact hl.1 y ((qsort_perm _ _).mem_iff.1 hy)

/-- Claim C8. In `fcfs_metrics` on valid input whose processes are named by their input
position, every process is in the final array with its arrival and burst time, and
whenever process `i` arrives strictly before process `j`, or at the same time with `i`
earlier in the input, `i` has completed by the time `j` starts. -/
theorem fcfs_arrival_order (proc : List Process) (hv : Valid proc) :
    (∀ i, i < proc.length → ∃ q ∈ fcfs_sim (tagIdx proc), q.id = (i : Int) ∧
        q.arrivalTime = (nth proc i).arrivalTime ∧ q.burstTime = (nth proc i).burstTime) ∧
      ∀ qi ∈ fcfs_sim (tagIdx proc), ∀ qj ∈ fcfs_sim (tagIdx proc), qi.id ≠ qj.id →
        (qi.arrivalTime < qj.arrivalTime ∨
          (qi.arrivalTime = qj.arrivalTime ∧ qi.id < qj.id)) →
        qi.completionTime ≤ qj.startTime := by
  have hv2 := valid_tagIdx proc hv
  constructor
  · intro i hi
    have h1 : reset (nth (tagIdx proc) i) ∈ (fcfs_sim (tagIdx proc)).map reset := by
      rw [(fcfs_start_completion (tagIdx proc) hv2).1.mem_iff, ← nth_init_copy _ _
        (by rw [tagIdx_length]; exact hi)]
      exact nth_mem _ _ (by rw [length_init_copy, tagIdx_length]; exact hi)
    obtain ⟨q, hq, hqe⟩ := List.mem_map.1 h1
    have h2 := (reset_eq_iff _ _).1 hqe
    rw [nth_tagIdx proc i hi] at h2
    exact ⟨q, hq, h2.1, h2.2.1, h2.2.2⟩
  · have hs : (qsort cmp_arrival_proc (init_copy (tagIdx proc))).Pairwise
        (fun a b => a.arrivalTime < b.arrivalTime ∨
          (a.arrivalTime = b.arrivalTime ∧ a.id < b.id)) := by
      apply qsort_lex
      unfold init_copy
      rw [List.pairwise_map]
      exact (tagIdx_pairwise proc).imp (fun h => h)
    have hp := fcfs_loop_pairwise _ (by
      intro a b a1 b1 ha hb h
      have ha := (reset_eq_iff _ _).1 ha
      have hb := (reset_eq_iff _ _).1 hb
      omega) 0 _ (sorted_copy_burst _ hv2) hs
    have hsym : (fcfs_sim (tagIdx proc)).Pairwise (fun a b =>
        ((a.arrivalTime < b.arrivalTime ∨ (a.arrivalTime = b.arrivalTime ∧ a.id < b.id)) ∧
          a.completionTime ≤ b.startTime) ∨
        ((b.arrivalTime < a.arrivalTime ∨ (b.arrivalTime = a.arrivalTime ∧ b.id < a.id)) ∧
          b.completionTime ≤ a.startTime)) := hp.imp (fun h => Or.inl h)
    intro qi hqi qj hqj hne hlt
    have hne2 : qi ≠ qj := fun h => hne (by rw [h])
    rcases hsym.forall (fun a b h => h.symm) hqi hqj hne2 with h | h
    · exact h.2
    · omega

theorem fcfs_arrival_order_witness :
    Valid (mkProcs [(3, 5), (1, 3), (1, 8)]) ∧
      ((∀ i, i < (mkProcs [(3, 5), (1, 3), (1, 8)]).length →
          ∃ q ∈ fcfs_sim (tagIdx (mkProcs [(3, 5), (1, 3), (1, 8)])), q.id = (i : Int) ∧
            q.arrivalTime = (nth (mkProcs [(3, 5), (1, 3), (1, 8)]) i).arrivalTime ∧
            q.burstTime = (nth (mkProcs [(3, 5), (1, 3), (1, 8)]) i).burstTime) ∧
        ∀ qi ∈ fcfs_sim (tagIdx (mkProcs [(3, 5), (1, 3), (1, 8)])),
          ∀ qj ∈ fcfs_sim (tagIdx (mkProcs [(3, 5), (1, 3), (1, 8)])), qi.id ≠ qj.id →
          (qi.arrivalTime < qj.arrivalTime ∨
            (qi.arrivalTime = qj.arrivalTime ∧ qi.id < qj.id)) →
          qi.completionTime ≤ qj.startTime) :=
  ⟨by decide, fcfs_arrival_order _ (by decide)⟩

/-! ### Permuted input -/

theorem init_copy_filter (proc : List Process) (a : Int) :
    (init_copy proc).filter (fun q => decide (q.arrivalTime = a)) =
      init_copy (proc.filter (fun q => decide (q.arrivalTime = a))) := by
  unfold init_copy
  rw [List.filter_map]
  rfl

/-- Inputs in which the processes of each arrival time come in the same order are sorted
to the same array. -/
theorem qsort_copy_congr (proc proc1 : List Process)
    (hs : ∀ a : Int, proc1.filter (fun q => decide (q.arrivalTime = a)) =
      proc.filter (fun q => decide (q.arrivalTime = a))) :
    qsort cmp_arrival_proc (init_copy proc1) = qsort cmp_arrival_proc (init_copy proc) := by
  apply eq_of_sorted_of_filter_eq _ _ (qsort_sorted cmp_arrival_proc_le _)
    (qsort_sorted cmp_arrival_proc_le _)
  intro v
  rw [qsort_filter cmp_arrival_proc_le, qsort_filter cmp_arrival_proc_le, init_copy_filter,
    init_copy_filter, hs v]

theorem filter_length_le_one (l : List Process) (hn : (l.map (fun q => q.arrivalTime)).Nodup)
    (a : Int) : (l.filter (fun q => decide (q.arrivalTime = a))).length ≤ 1 := by
  induction l with
  | nil => simp
  | cons x xs ih =>
    rw [List.map_cons, List.nodup_cons] at hn
    rw [List.filter_cons]
    split
    · rename_i h
      have hx : x.arrivalTime = a := by simpa using h
      have : xs.filter (fun q => decide (q.arrivalTime = a)) = [] := by
        rw [List.filter_eq_nil_iff]
        intro y hy hya
        apply hn.1
        rw [List.mem_map]
        exact ⟨y, hy, by rw [hx]; simpa using hya⟩
      simp [this]
    · exact ih hn.2

theorem perm_eq_of_length_le_one {α : Type} (l1 l2 : List α) (hp : l1.Perm l2)
    (hl : l1.length ≤ 1) : l1 = l2 := by
  match l1, hl with
  | [], _ => exact hp.nil_eq
  | [x], _ => exact (List.singleton_perm.1 hp)

/-- The `Metrics` of FCFS depend on the input only through the order of the processes
of each arrival time. -/
theorem fcfs_metrics_congr (proc proc1 : List Process)
    (hs : ∀ a : Int, proc1.filter (fun q => decide (q.arrivalTime = a)) =
      proc.filter (fun q => decide (q.arrivalTime = a))) :
    fcfs_metrics proc1 = fcfs_metrics proc := by
  unfold fcfs_metrics fcfs_sim
  rw [qsort_copy_congr proc proc1 hs]

/-- With pairwise distinct arrival times FCFS returns the same `Metrics` on every
permutation of the input. -/
theorem fcfs_metrics_perm_of_distinct (proc proc1 : List Process) (hp : proc1.Perm proc)
    (hn : (proc.map (fun q => q.arrivalTime)).Nodup) :
    fcfs_metrics proc1 = fcfs_metrics proc := by
  apply fcfs_metrics_congr
  intro a
  apply perm_eq_of_length_le_one _ _ (hp.filter _)
  have hn1 : (proc1.map (fun q => q.arrivalTime)).Nodup := (hp.map _).nodup_iff.2 hn
  exact filter_length_le_one proc1 hn1 a

/-- Claim C4, counterexample. Two processes arriving together with bursts 1 and 10: in
input order the averages are 6, 1/2, 1/2; with the input reversed they are 21/2, 5, 5. -/
theorem fcfs_metrics_perm_counterexample :
    Valid (mkProcs [(0, 1), (0, 10)]) ∧
      (mkProcs [(0, 1), (0, 10)]).reverse.Perm (mkProcs [(0, 1), (0, 10)]) ∧
      fcfs_metrics (mkProcs [(0, 1), (0, 10)]) = ⟨6, 1 / 2, 1 / 2⟩ ∧
      fcfs_metrics (mkProcs [(0, 1), (0, 10)]).reverse = ⟨21 / 2, 5, 5⟩ ∧
      fcfs_metrics (mkProcs [(0, 1), (0, 10)]).reverse ≠
        fcfs_metrics (mkProcs [(0, 1), (0, 10)]) := by
  have h1 : fcfs_sim (mkProcs [(0, 1), (0, 10)]) =
      [⟨0, 0, 1, 1, 0, 1⟩, ⟨1, 0, 10, 10, 1, 11⟩] := by decide
  have h2 : fcfs_sim (mkProcs [(0, 1), (0, 10)]).reverse =
      [⟨1, 0, 10, 10, 0, 10⟩, ⟨0, 0, 1, 1, 10, 11⟩] := by decide
  have e1 : fcfs_metrics (mkProcs [(0, 1), (0, 10)]) = ⟨6, 1 / 2, 1 / 2⟩ := by
    norm_num [fcfs_metrics, metrics_of, h1]
  have e2 : fcfs_metrics (mkProcs [(0, 1), (0, 10)]).reverse = ⟨21 / 2, 5, 5⟩ := by
    norm_num [fcfs_metrics, metrics_of, h2]
  refine ⟨by decide, List.reverse_perm _, e1, e2, ?_⟩
  rw [e1, e2]
  intro h
  have := congrArg Metrics.avgWaiting h
  norm_num at this

/-- Claim C4, amended. On valid input `fcfs_metrics` returns the same `Metrics` for every
permutation of the input that keeps the processes of each arrival time in the same
relative order. -/
theorem fcfs_metrics_perm (proc proc1 : List Process) (_hv : Valid proc)
    (hp : proc1.Perm proc)
    (hs : ∀ q0 ∈ proc, proc1.filter (fun q => decide (q.arrivalTime = q0.arrivalTime)) =
      proc.filter (fun q => decide (q.arrivalTime = q0.arrivalTime))) :
    fcfs_metrics proc1 = fcfs_metrics proc := by
  apply fcfs_metrics_congr
  intro a
  by_cases ha : ∃ q0 ∈ proc, q0.arrivalTime = a
  · obtain ⟨q0, h0, rfl⟩ := ha
    exact hs q0 h0
  · have e1 : proc.filter (fun q => decide (q.arrivalTime = a)) = [] := by
      rw [List.filter_eq_nil_iff]
      intro y hy hya
      exact ha ⟨y, hy, by simpa using hya⟩
    have e2 : proc1.filter (fun q => decide (q.arrivalTime = a)) = [] := by
      rw [List.filter_eq_nil_iff]
      intro y hy hya
      exact ha ⟨y, hp.mem_iff.1 hy, by simpa using hya⟩
    rw [e1, e2]

theorem fcfs_metrics_perm_witness :
    Valid (mkProcs [(0, 5), (1, 3), (1, 8)]) ∧
      ([⟨1, 1, 3, 0, 0, 0⟩, ⟨0, 0, 5, 0, 0, 0⟩, ⟨2, 1, 8, 0, 0, 0⟩] : List Process).Perm
        (mkProcs [(0, 5), (1, 3), (1, 8)]) ∧
      fcfs_metrics [⟨1, 1, 3, 0, 0, 0⟩, ⟨0, 0, 5, 0, 0, 0⟩, ⟨2, 1, 8, 0, 0, 0⟩] =
        fcfs_metrics (mkProcs [(0, 5), (1, 3), (1, 8)]) :=
  ⟨by decide, List.Perm.swap _ _ _,
    fcfs_metrics_perm _ _ (by decide) (List.Perm.swap _ _ _) (by decide)⟩

/-! ## SJF -/

theorem isDone_set (done : List Bool) (i j : Nat) (h : i < done.length) :
    isDone (done.set i true) j = if i = j then true else isDone done j := by
  unfold isDone
  by_cases hij : i = j
  · subst hij
    simp [h]
  · simp [hij, List.getElem?_set_ne hij]

/-- What the selection scan has found after the candidates `0 .. m-1`. -/
theorem sjf_scan_fold (p : List Process) (done : List Bool) (t : Int) (m : Nat) :
    (((List.range m).foldl (sjf_scan_body p done t) (none, INT_MAX)).1 = none →
        ((List.range m).foldl (sjf_scan_body p done t) (none, INT_MAX)).2 = INT_MAX ∧
        ∀ j, j < m → isDone done j = false → (nth p j).arrivalTime ≤ t →
          INT_MAX ≤ (nth p j).burstTime) ∧
      ∀ i, ((List.range m).foldl (sjf_scan_body p done t) (none, INT_MAX)).1 = some i →
        i < m ∧ isDone done i = false ∧ (nth p i).arrivalTime ≤ t ∧
        ((List.range m).foldl (sjf_scan_body p done t) (none, INT_MAX)).2 =
          (nth p i).burstTime ∧
        (nth p i).burstTime < INT_MAX ∧
        ∀ j, j < m → isDone done j = false → (nth p j).arrivalTime ≤ t →
          (nth p i).burstTime ≤ (nth p j).burstTime ∧
          ((nth p j).burstTime = (nth p i).burstTime → i ≤ j) := by
  induction m with
  | zero => simp
  | succ m ih =>
    rw [List.range_succ, List.foldl_append]
    simp only [List.foldl_cons, List.foldl_nil]
    generalize (List.range m).foldl (sjf_scan_body p done t) (none, INT_MAX) = acc at ih ⊢
    obtain ⟨r, b⟩ := acc
    obtain ⟨ih1, ih2⟩ := ih
    simp only at ih1 ih2
    unfold sjf_scan_body
    by_cases hc : (!isDone done m && decide ((nth p m).arrivalTime ≤ t)) = true
    · have hc1 : isDone done m = false ∧ (nth p m).arrivalTime ≤ t := by simpa using hc
      rw [if_pos hc]
      by_cases hb : (nth p m).burstTime < b
      · simp only [hb, if_true]
        refine ⟨by simp, ?_⟩
        intro i hi
        simp only [Option.some.injEq] at hi
        subst hi
        refine ⟨by omega, hc1.1, hc1.2, rfl, ?_, ?_⟩
        · cases r with
          | none => have := (ih1 rfl).1; omega
          | some i0 => have := ih2 i0 rfl; omega
        · intro j hj hdj haj
          rcases Nat.lt_succ_iff_lt_or_eq.1 hj with hj | rfl
          · cases r with
            | none =>
              have := (ih1 rfl).2 j hj hdj haj
              have := (ih1 rfl).1
              omega
            | some i0 =>
              have h3 := ih2 i0 rfl
              have := h3.2.2.2.2.2 j hj hdj haj
              omega
          · exact ⟨le_refl _, fun _ => le_refl _⟩
      · simp only [hb, if_false]
        constructor
        · intro hr
          refine ⟨(ih1 hr).1, ?_⟩
          intro j hj hdj haj
          rcases Nat.lt_succ_iff_lt_or_eq.1 hj with hj | rfl
          · exact (ih1 hr).2 j hj hdj haj
          · have := (ih1 hr).1
            omega
        · intro i hi
          obtain ⟨h1, h2, h3, h4, h5, h6⟩ := ih2 i hi
          refine ⟨by omega, h2, h3, h4, h5, ?_⟩
          intro j hj hdj haj
          rcases Nat.lt_succ_iff_lt_or_eq.1 hj with hj | rfl
          · exact h6 j hj hdj haj
          · constructor <;> omega
    · rw [if_neg hc]
      have hc1 : ¬ (isDone done m = false ∧ (nth p m).arrivalTime ≤ t) := by simpa using hc
      constructor
      · intro hr
        refine ⟨(ih1 hr).1, ?_⟩
        intro j hj hdj haj
        rcases Nat.lt_succ_iff_lt_or_eq.1 hj with hj | rfl
        · exact (ih1 hr).2 j hj hdj haj
        · exact absurd ⟨hdj, haj⟩ hc1
      · intro i hi
        obtain ⟨h1, h2, h3, h4, h5, h6⟩ := ih2 i hi
        refine ⟨by omega, h2, h3, h4, h5, ?_⟩
        intro j hj hdj haj
        rcases Nat.lt_succ_iff_lt_or_eq.1 hj with hj | rfl
        · exact h6 j hj hdj haj
        · exact absurd ⟨hdj, haj⟩ hc1

theorem sjf_scan_none (p : List Process) (done : List Bool) (t : Int)
    (h : (sjf_scan p done t).1 = none) :
    ∀ j, j < p.length → isDone done j = false → (nth p j).arrivalTime ≤ t →
      INT_MAX ≤ (nth p j).burstTime :=
  ((sjf_scan_fold p done t p.length).1 h).2

theorem sjf_scan_some (p : List Process) (done : List Bool) (t : Int) (i : Nat)
    (h : (sjf_scan p done t).1 = some i) :
    i < p.length ∧ isDone done i = false ∧ (nth p i).arrivalTime ≤ t ∧
      (nth p i).burstTime < INT_MAX ∧
      ∀ j, j < p.length → isDone done j = false → (nth p j).arrivalTime ≤ t →
        (nth p i).burstTime ≤ (nth p j).burstTime ∧
        ((nth p j).burstTime = (nth p i).burstTime → i ≤ j) := by
  obtain ⟨h1, h2, h3, _, h5, h6⟩ := (sjf_scan_fold p done t p.length).2 i h
  exact ⟨h1, h2, h3, h5, h6⟩

theorem isDone_replicate (n i : Nat) : isDone (List.replicate n false) i = false := by
  unfold isDone
  by_cases h : i < n
  · simp [h]
  · simp [h]

theorem countP_isDone_set (done : List Bool) (i0 : Nat) (h0 : i0 < done.length)
    (hd : isDone done i0 = false) (m : Nat) :
    (List.range m).countP (fun i => isDone (done.set i0 true) i) =
      (List.range m).countP (fun i => isDone done i) + (if i0 < m then 1 else 0) := by
  induction m with
  | zero => simp
  | succ m ih =>
    rw [List.range_succ, List.countP_append, List.countP_append, ih]
    simp only [List.countP_cons, List.countP_nil, isDone_set done i0 m h0]
    by_cases h1 : i0 = m
    · subst h1
      simp [hd]
    · by_cases h2 : i0 < m
      · have h3 : i0 < m + 1 := by omega
        simp [h1, h2, h3]
        omega
      · have h3 : ¬ i0 < m + 1 := by omega
        simp [h1, h2, h3]

theorem sjf_inv_init (proc : List Process) : SjfInv proc (sjf_init proc) := by
  refine
    { len_p := length_init_copy proc
      len_done := by simp [sjf_init]
      static := ?_
      undone := ?_
      started := ?_
      count := ?_
      clock := ?_
      shortest := ?_
      disjoint := ?_ }
  · intro i hi
    simp only [sjf_init, nth_init_copy proc i hi]
    exact ⟨rfl, rfl⟩
  · intro i hi _
    simp only [sjf_init, nth_init_copy proc i hi]
    exact ⟨rfl, rfl⟩
  · intro i _ hd
    simp [sjf_init, isDone_replicate] at hd
  · simp [sjf_init, isDone_replicate]
  · left
    intro i _ hd
    simp [sjf_init, isDone_replicate] at hd
  · intro i j _ _ _ hd
    simp [sjf_init, isDone_replicate] at hd
  · intro i j _ _ _ hd
    simp [sjf_init, isDone_replicate] at hd

theorem sjf_step_none (s : SjfState) (h : (sjf_scan s.p s.done s.currentTime).1 = none) :
    sjf_step s = { s with currentTime := sjf_earliest s.p s.done } := by
  simp only [sjf_step, h]

theorem sjf_step_some (s : SjfState) (idx : Nat)
    (h : (sjf_scan s.p s.done s.currentTime).1 = some idx) :
    sjf_step s =
      { p := upd s.p idx { nth s.p idx with
            startTime := s.currentTime
            completionTime := s.currentTime + (nth s.p idx).burstTime }
        done := s.done.set idx true
        completed := s.completed + 1
        currentTime := s.currentTime + (nth s.p idx).burstTime } := by
  simp only [sjf_step, h]

theorem valid_nth (proc : List Process) (hv : Valid proc) (i : Nat) (hi : i < proc.length) :
    0 ≤ (nth proc i).arrivalTime ∧ 0 < (nth proc i).burstTime :=
  hv.2 _ (nth_mem proc i hi)

theorem sjf_inv_burst (proc : List Process) (hv : Valid proc) (s : SjfState)
    (h : SjfInv proc s) (i : Nat) (hi : i < proc.length) :
    0 ≤ (nth s.p i).arrivalTime ∧ 0 < (nth s.p i).burstTime := by
  have h1 := (reset_eq_iff _ _).1 (h.static i hi).1
  have h2 := valid_nth proc hv i hi
  omega

/-- One pass of the SJF loop keeps the invariant. -/
theorem sjf_inv_step (proc : List Process) (hv : Valid proc) (s : SjfState)
    (h : SjfInv proc s) : SjfInv proc (sjf_step s) := by
  rcases h.clock with hc | hdead
  swap
  · rw [hdead]
    exact h
  cases hscan : (sjf_scan s.p s.done s.currentTime).1 with
  | none =>
    rw [sjf_step_none s hscan]
    refine
      { len_p := h.len_p
        len_done := h.len_done
        static := h.static
        undone := h.undone
        started := h.started
        count := h.count
        clock := ?_
        shortest := h.shortest
        disjoint := h.disjoint }
    by_cases hle : s.currentTime ≤ sjf_earliest s.p s.done
    · left
      intro i hi hd
      have := hc i hi hd
      show (nth s.p i).completionTime ≤ sjf_earliest s.p s.done
      omega
    · right
      have hn : (sjf_scan s.p s.done (sjf_earliest s.p s.done)).1 = none := by
        cases h2 : (sjf_scan s.p s.done (sjf_earliest s.p s.done)).1 with
        | none => rfl
        | some i =>
          obtain ⟨a1, a2, a3, a4, _⟩ := sjf_scan_some _ _ _ i h2
          have := sjf_scan_none _ _ _ hscan i a1 a2 (by omega)
          omega
      rw [sjf_step_none _ hn]
  | some idx =>
    obtain ⟨a1, a2, a3, a4, a5⟩ := sjf_scan_some _ _ _ idx hscan
    rw [sjf_step_some s idx hscan]
    have hlen := h.len_p
    have hld := h.len_done
    have hn : ∀ i, nth (upd s.p idx { nth s.p idx with
            startTime := s.currentTime
            completionTime := s.currentTime + (nth s.p idx).burstTime }) i =
        if idx = i then { nth s.p idx with
            startTime := s.currentTime
            completionTime := s.currentTime + (nth s.p idx).burstTime } else nth s.p i :=
      fun i => nth_upd _ _ _ _ a1
    have hd : ∀ i, isDone (s.done.set idx true) i = if idx = i then true else isDone s.done i :=
      fun i => isDone_set _ _ _ (by omega)
    have hpos := sjf_inv_burst proc hv s h
    refine
      { len_p := by simp only [length_upd]; exact hlen
        len_done := by simp only [List.length_set]; exact hld
        static := ?_
        undone := ?_
        started := ?_
        count := ?_
        clock := ?_
        shortest := ?_
        disjoint := ?_ }
    · intro i hi
      simp only [hn]
      by_cases e : idx = i
      · subst e
        simp only [if_true]
        exact h.static idx hi
      · simp only [e, if_false]
        exact h.static i hi
    · intro i hi hdi
      simp only [hn, hd] at hdi ⊢
      by_cases e : idx = i
      · simp [e] at hdi
      · simp only [e, if_false] at hdi ⊢
        exact h.undone i hi hdi
    · intro i hi hdi
      simp only [hn, hd] at hdi ⊢
      by_cases e : idx = i
      · subst e
        simp only [if_true]
        exact ⟨a3, trivial⟩
      · simp only [e, if_false] at hdi ⊢
        exact h.started i hi hdi
    · show s.completed + 1 = _
      rw [countP_isDone_set s.done idx (by omega) a2, ← h.count]
      simp [show idx < proc.length by omega]
    · left
      intro i hi hdi
      simp only [hn, hd] at hdi ⊢
      by_cases e : idx = i
      · subst e
        simp
      · simp only [e, if_false] at hdi ⊢
        have := hc i hi hdi
        have := hpos idx (by omega)
        omega
    · intro i j hi hj hij hdi haj hor
      simp only [hn, hd] at hdi haj hor ⊢
      by_cases ei : idx = i
      · subst ei
        have ej : ¬ idx = j := hij
        simp only [ej, if_false, if_true] at hdi haj hor ⊢
        have hund : isDone s.done j = false := by
          rcases hor with h1 | h1
          · exact h1
          · by_contra hdj
            have hdj : isDone s.done j = true := by simpa using hdj
            have := hc j hj hdj
            have := (h.started j hj hdj).2
            have := hpos j hj
            omega
        have := a5 j (by omega) hund haj
        constructor
        · exact this.1
        · intro hb
          have := this.2 hb.symm
          omega
      · simp only [ei, if_false] at hdi haj hor ⊢
        by_cases ej : idx = j
        · subst ej
          simp only [if_true] at haj hor ⊢
          exact h.shortest i idx hi hj hij hdi haj (Or.inl a2)
        · simp only [ej, if_false] at haj hor ⊢
          exact h.shortest i j hi hj hij hdi haj hor
    · intro i j hi hj hij hdi hdj
      simp only [hn, hd] at hdi hdj ⊢
      by_cases ei : idx = i
      · subst ei
        have ej : ¬ idx = j := hij
        simp only [ej, if_false, if_true] at hdj ⊢
        right
        exact hc j hj hdj
      · simp only [ei, if_false] at hdi ⊢
        by_cases ej : idx = j
        · subst ej
          simp only [if_true]
          left
          exact hc i hi hdi
        · simp only [ej, if_false] at hdj ⊢
          exact h.disjoint i j hi hj hij hdi hdj

theorem sjf_inv_run (proc : List Process) (hv : Valid proc) (k : Nat) (s : SjfState)
    (h : SjfInv proc s) : SjfInv proc (sjf_run k s) := by
  induction k generalizing s with
  | zero => exact h
  | succ k ih =>
    simp only [sjf_run]
    split
    · exact ih _ (sjf_inv_step proc hv s h)
    · exact h

/-- The loop returns the state that `sjf_run` reaches, when that state is past the loop
condition. -/
theorem sjf_loop_eq_run (fuel : Nat) (s : SjfState) :
    sjf_loop fuel s =
      if (sjf_run fuel s).completed < (sjf_run fuel s).p.length then none
      else some (sjf_run fuel s) := by
  induction fuel generalizing s with
  | zero => rfl
  | succ k ih =>
    simp only [sjf_loop, sjf_run]
    by_cases h : s.completed < s.p.length
    · simp only [h, if_true]
      exact ih _
    · simp only [h, if_false]

/-- What the idle scan has found after the candidates `0 .. m-1`. -/
theorem sjf_earliest_fold (p : List Process) (done : List Bool) (m : Nat) :
    (List.range m).foldl (sjf_earliest_body p done) INT_MAX ≤ INT_MAX ∧
      (∀ j, j < m → isDone done j = false →
        (List.range m).foldl (sjf_earliest_body p done) INT_MAX ≤ (nth p j).arrivalTime) ∧
      ((List.range m).foldl (sjf_earliest_body p done) INT_MAX = INT_MAX ∨
        ∃ j, j < m ∧ isDone done j = false ∧
          (List.range m).foldl (sjf_earliest_body p done) INT_MAX = (nth p j).arrivalTime) := by
  induction m with
  | zero => simp
  | succ m ih =>
    rw [List.range_succ, List.foldl_append]
    simp only [List.foldl_cons, List.foldl_nil]
    generalize (List.range m).foldl (sjf_earliest_body p done) INT_MAX = e at ih ⊢
    obtain ⟨ih1, ih2, ih3⟩ := ih
    unfold sjf_earliest_body
    by_cases hc : (!isDone done m && decide ((nth p m).arrivalTime < e)) = true
    · have hc1 : isDone done m = false ∧ (nth p m).arrivalTime < e := by simpa using hc
      rw [if_pos hc]
      refine ⟨by omega, ?_, Or.inr ⟨m, by omega, hc1.1, rfl⟩⟩
      intro j hj hdj
      rcases Nat.lt_succ_iff_lt_or_eq.1 hj with hj | rfl
      · have := ih2 j hj hdj
        omega
      · exact le_refl _
    · rw [if_neg hc]
      have hc1 : ¬ (isDone done m = false ∧ (nth p m).arrivalTime < e) := by simpa using hc
      refine ⟨ih1, ?_, ?_⟩
      · intro j hj hdj
        rcases Nat.lt_succ_iff_lt_or_eq.1 hj with hj | rfl
        · exact ih2 j hj hdj
        · by_contra hlt
          exact hc1 ⟨hdj, by omega⟩
      · rcases ih3 with h | ⟨j, hj, h⟩
        · exact Or.inl h
        · exact Or.inr ⟨j, by omega, h⟩

/-- Claim C7. In every state that the loop of `sjf_metrics` reaches on valid input, if
process `j` had arrived when process `i` was dispatched (`arrivalTime_j ≤ startTime_i`)
and `j` was dispatched later than `i` (or `i` has been dispatched and `j` not yet), then
`burstTime_i ≤ burstTime_j`, and with equal bursts `i` has the lower index. -/
theorem sjf_shortest_first (proc : List Process) (hv : Valid proc) (k i j : Nat)
    (hi : i < proc.length) (hj : j < proc.length) (hij : i ≠ j)
    (haj : (nth (sjf_run k (sjf_init proc)).p j).arrivalTime ≤
      (nth (sjf_run k (sjf_init proc)).p i).startTime)
    (hlt : (nth (sjf_run k (sjf_init proc)).p i).startTime <
        (nth (sjf_run k (sjf_init proc)).p j).startTime ∨
      (isDone (sjf_run k (sjf_init proc)).done i = true ∧
        isDone (sjf_run k (sjf_init proc)).done j = false)) :
    (nth (sjf_run k (sjf_init proc)).p i).burstTime ≤
        (nth (sjf_run k (sjf_init proc)).p j).burstTime ∧
      ((nth (sjf_run k (sjf_init proc)).p i).burstTime =
        (nth (sjf_run k (sjf_init proc)).p j).burstTime → i < j) := by
  have h := sjf_inv_run proc hv k _ (sjf_inv_init proc)
  generalize sjf_run k (sjf_init proc) = s at h haj hlt ⊢
  have hpj := sjf_inv_burst proc hv s h j hj
  have hdi : isDone s.done i = true := by
    rcases hlt with h1 | h1
    · by_contra hd
      have hd : isDone s.done i = false := by simpa using hd
      have := (h.undone i hi hd).1
      omega
    · exact h1.1
  apply h.shortest i j hi hj hij hdi haj
  rcases hlt with h1 | h1
  · exact Or.inr h1
  · exact Or.inl h1.2

theorem sjf_shortest_first_witness :
    Valid (mkProcs [(0, 7), (2, 4), (4, 1), (5, 4)]) ∧
      (nth (sjf_run 4 (sjf_init (mkProcs [(0, 7), (2, 4), (4, 1), (5, 4)]))).p 2).startTime = 7 ∧
      (nth (sjf_run 4 (sjf_init (mkProcs [(0, 7), (2, 4), (4, 1), (5, 4)]))).p 1).startTime = 8 ∧
      ((nth (sjf_run 4 (sjf_init (mkProcs [(0, 7), (2, 4), (4, 1), (5, 4)]))).p 2).burstTime ≤
          (nth (sjf_run 4 (sjf_init (mkProcs [(0, 7), (2, 4), (4, 1), (5, 4)]))).p 1).burstTime ∧
        ((nth (sjf_run 4 (sjf_init (mkProcs [(0, 7), (2, 4), (4, 1), (5, 4)]))).p 2).burstTime =
          (nth (sjf_run 4 (sjf_init (mkProcs [(0, 7), (2, 4), (4, 1), (5, 4)]))).p 1).burstTime →
          2 < 1)) :=
  ⟨by decide, by decide, by decide,
    sjf_shortest_first _ (by decide) 4 2 1 (by decide) (by decide) (by decide) (by decide)
      (Or.inl (by decide))⟩

/-! ### A burst time equal to `INT_MAX` -/

/-- With the single process `(arrivalTime 0, burstTime INT_MAX)` a pass of the SJF loop
changes nothing: the candidate's burst is not below the initial `minBurst`, and the idle
scan sets `currentTime` to the arrival time it already has. -/
theorem sjf_step_int_max :
    sjf_step (sjf_init (mkProcs [(0, 2147483647)])) = sjf_init (mkProcs [(0, 2147483647)]) := by
  decide

theorem sjf_run_int_max (k : Nat) :
    sjf_run k (sjf_init (mkProcs [(0, 2147483647)])) = sjf_init (mkProcs [(0, 2147483647)]) := by
  induction k with
  | zero => rfl
  | succ k ih =>
    simp only [sjf_run]
    rw [sjf_step_int_max, ih]
    simp

theorem sjf_loop_int_max (fuel : Nat) :
    sjf_loop fuel (sjf_init (mkProcs [(0, 2147483647)])) = none := by
  rw [sjf_loop_eq_run, sjf_run_int_max]
  decide

/-- Claim C10, at the failing input. The single process `(0, INT_MAX)` is valid input in
the `int` range, and the loop of `sjf_metrics` ends for no number of passes; no pass
dispatches the process. -/
theorem sjf_int_max_no_termination :
    Valid (mkProcs [(0, 2147483647)]) ∧
      (∀ q ∈ mkProcs [(0, 2147483647)], q.arrivalTime ≤ INT_MAX ∧ q.burstTime ≤ INT_MAX) ∧
      (∀ fuel, sjf_loop fuel (sjf_init (mkProcs [(0, 2147483647)])) = none) ∧
      ∀ k, (sjf_run k (sjf_init (mkProcs [(0, 2147483647)]))).completed = 0 := by
  refine ⟨by decide, by decide, sjf_loop_int_max, ?_⟩
  intro k
  rw [sjf_run_int_max]
  rfl

/-- Claim C1, at the failing input. On the single process `(0, INT_MAX)` FCFS ends with
`startTime = 0 = arrivalTime` and `completionTime = startTime + burstTime`; under SJF the
process keeps `startTime = -1` and `completionTime = 0` after every number of passes and
`sjf_metrics` returns for no amount of fuel. -/
theorem sjf_int_max_never_started :
    Valid (mkProcs [(0, 2147483647)]) ∧
      fcfs_sim (mkProcs [(0, 2147483647)]) = [⟨0, 0, 2147483647, 2147483647, 0, 2147483647⟩] ∧
      (∀ k, (sjf_run k (sjf_init (mkProcs [(0, 2147483647)]))).p =
        [⟨0, 0, 2147483647, 2147483647, -1, 0⟩]) ∧
      ∀ fuel, sjf_metrics fuel (mkProcs [(0, 2147483647)]) = none := by
  refine ⟨by decide, by decide, ?_, ?_⟩
  · intro k
    rw [sjf_run_int_max]
    decide
  · intro fuel
    simp [sjf_metrics, sjf_sim, sjf_loop_int_max]

/-- Claim C6, at the failing input. The single process `(0, INT_MAX)` has all bursts equal
and strictly increasing arrival times; FCFS gives it start 0 and completion `INT_MAX`,
SJF gives it no start or completion time for any amount of fuel. -/
theorem sjf_int_max_not_fcfs :
    Valid (mkProcs [(0, 2147483647)]) ∧
      (∀ q ∈ mkProcs [(0, 2147483647)], q.burstTime = 2147483647) ∧
      ((mkProcs [(0, 2147483647)]).map (fun q => q.arrivalTime)).Pairwise (fun a b => a < b) ∧
      (fcfs_sim (mkProcs [(0, 2147483647)])).map (fun q => (q.startTime, q.completionTime)) =
        [(0, 2147483647)] ∧
      ∀ fuel, sjf_sim fuel (mkProcs [(0, 2147483647)]) = none := by
  refine ⟨by decide, by decide, by decide, by decide, ?_⟩
  intro fuel
  simp [sjf_sim, sjf_loop_int_max]

/-! ## Round Robin -/

theorem ord_eq_getElem (order : List Nat) (i : Nat) (h : i < order.length) :
    ord order i = order[i] := by
  simp [ord, h]

theorem rr_order_perm (p : List Process) : (rr_order p).Perm (List.range p.length) :=
  qsort_perm _ _

theorem rr_order_sorted (p : List Process) :
    (rr_order p).Pairwise (fun a b => (nth p a).arrivalTime ≤ (nth p b).arrivalTime) :=
  qsort_sorted (cmp_arrival_idx_le p) _

theorem order_ok_of_perm (proc : List Process) (o : List Nat)
    (hp : o.Perm (List.range proc.length))
    (hs : o.Pairwise (fun a b => (nth proc a).arrivalTime ≤ (nth proc b).arrivalTime)) :
    OrderOK proc o := by
  have hlen : o.length = proc.length := by
    rw [hp.length_eq, List.length_range]
  have hnd : o.Nodup := hp.nodup_iff.2 (List.nodup_range _)
  have hlt : ∀ i, i < proc.length → ord o i < proc.length := by
    intro i hi
    have hi2 : i < o.length := by omega
    rw [ord_eq_getElem _ i hi2]
    exact List.mem_range.1 (hp.mem_iff.1 (List.getElem_mem hi2))
  refine ⟨hlen, hlt, ?_, ?_, ?_⟩
  · intro i j hi hj h
    have hi2 : i < o.length := by omega
    have hj2 : j < o.length := by omega
    rw [ord_eq_getElem _ i hi2, ord_eq_getElem _ j hj2] at h
    exact (hnd.getElem_inj_iff).1 h
  · intro x hx
    obtain ⟨i, hi, h⟩ := List.getElem_of_mem (hp.mem_iff.2 (List.mem_range.2 hx))
    exact ⟨i, by omega, by rw [ord_eq_getElem _ i hi]; exact h⟩
  · intro i j hij hj
    have hi2 : i < o.length := by omega
    have hj2 : j < o.length := by omega
    rw [List.pairwise_iff_getElem] at hs
    rw [ord_eq_getElem _ i hi2, ord_eq_getElem _ j hj2]
    rcases Nat.lt_or_eq_of_le hij with h | h
    · exact hs i j hi2 hj2 h
    · subst h
      exact le_refl _

theorem rr_order_ok (proc : List Process) : OrderOK proc (rr_order (init_copy proc)) := by
  apply order_ok_of_perm
  · have := rr_order_perm (init_copy proc)
    rwa [length_init_copy] at this
  · have hs := rr_order_sorted (init_copy proc)
    have hmem : ∀ x ∈ rr_order (init_copy proc), x < proc.length := by
      intro x hx
      have := (rr_order_perm (init_copy proc)).mem_iff.1 hx
      rw [length_init_copy] at this
      exact List.mem_range.1 this
    generalize rr_order (init_copy proc) = o at hs hmem
    induction o with
    | nil => exact List.Pairwise.nil
    | cons a as ih =>
      rw [List.pairwise_cons] at hs ⊢
      refine ⟨?_, ih hs.2 (fun x hx => hmem x (List.mem_cons_of_mem _ hx))⟩
      intro b hb
      have h1 := hs.1 b hb
      rw [nth_init_copy proc a (hmem a (List.mem_cons_self _ _)),
        nth_init_copy proc b (hmem b (List.mem_cons_of_mem _ hb))] at h1
      exact h1

/-- The admission loop appends `order[k .. k'-1]` to the queue, where `k'` is the first
position from `k` on whose process has not arrived by `t` (or `n`). -/
theorem rr_enqueue_arrived_spec (proc p : List Process) (order : List Nat) (t : Int)
    (hlen : p.length = proc.length)
    (harr : ∀ x, x < proc.length → (nth p x).arrivalTime = (nth proc x).arrivalTime)
    (ho : OrderOK proc order) :
    ∀ (fuel : Nat) (q : List Nat) (k : Nat), k ≤ proc.length → proc.length - k ≤ fuel →
      ∃ k1, rr_enqueue_arrived p order t fuel (q, k) = (q ++ (List.range' k (k1 - k)).map (ord order), k1) ∧
        k ≤ k1 ∧ k1 ≤ proc.length ∧
        (∀ i, k ≤ i → i < k1 → (nth proc (ord order i)).arrivalTime ≤ t) ∧
        (k1 < proc.length → t < (nth proc (ord order k1)).arrivalTime) := by
  intro fuel
  induction fuel with
  | zero =>
    intro q k hk hf
    refine ⟨k, ?_, le_refl _, hk, ?_, ?_⟩
    · simp [rr_enqueue_arrived]
    · intro i h1 h2
      omega
    · intro h
      omega
  | succ fuel ih =>
    intro q k hk hf
    simp only [rr_enqueue_arrived]
    by_cases hc : k < p.length ∧ (nth p (ord order k)).arrivalTime ≤ t
    · rw [if_pos hc]
      have hk1 : k < proc.length := by omega
      obtain ⟨k1, e, h1, h2, h3, h4⟩ := ih (enqueue q (ord order k)) (k + 1) (by omega) (by omega)
      refine ⟨k1, ?_, by omega, h2, ?_, h4⟩
      · rw [e]
        have : k1 - k = (k1 - (k + 1)) + 1 := by omega
        rw [this, List.range'_succ]
        simp [enqueue]
      · intro i hi1 hi2
        rcases Nat.lt_or_eq_of_le hi1 with h | h
        · exact h3 i (by omega) hi2
        · subst h
          rw [← harr _ (ho.lt k hk1)]
          exact hc.2
    · rw [if_neg hc]
      refine ⟨k, by simp, le_refl _, hk, ?_, ?_⟩
      · intro i h1 h2
        omega
      · intro h
        rw [← harr _ (ho.lt k h)]
        by_contra hn
        exact hc ⟨by omega, by omega⟩

theorem rr_inv_init (proc : List Process) (hv : Valid proc) (order : List Nat)
    (ho : OrderOK proc order) : RRInv proc order (rr_init proc) := by
  have hn : ∀ x, x < proc.length → nth (init_copy proc) x = reset (nth proc x) :=
    fun x hx => nth_init_copy proc x hx
  refine
    { len_p := length_init_copy proc
      static := ?_
      next_le := Nat.zero_le _
      rem_range := ?_
      queue_nodup := List.nodup_nil
      queue_mem := ?_
      count := rfl
      fresh := ?_
      arrived := ?_
      time_nonneg := le_refl _
      unstarted := ?_
      start_ge := ?_
      run_bound := ?_
      done_bound := ?_ }
  · intro x hx
    simp only [rr_init, hn x hx]
    exact ⟨rfl, rfl, rfl⟩
  · intro x hx
    simp only [rr_init, hn x hx]
    have := valid_nth proc hv x hx
    exact ⟨by show 0 ≤ (nth proc x).burstTime; omega, le_refl _⟩
  · intro x
    simp [rr_init]
  · intro i _ hi
    simp only [rr_init, hn _ (ho.lt i hi)]
    exact ⟨rfl, rfl, (valid_nth proc hv _ (ho.lt i hi)).1⟩
  · intro i hi
    simp [rr_init] at hi
  · intro x hx _
    simp only [rr_init, hn x hx]
    rfl
  · intro x hx h
    simp only [rr_init, hn x hx] at h
    have h : (0 : Int) ≤ -1 := h
    omega
  · intro x hx h
    simp only [rr_init, hn x hx] at h
    have h : (0 : Int) ≤ -1 := h
    omega
  · intro x hx h
    simp only [rr_init, hn x hx] at h
    have := valid_nth proc hv x hx
    have h : (nth proc x).burstTime = 0 := h
    omega

theorem rr_ff_idle (order : List Nat) (s : RRState) (hq : s.queue = [])
    (hn : s.nextArrIdx < s.p.length) :
    rr_ff order s =
      { s with currentTime := (nth s.p (ord order s.nextArrIdx)).arrivalTime
               queue := [ord order s.nextArrIdx]
               nextArrIdx := s.nextArrIdx + 1 } := by
  simp [rr_ff, hq, hn, enqueue]

theorem rr_ff_busy (order : List Nat) (s : RRState) (hq : s.queue ≠ []) :
    rr_ff order s = s := by
  simp [rr_ff, hq]

theorem rr_ff_end (order : List Nat) (s : RRState) (hn : ¬ s.nextArrIdx < s.p.length) :
    rr_ff order s = s := by
  simp [rr_ff, hn]

/-- Step (a) keeps the invariant. -/
theorem rr_inv_ff (proc : List Process) (hv : Valid proc) (order : List Nat)
    (ho : OrderOK proc order) (s : RRState) (h : RRInv proc order s) :
    RRInv proc order (rr_ff order s) := by
  by_cases hq : s.queue = []
  swap
  · rw [rr_ff_busy order s hq]
    exact h
  by_cases hn : s.nextArrIdx < s.p.length
  swap
  · rw [rr_ff_end order s hn]
    exact h
  rw [rr_ff_idle order s hq hn]
  have hlen := h.len_p
  have hk : s.nextArrIdx < proc.length := by omega
  have hx := ho.lt _ hk
  have harr := (h.static _ hx).1
  have hfr := h.fresh _ (le_refl _) hk
  have hcount := h.count
  rw [hq, List.length_nil] at hcount
  refine
    { len_p := h.len_p
      static := h.static
      next_le := hk
      rem_range := h.rem_range
      queue_nodup := List.nodup_singleton _
      queue_mem := ?_
      count := ?_
      fresh := ?_
      arrived := ?_
      time_nonneg := ?_
      unstarted := h.unstarted
      start_ge := h.start_ge
      run_bound := ?_
      done_bound := h.done_bound }
  · intro x
    simp only [List.mem_singleton]
    constructor
    · intro e
      subst e
      refine ⟨s.nextArrIdx, by omega, rfl, ?_⟩
      have := valid_nth proc hv _ hx
      omega
    · rintro ⟨i, hi, e, hr⟩
      have hi : i < s.nextArrIdx + 1 := hi
      rcases Nat.lt_succ_iff_lt_or_eq.1 hi with h1 | h1
      · have := (h.queue_mem x).2 ⟨i, h1, e, hr⟩
        rw [hq] at this
        simp at this
      · subst h1
        exact e.symm
  · show s.completed + 1 = s.nextArrIdx + 1
    omega
  · intro i hi1 hi2
    have hi1 : s.nextArrIdx + 1 ≤ i := hi1
    have := h.fresh i (by omega) hi2
    refine ⟨this.1, this.2.1, ?_⟩
    show (nth s.p (ord order s.nextArrIdx)).arrivalTime ≤ _
    rw [harr]
    exact ho.sorted _ _ (by omega) hi2
  · intro i hi
    have hi : i < s.nextArrIdx + 1 := hi
    show _ ≤ (nth s.p (ord order s.nextArrIdx)).arrivalTime
    rw [harr]
    exact ho.sorted _ _ (by omega) hk
  · show 0 ≤ (nth s.p (ord order s.nextArrIdx)).arrivalTime
    rw [harr]
    exact (valid_nth proc hv _ hx).1
  · intro x hx2 hs
    have := h.run_bound x hx2 hs
    show (nth s.p x).startTime + ((nth proc x).burstTime - (nth s.p x).remainingTime) ≤
      (nth s.p (ord order s.nextArrIdx)).arrivalTime
    rw [harr]
    omega

/-- After step (a) the queue is not empty while processes remain. -/
theorem rr_ff_queue_ne_nil (proc : List Process) (order : List Nat) (s : RRState)
    (h : RRInv proc order s) (hc : s.completed < s.p.length) :
    (rr_ff order s).queue ≠ [] := by
  by_cases hq : s.queue = []
  · have hcount := h.count
    rw [hq, List.length_nil] at hcount
    have hn : s.nextArrIdx < s.p.length := by omega
    rw [rr_ff_idle order s hq hn]
    simp
  · rw [rr_ff_busy order s hq]
    exact hq

theorem upd_upd (p : List Process) (i : Nat) (a b : Process) :
    upd (upd p i a) i b = upd p i b := by
  simp [upd]

theorem rr_slice_pos (tq r : Int) (htq : 0 < tq) (hr : 0 < r) :
    0 < rr_slice tq r ∧ rr_slice tq r ≤ r ∧ rr_slice tq r ≤ tq ∧
      (0 < r - rr_slice tq r → rr_slice tq r = tq) := by
  unfold rr_slice
  split_ifs <;> omega

theorem rr_exec_eq (order : List Nat) (tq : Int) (s : RRState) (idx : Nat) (rest : List Nat)
    (q1 q2 : Process) (qn : List Nat × Nat)
    (hq1 : q1 = if (nth s.p idx).startTime < 0 then
      { nth s.p idx with startTime := s.currentTime } else nth s.p idx)
    (hq2 : q2 = { q1 with remainingTime := q1.remainingTime - rr_slice tq q1.remainingTime })
    (hqn : qn = rr_enqueue_arrived (upd s.p idx q2) order (s.currentTime + rr_slice tq q1.remainingTime)
      (upd s.p idx q2).length (rest, s.nextArrIdx)) :
    rr_exec order tq s idx rest =
      if q2.remainingTime > 0 then
        { p := upd s.p idx q2, queue := enqueue qn.1 idx,
          currentTime := s.currentTime + rr_slice tq q1.remainingTime,
          completed := s.completed, nextArrIdx := qn.2 }
      else
        { p := upd (upd s.p idx q2) idx
            { q2 with completionTime := s.currentTime + rr_slice tq q1.remainingTime },
          queue := qn.1, currentTime := s.currentTime + rr_slice tq q1.remainingTime,
          completed := s.completed + 1, nextArrIdx := qn.2 } := by
  subst hq1 hq2 hqn
  rfl

/-- What the body of the loop does after dequeuing `idx`: the record of `idx` gets its
start time on a first dispatch, loses one slice of remaining time and, when nothing
remains, gets its completion time; the queue gains the arrivals `order[next .. k1-1]` and
then `idx` again if it is unfinished. -/
theorem rr_exec_spec (proc : List Process) (order : List Nat) (tq : Int) (s : RRState)
    (idx : Nat) (rest : List Nat) (ho : OrderOK proc order)
    (hlen : s.p.length = proc.length)
    (harr : ∀ x, x < proc.length → (nth s.p x).arrivalTime = (nth proc x).arrivalTime)
    (hidx : idx < proc.length) (hnext : s.nextArrIdx ≤ proc.length) :
    ∃ (k1 : Nat) (qf : Process),
      (rr_exec order tq s idx rest).p = upd s.p idx qf ∧
      (rr_exec order tq s idx rest).queue =
        rest ++ (List.range' s.nextArrIdx (k1 - s.nextArrIdx)).map (ord order) ++
          (if 0 < qf.remainingTime then [idx] else []) ∧
      (rr_exec order tq s idx rest).currentTime =
        s.currentTime + rr_slice tq (nth s.p idx).remainingTime ∧
      (rr_exec order tq s idx rest).completed =
        s.completed + (if 0 < qf.remainingTime then 0 else 1) ∧
      (rr_exec order tq s idx rest).nextArrIdx = k1 ∧
      s.nextArrIdx ≤ k1 ∧ k1 ≤ proc.length ∧
      (∀ i, s.nextArrIdx ≤ i → i < k1 → (nth proc (ord order i)).arrivalTime ≤
        s.currentTime + rr_slice tq (nth s.p idx).remainingTime) ∧
      (k1 < proc.length → s.currentTime + rr_slice tq (nth s.p idx).remainingTime <
        (nth proc (ord order k1)).arrivalTime) ∧
      qf.id = (nth s.p idx).id ∧ qf.arrivalTime = (nth s.p idx).arrivalTime ∧
      qf.burstTime = (nth s.p idx).burstTime ∧
      qf.remainingTime = (nth s.p idx).remainingTime - rr_slice tq (nth s.p idx).remainingTime ∧
      qf.startTime = (if (nth s.p idx).startTime < 0 then s.currentTime
        else (nth s.p idx).startTime) ∧
      qf.completionTime = (if 0 < qf.remainingTime then (nth s.p idx).completionTime
        else s.currentTime + rr_slice tq (nth s.p idx).remainingTime) := by
  obtain ⟨q1, hq1⟩ : ∃ q1 : Process, q1 = if (nth s.p idx).startTime < 0 then
      { nth s.p idx with startTime := s.currentTime } else nth s.p idx := ⟨_, rfl⟩
  obtain ⟨q2, hq2⟩ : ∃ q2 : Process, q2 =
      { q1 with remainingTime := q1.remainingTime - rr_slice tq q1.remainingTime } := ⟨_, rfl⟩
  obtain ⟨qn, hqn⟩ : ∃ qn : List Nat × Nat, qn = rr_enqueue_arrived (upd s.p idx q2) order
      (s.currentTime + rr_slice tq q1.remainingTime) (upd s.p idx q2).length
      (rest, s.nextArrIdx) := ⟨_, rfl⟩
  have he := rr_exec_eq order tq s idx rest q1 q2 qn hq1 hq2 hqn
  have f1 : q1.id = (nth s.p idx).id ∧ q1.arrivalTime = (nth s.p idx).arrivalTime ∧
      q1.burstTime = (nth s.p idx).burstTime ∧
      q1.remainingTime = (nth s.p idx).remainingTime ∧
      q1.completionTime = (nth s.p idx).completionTime ∧
      q1.startTime = (if (nth s.p idx).startTime < 0 then s.currentTime
        else (nth s.p idx).startTime) := by
    rw [hq1]
    split_ifs <;> exact ⟨rfl, rfl, rfl, rfl, rfl, rfl⟩
  obtain ⟨f1a, f1b, f1c, f1d, f1e, f1f⟩ := f1
  have f2 : q2.id = q1.id ∧ q2.arrivalTime = q1.arrivalTime ∧ q2.burstTime = q1.burstTime ∧
      q2.remainingTime = q1.remainingTime - rr_slice tq q1.remainingTime ∧
      q2.completionTime = q1.completionTime ∧ q2.startTime = q1.startTime := by
    rw [hq2]
    exact ⟨rfl, rfl, rfl, rfl, rfl, rfl⟩
  obtain ⟨f2a, f2b, f2c, f2d, f2e, f2f⟩ := f2
  have hlen2 : (upd s.p idx q2).length = proc.length := by rw [length_upd]; exact hlen
  have harr2 : ∀ x, x < proc.length →
      (nth (upd s.p idx q2) x).arrivalTime = (nth proc x).arrivalTime := by
    intro x hx
    rw [nth_upd _ _ _ _ (by omega)]
    split_ifs with e
    · subst e
      rw [f2b, f1b]
      exact harr idx hx
    · exact harr x hx
  obtain ⟨k1, e1, h1, h2, h3, h4⟩ := rr_enqueue_arrived_spec proc (upd s.p idx q2) order
    (s.currentTime + rr_slice tq q1.remainingTime) hlen2 harr2 ho proc.length rest
    s.nextArrIdx hnext (by omega)
  rw [hlen2] at hqn
  rw [e1] at hqn
  rw [f1d] at he h3 h4 f2d
  clear hq1
  by_cases hr : q2.remainingTime > 0
  · rw [if_pos hr] at he
    refine ⟨k1, q2, ?_⟩
    rw [he, hqn]
    simp only [hr, if_true, enqueue, gt_iff_lt, Nat.add_zero, true_and]
    refine ⟨h1, h2, h3, h4, ?_⟩
    refine ⟨by rw [f2a, f1a], by rw [f2b, f1b], by rw [f2c, f1c], f2d, by rw [f2f, f1f],
      by rw [f2e, f1e]⟩
  · rw [if_neg hr] at he
    refine ⟨k1, { q2 with completionTime :=
      s.currentTime + rr_slice tq (nth s.p idx).remainingTime }, ?_⟩
    rw [he, hqn, upd_upd]
    have hr2 : ¬ 0 < q2.remainingTime := hr
    simp only [hr2, if_false, List.append_nil, true_and]
    refine ⟨h1, h2, h3, h4, ?_⟩
    refine ⟨by rw [f2a, f1a], by rw [f2b, f1b], by rw [f2c, f1c], f2d, by rw [f2f, f1f],
      trivial⟩

/-- The body of the loop after a dequeue keeps the invariant. -/
theorem rr_inv_exec (proc : List Process) (hv : Valid proc) (order : List Nat)
    (ho : OrderOK proc order) (tq : Int) (htq : 0 < tq) (s : RRState)
    (h : RRInv proc order s) (idx : Nat) (rest : List Nat) (hq : s.queue = idx :: rest) :
    RRInv proc order (rr_exec order tq s idx rest) := by
  have hlen := h.len_p
  obtain ⟨i0, hi0, hord0, hrem0⟩ := (h.queue_mem idx).1 (by rw [hq]; exact List.mem_cons_self _ _)
  have hnext := h.next_le
  have hidx : idx < proc.length := by rw [← hord0]; exact ho.lt i0 (by omega)
  obtain ⟨k1, qf, ep, eq, et, ec, en, h1, h2, h3, h4, g1, g2, g3, g4, g5, g6⟩ :=
    rr_exec_spec proc order tq s idx rest ho hlen (fun x hx => (h.static x hx).1) hidx hnext
  obtain ⟨sl1, sl2, sl3, _⟩ := rr_slice_pos tq _ htq hrem0
  have hst := h.static idx hidx
  have hrr := h.rem_range idx hidx
  have hct := h.time_nonneg
  have hnd := h.queue_nodup
  rw [hq, List.nodup_cons] at hnd
  have hcount := h.count
  rw [hq, List.length_cons] at hcount
  have harr0 := h.arrived i0 hi0
  rw [hord0] at harr0
  have hs1 : 0 ≤ qf.startTime := by
    rw [g5]
    split_ifs <;> omega
  have hs2 : (nth proc idx).arrivalTime ≤ qf.startTime := by
    rw [g5]
    split_ifs with e
    · exact harr0
    · exact h.start_ge idx hidx (by omega)
  have hs3 : qf.startTime + ((nth proc idx).burstTime - qf.remainingTime) ≤
      s.currentTime + rr_slice tq (nth s.p idx).remainingTime := by
    rw [g5, g4]
    split_ifs with e
    · have := h.unstarted idx hidx e
      omega
    · have := h.run_bound idx hidx (by omega)
      omega
  have hn : ∀ x, nth (upd s.p idx qf) x = if idx = x then qf else nth s.p x :=
    fun x => nth_upd _ _ _ _ (by omega)
  have hrest : ∀ x, x ∈ rest → x ≠ idx ∧ ∃ i, i < s.nextArrIdx ∧ ord order i = x ∧
      0 < (nth s.p x).remainingTime := by
    intro x hx
    refine ⟨fun e => hnd.1 (e ▸ hx), ?_⟩
    exact (h.queue_mem x).1 (by rw [hq]; exact List.mem_cons_of_mem _ hx)
  have hnew : ∀ x, x ∈ (List.range' s.nextArrIdx (k1 - s.nextArrIdx)).map (ord order) ↔
      ∃ j, s.nextArrIdx ≤ j ∧ j < k1 ∧ ord order j = x := by
    intro x
    simp only [List.mem_map, List.mem_range'_1]
    constructor
    · rintro ⟨j, ⟨a, b⟩, c⟩
      exact ⟨j, a, by omega, c⟩
    · rintro ⟨j, a, b, c⟩
      exact ⟨j, ⟨a, by omega⟩, c⟩
  have hne : ∀ j, s.nextArrIdx ≤ j → j < proc.length → ord order j ≠ idx := by
    intro j hj1 hj2 e
    have := ho.inj j i0 hj2 (by omega) (by rw [e, hord0])
    omega
  refine
    { len_p := by rw [ep, length_upd]; exact hlen
      static := ?_
      next_le := by rw [en]; exact h2
      rem_range := ?_
      queue_nodup := ?_
      queue_mem := ?_
      count := ?_
      fresh := ?_
      arrived := ?_
      time_nonneg := by rw [et]; omega
      unstarted := ?_
      start_ge := ?_
      run_bound := ?_
      done_bound := ?_ }
  · intro x hx
    rw [ep, hn]
    split_ifs with e
    · subst e
      rw [g1, g2, g3]
      exact hst
    · exact h.static x hx
  · intro x hx
    rw [ep, hn]
    split_ifs with e
    · subst e
      rw [g4]
      omega
    · exact h.rem_range x hx
  · rw [eq]
    have hnd1 : (rest ++ (List.range' s.nextArrIdx (k1 - s.nextArrIdx)).map (ord order)).Nodup := by
      rw [List.nodup_append]
      refine ⟨hnd.2, ?_, ?_⟩
      · apply List.Nodup.map_on _ (List.nodup_range' _ _)
        intro a ha b hb hab
        rw [List.mem_range'_1] at ha hb
        exact ho.inj a b (by omega) (by omega) hab
      · intro x hx1 hx2
        obtain ⟨_, i, hi, e1, _⟩ := hrest x hx1
        obtain ⟨j, hj1, hj2, e2⟩ := (hnew x).1 hx2
        have := ho.inj i j (by omega) (by omega) (by rw [e1, e2])
        omega
    split_ifs
    · rw [List.nodup_append]
      refine ⟨hnd1, List.nodup_singleton _, ?_⟩
      intro x hx1 hx2
      rw [List.mem_singleton] at hx2
      subst hx2
      rcases List.mem_append.1 hx1 with hx | hx
      · exact hnd.1 hx
      · obtain ⟨j, hj1, hj2, e2⟩ := (hnew x).1 hx
        exact hne j hj1 (by omega) e2
    · rw [List.append_nil]
      exact hnd1
  · intro x
    rw [eq, ep, en, hn]
    simp only [List.mem_append, hnew]
    constructor
    · rintro ((hx | ⟨j, hj1, hj2, e2⟩) | hx)
      · obtain ⟨a, i, hi, e1, hr⟩ := hrest x hx
        refine ⟨i, by omega, e1, ?_⟩
        rw [if_neg (fun e => a e.symm)]
        exact hr
      · refine ⟨j, hj2, e2, ?_⟩
        have hx : ord order j ≠ idx := hne j hj1 (by omega)
        rw [e2] at hx
        rw [if_neg (fun e => hx e.symm)]
        have := (h.fresh j hj1 (by omega)).1
        rw [e2] at this
        rw [this]
        have hxl : x < proc.length := by rw [← e2]; exact ho.lt j (by omega)
        exact (valid_nth proc hv x hxl).2
      · split_ifs at hx with hpos
        · rw [List.mem_singleton] at hx
          subst hx
          refine ⟨i0, by omega, hord0, ?_⟩
          rw [if_pos rfl]
          exact hpos
        · simp at hx
    · rintro ⟨i, hi, e1, hr⟩
      by_cases e : idx = x
      · subst e
        rw [if_pos rfl] at hr
        right
        rw [if_pos hr]
        exact List.mem_singleton_self _
      · rw [if_neg e] at hr
        left
        by_cases hlt : i < s.nextArrIdx
        · left
          have := (h.queue_mem x).2 ⟨i, hlt, e1, hr⟩
          rw [hq] at this
          rcases List.mem_cons.1 this with h5 | h5
          · exact absurd h5.symm e
          · exact h5
        · right
          exact ⟨i, by omega, hi, e1⟩
  · rw [ec, eq, en]
    simp only [List.length_append, List.length_map, List.length_range']
    split_ifs
    · simp only [List.length_singleton]
      omega
    · simp only [List.length_nil]
      omega
  · intro i hi1 hi2
    rw [en] at hi1
    rw [ep, et, hn, if_neg (fun e => hne i (by omega) hi2 e.symm)]
    have := h.fresh i (by omega) hi2
    refine ⟨this.1, this.2.1, ?_⟩
    have := h4 (by omega)
    have := ho.sorted k1 i hi1 hi2
    omega
  · intro i hi
    rw [en] at hi
    rw [et]
    by_cases hlt : i < s.nextArrIdx
    · have := h.arrived i hlt
      omega
    · exact h3 i (by omega) hi
  · intro x hx
    rw [ep, hn]
    split_ifs with e
    · intro hneg
      omega
    · exact h.unstarted x hx
  · intro x hx
    rw [ep, hn]
    split_ifs with e
    · subst e
      intro _
      exact hs2
    · exact h.start_ge x hx
  · intro x hx
    rw [ep, et, hn]
    split_ifs with e
    · subst e
      intro _
      exact hs3
    · intro hs
      have := h.run_bound x hx hs
      omega
  · intro x hx
    rw [ep, hn]
    split_ifs with e
    · subst e
      intro hz
      rw [g6, if_neg (by omega)]
      omega
    · exact h.done_bound x hx

theorem rr_step_eq (order : List Nat) (tq : Int) (s : RRState) (idx : Nat) (rest : List Nat)
    (hq : (rr_ff order s).queue = idx :: rest) :
    rr_step order tq s = rr_exec order tq (rr_ff order s) idx rest := by
  simp [rr_step, hq, dequeue]

theorem rr_step_nil (order : List Nat) (tq : Int) (s : RRState)
    (hq : (rr_ff order s).queue = []) :
    rr_step order tq s = rr_ff order s := by
  simp [rr_step, hq, dequeue]

/-- One pass of the Round Robin loop keeps the invariant. -/
theorem rr_inv_step (proc : List Process) (hv : Valid proc) (order : List Nat)
    (ho : OrderOK proc order) (tq : Int) (htq : 0 < tq) (s : RRState)
    (h : RRInv proc order s) : RRInv proc order (rr_step order tq s) := by
  have h1 := rr_inv_ff proc hv order ho s h
  cases hq : (rr_ff order s).queue with
  | nil =>
    rw [rr_step_nil order tq s hq]
    exact h1
  | cons idx rest =>
    rw [rr_step_eq order tq s idx rest hq]
    exact rr_inv_exec proc hv order ho tq htq _ h1 idx rest hq

theorem rr_inv_run (proc : List Process) (hv : Valid proc) (order : List Nat)
    (ho : OrderOK proc order) (tq : Int) (htq : 0 < tq) (k : Nat) (s : RRState)
    (h : RRInv proc order s) : RRInv proc order (rr_run order tq k s) := by
  induction k generalizing s with
  | zero => exact h
  | succ k ih =>
    simp only [rr_run]
    split
    · exact ih _ (rr_inv_step proc hv order ho tq htq s h)
    · exact h

/-- The loop returns the state that `rr_run` reaches, when that state is past the loop
condition. -/
theorem rr_loop_eq_run (order : List Nat) (tq : Int) (fuel : Nat) (s : RRState) :
    rr_loop order tq fuel s =
      if (rr_run order tq fuel s).completed < (rr_run order tq fuel s).p.length then none
      else some (rr_run order tq fuel s) := by
  induction fuel generalizing s with
  | zero => rfl
  | succ k ih =>
    simp only [rr_loop, rr_run]
    by_cases h : s.completed < s.p.length
    · simp only [h, if_true]
      exact ih _
    · simp only [h, if_false]

theorem sum_map_upd (f : Process → Int) (p : List Process) (i : Nat) (q : Process)
    (h : i < p.length) :
    ((upd p i q).map f).sum = (p.map f).sum - f (nth p i) + f q := by
  induction p generalizing i with
  | nil => simp at h
  | cons a as ih =>
    cases i with
    | zero =>
      simp only [upd, nth, List.set_cons_zero, List.map_cons, List.sum_cons,
        List.getElem?_cons_zero, Option.getD_some]
      ring
    | succ i =>
      have h2 : i < as.length := by simpa using h
      have := ih i h2
      simp only [upd, nth, List.set_cons_succ, List.map_cons, List.sum_cons,
        List.getElem?_cons_succ] at this ⊢
      rw [this]
      ring

theorem sum_map_nonneg (f : Process → Int) (p : List Process)
    (h : ∀ i, i < p.length → 0 ≤ f (nth p i)) : 0 ≤ (p.map f).sum := by
  apply List.sum_nonneg
  intro x hx
  obtain ⟨q, hq, rfl⟩ := List.mem_map.1 hx
  obtain ⟨i, hi, rfl⟩ := (mem_iff_nth p q).1 hq
  exact h i hi

theorem rr_ff_p (order : List Nat) (s : RRState) : (rr_ff order s).p = s.p := by
  unfold rr_ff
  split_ifs <;> rfl

theorem rr_ff_completed (order : List Nat) (s : RRState) :
    (rr_ff order s).completed = s.completed := by
  unfold rr_ff
  split_ifs <;> rfl

/-- While processes remain, one pass strictly lowers the total remaining time. -/
theorem rr_step_decreases (proc : List Process) (hv : Valid proc) (order : List Nat)
    (ho : OrderOK proc order) (tq : Int) (htq : 0 < tq) (s : RRState)
    (h : RRInv proc order s) (hc : s.completed < s.p.length) :
    ((rr_step order tq s).p.map (fun q => q.remainingTime)).sum <
      (s.p.map (fun q => q.remainingTime)).sum := by
  have h1 := rr_inv_ff proc hv order ho s h
  have hne := rr_ff_queue_ne_nil proc order s h hc
  cases hq : (rr_ff order s).queue with
  | nil => exact absurd hq hne
  | cons idx rest =>
    rw [rr_step_eq order tq s idx rest hq]
    obtain ⟨i0, hi0, hord0, hrem0⟩ :=
      (h1.queue_mem idx).1 (by rw [hq]; exact List.mem_cons_self _ _)
    have hidx : idx < proc.length := by rw [← hord0]; exact ho.lt i0 (by have := h1.next_le; omega)
    obtain ⟨k1, qf, ep, _, _, _, _, _, _, _, _, _, _, _, g4, _, _⟩ :=
      rr_exec_spec proc order tq (rr_ff order s) idx rest ho h1.len_p
        (fun x hx => (h1.static x hx).1) hidx h1.next_le
    obtain ⟨sl1, _, _, _⟩ := rr_slice_pos tq _ htq hrem0
    rw [ep, sum_map_upd _ _ _ _ (by rw [h1.len_p]; exact hidx), rr_ff_p]
    rw [rr_ff_p] at g4 sl1
    simp only [g4]
    omega

/-- The Round Robin loop ends: from a state with total remaining time at most `m`, at
most `m` passes reach `completed = n`. -/
theorem rr_terminates (proc : List Process) (hv : Valid proc) (order : List Nat)
    (ho : OrderOK proc order) (tq : Int) (htq : 0 < tq) (m : Nat) :
    ∀ s : RRState, RRInv proc order s → (s.p.map (fun q => q.remainingTime)).sum ≤ (m : Int) →
      ∃ f, f ≤ m ∧
        ¬ (rr_run order tq f s).completed < (rr_run order tq f s).p.length := by
  induction m with
  | zero =>
    intro s h hm
    by_cases hc : s.completed < s.p.length
    · have h1 := rr_step_decreases proc hv order ho tq htq s h hc
      have h2 := rr_inv_step proc hv order ho tq htq s h
      have h3 := sum_map_nonneg (fun q => q.remainingTime) (rr_step order tq s).p
        (fun i hi => (h2.rem_range i (by rw [← h2.len_p]; exact hi)).1)
      simp only [Nat.cast_zero] at hm
      omega
    · exact ⟨0, le_refl _, hc⟩
  | succ m ih =>
    intro s h hm
    by_cases hc : s.completed < s.p.length
    · have h1 := rr_step_decreases proc hv order ho tq htq s h hc
      have h2 := rr_inv_step proc hv order ho tq htq s h
      obtain ⟨f, hf, hfin⟩ := ih (rr_step order tq s) h2 (by push_cast at hm; omega)
      refine ⟨f + 1, by omega, ?_⟩
      simp only [rr_run, hc, if_true]
      exact hfin
    · exact ⟨0, Nat.zero_le _, hc⟩

/-- What the invariant gives once the loop condition is false: every process has
`remainingTime = 0`, a start time no earlier than its arrival, and a completion time at
least one burst after its start. -/
theorem rr_inv_final (proc : List Process) (hv : Valid proc) (order : List Nat)
    (ho : OrderOK proc order) (s : RRState) (h : RRInv proc order s)
    (hc : ¬ s.completed < s.p.length) :
    s.queue = [] ∧ s.nextArrIdx = proc.length ∧ s.completed = proc.length ∧
      ∀ x, x < proc.length → (nth s.p x).remainingTime = 0 ∧
        (nth proc x).arrivalTime ≤ (nth s.p x).startTime ∧
        (nth s.p x).startTime + (nth proc x).burstTime ≤ (nth s.p x).completionTime := by
  have hlen := h.len_p
  have hcount := h.count
  have hnext := h.next_le
  have hq : s.queue = [] := by
    apply List.eq_nil_of_length_eq_zero
    omega
  rw [hq, List.length_nil] at hcount
  refine ⟨hq, by omega, by omega, ?_⟩
  intro x hx
  have hr : (nth s.p x).remainingTime = 0 := by
    obtain ⟨i, hi, e⟩ := ho.surj x hx
    have := h.rem_range x hx
    by_contra hne
    have hm := (h.queue_mem x).2 ⟨i, by omega, e, by omega⟩
    rw [hq] at hm
    simp at hm
  have hb := (valid_nth proc hv x hx).2
  have hs : 0 ≤ (nth s.p x).startTime := by
    by_contra hneg
    have := h.unstarted x hx (by omega)
    omega
  exact ⟨hr, h.start_ge x hx hs, h.done_bound x hx hr⟩

theorem rr_loop_some (proc : List Process) (hv : Valid proc) (tq : Int) (htq : 0 < tq)
    (fuel : Nat) (s : RRState)
    (h : rr_loop (rr_order (init_copy proc)) tq fuel (rr_init proc) = some s) :
    RRInv proc (rr_order (init_copy proc)) s ∧ ¬ s.completed < s.p.length ∧
      s = rr_run (rr_order (init_copy proc)) tq fuel (rr_init proc) := by
  rw [rr_loop_eq_run] at h
  split_ifs at h with hc
  simp only [Option.some.injEq] at h
  subst h
  exact ⟨rr_inv_run proc hv _ (rr_order_ok proc) tq htq fuel _
    (rr_inv_init proc hv _ (rr_order_ok proc)), hc, rfl⟩

theorem rr_loop_terminates (proc : List Process) (hv : Valid proc) (tq : Int) (htq : 0 < tq) :
    ∃ fuel s, rr_loop (rr_order (init_copy proc)) tq fuel (rr_init proc) = some s := by
  have hi := rr_inv_init proc hv _ (rr_order_ok proc)
  obtain ⟨f, _, hf⟩ := rr_terminates proc hv _ (rr_order_ok proc) tq htq
    ((rr_init proc).p.map (fun q : Process => q.remainingTime)).sum.toNat (rr_init proc) hi
    (Int.self_le_toNat _)
  refine ⟨f, rr_run (rr_order (init_copy proc)) tq f (rr_init proc), ?_⟩
  rw [rr_loop_eq_run, if_neg hf]

theorem rr_sim_some (fuel : Nat) (proc : List Process) (tq : Int) (p : List Process)
    (h : rr_sim fuel proc tq = some p) :
    ∃ s, rr_loop (rr_order (init_copy proc)) tq fuel (rr_init proc) = some s ∧ s.p = p := by
  simpa [rr_sim] using h

/-- Claim C2. On valid input with a positive quantum the loop of `rr_metrics` ends, and
when it has ended every process has its input arrival and burst time,
`arrivalTime ≤ startTime` and `startTime + burstTime ≤ completionTime`. -/
theorem rr_start_completion (proc : List Process) (hv : Valid proc) (tq : Int)
    (htq : 0 < tq) :
    (∃ fuel p, rr_sim fuel proc tq = some p) ∧
      ∀ fuel p, rr_sim fuel proc tq = some p →
        p.length = proc.length ∧
        ∀ i, i < proc.length →
          (nth p i).arrivalTime = (nth proc i).arrivalTime ∧
          (nth p i).burstTime = (nth proc i).burstTime ∧
          (nth p i).arrivalTime ≤ (nth p i).startTime ∧
          (nth p i).startTime + (nth p i).burstTime ≤ (nth p i).completionTime ∧
          (nth p i).startTime < (nth p i).completionTime := by
  constructor
  · obtain ⟨fuel, s, h⟩ := rr_loop_terminates proc hv tq htq
    exact ⟨fuel, s.p, by simp [rr_sim, h]⟩
  · intro fuel p h
    obtain ⟨s, hs, rfl⟩ := rr_sim_some fuel proc tq p h
    obtain ⟨hinv, hc, _⟩ := rr_loop_some proc hv tq htq fuel s hs
    refine ⟨hinv.len_p, ?_⟩
    intro i hi
    obtain ⟨_, _, _, hf⟩ := rr_inv_final proc hv _ (rr_order_ok proc) s hinv hc
    have h1 := hinv.static i hi
    have h2 := hf i hi
    have h3 := valid_nth proc hv i hi
    refine ⟨h1.1, h1.2.1, ?_, ?_, ?_⟩ <;> omega

theorem rr_start_completion_witness :
    Valid (mkProcs [(0, 5), (1, 3), (2, 1)]) ∧ (0 : Int) < 2 ∧
      ((∃ fuel p, rr_sim fuel (mkProcs [(0, 5), (1, 3), (2, 1)]) 2 = some p) ∧
        ∀ fuel p, rr_sim fuel (mkProcs [(0, 5), (1, 3), (2, 1)]) 2 = some p →
          p.length = (mkProcs [(0, 5), (1, 3), (2, 1)]).length ∧
          ∀ i, i < (mkProcs [(0, 5), (1, 3), (2, 1)]).length →
            (nth p i).arrivalTime = (nth (mkProcs [(0, 5), (1, 3), (2, 1)]) i).arrivalTime ∧
            (nth p i).burstTime = (nth (mkProcs [(0, 5), (1, 3), (2, 1)]) i).burstTime ∧
            (nth p i).arrivalTime ≤ (nth p i).startTime ∧
            (nth p i).startTime + (nth p i).burstTime ≤ (nth p i).completionTime ∧
            (nth p i).startTime < (nth p i).completionTime) :=
  ⟨by decide, by decide, rr_start_completion _ (by decide) 2 (by decide)⟩

theorem sum_map_eq_zero (f : Process → Int) (p : List Process)
    (h : ∀ i, i < p.length → f (nth p i) = 0) : (p.map f).sum = 0 := by
  apply List.sum_eq_zero
  intro x hx
  obtain ⟨q, hq, rfl⟩ := List.mem_map.1 hx
  obtain ⟨i, hi, rfl⟩ := (mem_iff_nth p q).1 hq
  exact h i hi

/-- Claim C3, counterexample. On the single process `(0, 5)` both `fcfs_metrics` and
`sjf_metrics` end with `remainingTime = 5`: the sum is 5, not 0. -/
theorem remaining_sum_counterexample :
    Valid (mkProcs [(0, 5)]) ∧
      ((fcfs_sim (mkProcs [(0, 5)])).map (fun q => q.remainingTime)).sum = 5 ∧
      sjf_sim 1 (mkProcs [(0, 5)]) = some [⟨0, 0, 5, 5, 0, 5⟩] ∧
      (([⟨0, 0, 5, 5, 0, 5⟩] : List Process).map (fun q => q.remainingTime)).sum = 5 := by
  refine ⟨by decide, by decide, by decide, by decide⟩

/-- Claim C3, amended. On valid input: the loop of `rr_metrics` (positive quantum) ends
and leaves the sum of `remainingTime` at 0; `fcfs_metrics` and `sjf_metrics` never write
`remainingTime`, so in the final array of FCFS and in every state of the SJF loop each
process has `remainingTime = burstTime`. -/
theorem remaining_sum (proc : List Process) (hv : Valid proc) (tq : Int) (htq : 0 < tq) :
    ((∃ fuel p, rr_sim fuel proc tq = some p) ∧
        ∀ fuel p, rr_sim fuel proc tq = some p →
          (p.map (fun q => q.remainingTime)).sum = 0) ∧
      (∀ q ∈ fcfs_sim proc, q.remainingTime = q.burstTime) ∧
      ∀ k i, i < proc.length →
        (nth (sjf_run k (sjf_init proc)).p i).remainingTime = (nth proc i).burstTime := by
  refine ⟨⟨?_, ?_⟩, ?_, ?_⟩
  · obtain ⟨fuel, s, h⟩ := rr_loop_terminates proc hv tq htq
    exact ⟨fuel, s.p, by simp [rr_sim, h]⟩
  · intro fuel p h
    obtain ⟨s, hs, rfl⟩ := rr_sim_some fuel proc tq p h
    obtain ⟨hinv, hc, _⟩ := rr_loop_some proc hv tq htq fuel s hs
    obtain ⟨_, _, _, hf⟩ := rr_inv_final proc hv _ (rr_order_ok proc) s hinv hc
    apply sum_map_eq_zero
    intro i hi
    exact (hf i (by rw [← hinv.len_p]; exact hi)).1
  · intro q hq
    obtain ⟨⟨q0, h0, h1, h2⟩, _⟩ := fcfs_loop_mem 0 _ (sorted_copy_burst proc hv) q hq
    have h3 := valid_init_copy proc hv q0 ((qsort_perm _ _).mem_iff.1 h0)
    have h4 := (reset_eq_iff q q0).1 h1
    omega
  · intro k i hi
    exact ((sjf_inv_run proc hv k _ (sjf_inv_init proc)).static i hi).2

theorem remaining_sum_witness :
    Valid (mkProcs [(0, 5), (1, 3), (2, 1)]) ∧ (0 : Int) < 2 ∧
      (((∃ fuel p, rr_sim fuel (mkProcs [(0, 5), (1, 3), (2, 1)]) 2 = some p) ∧
          ∀ fuel p, rr_sim fuel (mkProcs [(0, 5), (1, 3), (2, 1)]) 2 = some p →
            (p.map (fun q => q.remainingTime)).sum = 0) ∧
        (∀ q ∈ fcfs_sim (mkProcs [(0, 5), (1, 3), (2, 1)]), q.remainingTime = q.burstTime) ∧
        ∀ k i, i < (mkProcs [(0, 5), (1, 3), (2, 1)]).length →
          (nth (sjf_run k (sjf_init (mkProcs [(0, 5), (1, 3), (2, 1)]))).p i).remainingTime =
            (nth (mkProcs [(0, 5), (1, 3), (2, 1)]) i).burstTime) :=
  ⟨by decide, by decide, remaining_sum _ (by decide) 2 (by decide)⟩

theorem rr_dispatch_eq (order : List Nat) (tq : Int) (s : RRState) (idx : Nat)
    (rest : List Nat) (hq : (rr_ff order s).queue = idx :: rest) :
    rr_dispatch order tq s = some (idx, rr_slice tq (nth s.p idx).remainingTime) := by
  simp [rr_dispatch, hq, dequeue, rr_ff_p]

/-- From a state of the loop, the dispatches of the next `k` passes give each process
slices of at most one quantum, and process `x` fewer than `remainingTime_x / tq + 1` of
them. -/
theorem rr_log_count (proc : List Process) (hv : Valid proc) (order : List Nat)
    (ho : OrderOK proc order) (tq : Int) (htq : 0 < tq) (k : Nat) :
    ∀ s : RRState, RRInv proc order s →
      (∀ e ∈ rr_log order tq k s, 0 < e.2 ∧ e.2 ≤ tq) ∧
      ∀ x, x < proc.length →
        (((rr_log order tq k s).countP (fun e => decide (e.1 = x)) : Nat) : Int) * tq <
          (nth s.p x).remainingTime + tq := by
  induction k with
  | zero =>
    intro s h
    refine ⟨by simp [rr_log], ?_⟩
    intro x hx
    have := (h.rem_range x hx).1
    simp only [rr_log, List.countP_nil, Nat.cast_zero, zero_mul]
    omega
  | succ k ih =>
    intro s h
    by_cases hc : s.completed < s.p.length
    swap
    · simp only [rr_log, hc, if_false]
      refine ⟨by simp, ?_⟩
      intro x hx
      have := (h.rem_range x hx).1
      simp only [List.countP_nil, Nat.cast_zero, zero_mul]
      omega
    have h1 := rr_inv_ff proc hv order ho s h
    have hne := rr_ff_queue_ne_nil proc order s h hc
    cases hq : (rr_ff order s).queue with
    | nil => exact absurd hq hne
    | cons idx rest =>
      obtain ⟨i0, hi0, hord0, hrem0⟩ :=
        (h1.queue_mem idx).1 (by rw [hq]; exact List.mem_cons_self _ _)
      have hidx : idx < proc.length := by
        rw [← hord0]; exact ho.lt i0 (by have := h1.next_le; omega)
      obtain ⟨k1, qf, ep, _, _, _, _, _, _, _, _, _, _, _, g4, _, _⟩ :=
        rr_exec_spec proc order tq (rr_ff order s) idx rest ho h1.len_p
          (fun x hx => (h1.static x hx).1) hidx h1.next_le
      rw [rr_ff_p] at hrem0 ep g4
      obtain ⟨sl1, sl2, sl3, sl4⟩ := rr_slice_pos tq _ htq hrem0
      have h2 := rr_inv_step proc hv order ho tq htq s h
      obtain ⟨ih1, ih2⟩ := ih _ h2
      have hlog : rr_log order tq (k + 1) s =
          (idx, rr_slice tq (nth s.p idx).remainingTime) ::
            rr_log order tq k (rr_step order tq s) := by
        simp [rr_log, hc, rr_dispatch_eq order tq s idx rest hq]
      rw [hlog]
      constructor
      · intro e he
        rcases List.mem_cons.1 he with rfl | he
        · exact ⟨sl1, sl3⟩
        · exact ih1 e he
      · intro x hx
        have hx2 := ih2 x hx
        have hp : (rr_step order tq s).p = upd s.p idx qf := by
          rw [rr_step_eq order tq s idx rest hq, ep]
        rw [hp, nth_upd _ _ _ _ (by rw [h.len_p]; exact hidx)] at hx2
        rw [List.countP_cons]
        by_cases e : idx = x
        · subst e
          simp only [if_true, g4, decide_True] at hx2 ⊢
          push_cast
          generalize (List.countP (fun e => decide (e.1 = idx))
            (rr_log order tq k (rr_step order tq s))) = c at hx2 ⊢
          by_cases hpos : 0 < (nth s.p idx).remainingTime -
              rr_slice tq (nth s.p idx).remainingTime
          · have := sl4 hpos
            nlinarith
          · rcases Nat.eq_zero_or_pos c with hc0 | hc0
            · subst hc0
              simp
              omega
            · have h5 : (1 : Int) ≤ (c : Int) := by exact_mod_cast hc0
              have h6 : tq ≤ (c : Int) * tq := by nlinarith
              omega
        · have e2 : ¬ (idx = x) := e
          simp only [e2, if_false, decide_False, Bool.false_eq_true] at hx2 ⊢
          simpa using hx2

/-- Claim C9. On valid input with a positive quantum the loop of `rr_metrics` ends; over
any number of passes every slice is positive and at most the quantum, and process `i` is
dispatched at most `ceil(burstTime_i / timeQuantum)` times. -/
theorem rr_dispatch_bound (proc : List Process) (hv : Valid proc) (tq : Int)
    (htq : 0 < tq) :
    (∃ fuel p, rr_sim fuel proc tq = some p) ∧
      ∀ k,
        (∀ e ∈ rr_log (rr_order (init_copy proc)) tq k (rr_init proc), 0 < e.2 ∧ e.2 ≤ tq) ∧
        ∀ i, i < proc.length →
          (((rr_log (rr_order (init_copy proc)) tq k (rr_init proc)).countP
            (fun e => decide (e.1 = i)) : Nat) : Int) ≤
            ⌈((nth proc i).burstTime : ℚ) / (tq : ℚ)⌉ := by
  constructor
  · obtain ⟨fuel, s, h⟩ := rr_loop_terminates proc hv tq htq
    exact ⟨fuel, s.p, by simp [rr_sim, h]⟩
  · intro k
    obtain ⟨h1, h2⟩ := rr_log_count proc hv _ (rr_order_ok proc) tq htq k (rr_init proc)
      (rr_inv_init proc hv _ (rr_order_ok proc))
    refine ⟨h1, ?_⟩
    intro i hi
    have h3 := h2 i hi
    have h4 : (nth (rr_init proc).p i).remainingTime = (nth proc i).burstTime := by
      simp only [rr_init, nth_init_copy proc i hi]
      rfl
    rw [h4] at h3
    generalize ((rr_log (rr_order (init_copy proc)) tq k (rr_init proc)).countP
      (fun e => decide (e.1 = i))) = c at h3 ⊢
    have h5 : ((c : Int) - 1) < ⌈((nth proc i).burstTime : ℚ) / (tq : ℚ)⌉ := by
      rw [Int.lt_ceil]
      have htq2 : (0 : ℚ) < (tq : ℚ) := by exact_mod_cast htq
      rw [lt_div_iff₀ htq2]
      have : ((c : Int) - 1) * tq < (nth proc i).burstTime := by linarith
      exact_mod_cast this
    omega

theorem rr_dispatch_bound_witness :
    Valid (mkProcs [(0, 5), (1, 3), (2, 1)]) ∧ (0 : Int) < 2 ∧
      ((∃ fuel p, rr_sim fuel (mkProcs [(0, 5), (1, 3), (2, 1)]) 2 = some p) ∧
        ∀ k,
          (∀ e ∈ rr_log (rr_order (init_copy (mkProcs [(0, 5), (1, 3), (2, 1)]))) 2 k
              (rr_init (mkProcs [(0, 5), (1, 3), (2, 1)])), 0 < e.2 ∧ e.2 ≤ 2) ∧
          ∀ i, i < (mkProcs [(0, 5), (1, 3), (2, 1)]).length →
            (((rr_log (rr_order (init_copy (mkProcs [(0, 5), (1, 3), (2, 1)]))) 2 k
              (rr_init (mkProcs [(0, 5), (1, 3), (2, 1)]))).countP
              (fun e => decide (e.1 = i)) : Nat) : Int) ≤
              ⌈((nth (mkProcs [(0, 5), (1, 3), (2, 1)]) i).burstTime : ℚ) / ((2 : Int) : ℚ)⌉) :=
  ⟨by decide, by decide, rr_dispatch_bound _ (by decide) 2 (by decide)⟩

/-! ### A quantum no shorter than any burst -/

theorem rr_big_init (proc : List Process) (order : List Nat) (ho : OrderOK proc order) :
    RRBig proc order (rr_init proc) := by
  refine ⟨le_refl _, by simp [rr_init], ?_⟩
  intro i _ hi
  simp only [rr_init, nth_init_copy proc _ (ho.lt i hi)]
  exact ⟨rfl, show (-1 : Int) < 0 by omega⟩

/-- Step (a) under `RRBig`: the queue then starts with `order[completed]`, and the clock
is the later of the old clock and that process's arrival. -/
theorem rr_big_ff (proc : List Process) (order : List Nat) (ho : OrderOK proc order)
    (s : RRState) (h : RRInv proc order s) (hb : RRBig proc order s)
    (hc : s.completed < proc.length) :
    (rr_ff order s).p = s.p ∧ (rr_ff order s).completed = s.completed ∧
      s.completed + 1 ≤ (rr_ff order s).nextArrIdx ∧
      (rr_ff order s).queue = ord order s.completed ::
        (List.range' (s.completed + 1) ((rr_ff order s).nextArrIdx - (s.completed + 1))).map
          (ord order) ∧
      (rr_ff order s).currentTime =
        (if s.currentTime < (nth proc (ord order s.completed)).arrivalTime
          then (nth proc (ord order s.completed)).arrivalTime else s.currentTime) := by
  have hlen := h.len_p
  have hle := hb.le
  have hqe := hb.queue_eq
  refine ⟨rr_ff_p order s, rr_ff_completed order s, ?_⟩
  by_cases hq : s.queue = []
  · have hcount := h.count
    rw [hq, List.length_nil] at hcount
    have hn : s.nextArrIdx < s.p.length := by omega
    have hx : ord order s.nextArrIdx < proc.length := ho.lt _ (by omega)
    rw [rr_ff_idle order s hq hn]
    have e : s.nextArrIdx = s.completed := by omega
    have hfr := (h.fresh s.nextArrIdx (le_refl _) (by omega)).2.2
    refine ⟨by show s.completed + 1 ≤ s.nextArrIdx + 1; omega, ?_, ?_⟩
    · show [ord order s.nextArrIdx] = _
      simp [e]
    · show (nth s.p (ord order s.nextArrIdx)).arrivalTime = _
      rw [(h.static _ hx).1, e] at *
      split_ifs <;> omega
  · rw [rr_ff_busy order s hq]
    have hpos : 0 < s.nextArrIdx - s.completed := by
      by_contra hz
      have : s.nextArrIdx - s.completed = 0 := by omega
      rw [this] at hqe
      simp at hqe
      exact hq hqe
    have harr := h.arrived s.completed (by omega)
    refine ⟨by omega, ?_, ?_⟩
    · rw [hqe]
      have : s.nextArrIdx - s.completed = (s.nextArrIdx - (s.completed + 1)) + 1 := by omega
      rw [this, List.range'_succ]
      simp
    · split_ifs <;> omega

theorem rr_slice_big (tq r : Int) (h : r ≤ tq) : rr_slice tq r = r := by
  unfold rr_slice
  split_ifs <;> omega

/-- One pass under `RRBig`: process `order[completed]` runs from the later of the clock
and its arrival for its whole burst and completes; no other record changes. -/
theorem rr_big_step (proc : List Process) (hv : Valid proc) (order : List Nat)
    (ho : OrderOK proc order) (tq : Int) (hq : ∀ q ∈ proc, q.burstTime ≤ tq) (s : RRState)
    (h : RRInv proc order s) (hb : RRBig proc order s) (hc : s.completed < proc.length) :
    RRBig proc order (rr_step order tq s) ∧
      (rr_step order tq s).completed = s.completed + 1 ∧
      (rr_step order tq s).currentTime =
        (nth proc (ord order s.completed)).burstTime +
          (if s.currentTime < (nth proc (ord order s.completed)).arrivalTime
            then (nth proc (ord order s.completed)).arrivalTime else s.currentTime) ∧
      (∀ y, y ≠ ord order s.completed → nth (rr_step order tq s).p y = nth s.p y) ∧
      (nth (rr_step order tq s).p (ord order s.completed)).id =
        (nth proc (ord order s.completed)).id ∧
      (nth (rr_step order tq s).p (ord order s.completed)).arrivalTime =
        (nth proc (ord order s.completed)).arrivalTime ∧
      (nth (rr_step order tq s).p (ord order s.completed)).burstTime =
        (nth proc (ord order s.completed)).burstTime ∧
      (nth (rr_step order tq s).p (ord order s.completed)).startTime =
        (if s.currentTime < (nth proc (ord order s.completed)).arrivalTime
          then (nth proc (ord order s.completed)).arrivalTime else s.currentTime) ∧
      (nth (rr_step order tq s).p (ord order s.completed)).completionTime =
        (nth proc (ord order s.completed)).burstTime +
          (if s.currentTime < (nth proc (ord order s.completed)).arrivalTime
            then (nth proc (ord order s.completed)).arrivalTime else s.currentTime) := by
  obtain ⟨f1, f2, f3, f4, f5⟩ := rr_big_ff proc order ho s h hb hc
  have h1 := rr_inv_ff proc hv order ho s h
  have hx : ord order s.completed < proc.length := ho.lt _ hc
  rw [rr_step_eq order tq s _ _ f4]
  obtain ⟨k1, qf, ep, eq, et, ec, en, a1, a2, a3, a4, g1, g2, g3, g4, g5, g6⟩ :=
    rr_exec_spec proc order tq (rr_ff order s) (ord order s.completed) _ ho h1.len_p
      (fun x hx => (h1.static x hx).1) hx h1.next_le
  have hpend := hb.pending s.completed (le_refl _) hc
  have hst := h.static _ hx
  have hbq := hq _ (nth_mem proc _ hx)
  rw [f1] at g1 g2 g3 g4 g5 g6 et ep
  rw [hpend.1, rr_slice_big tq _ hbq] at g4 et g6
  have hrem : qf.remainingTime = 0 := by omega
  have hnp : ¬ 0 < qf.remainingTime := by omega
  rw [if_neg hnp] at eq ec g6
  rw [if_pos hpend.2, f5] at g5
  rw [f5] at et g6
  have hn : ∀ y, nth (upd s.p (ord order s.completed) qf) y =
      if ord order s.completed = y then qf else nth s.p y :=
    fun y => nth_upd _ _ _ _ (by rw [h.len_p]; exact hx)
  refine ⟨⟨?_, ?_, ?_⟩, ?_, ?_, ?_, ?_, ?_, ?_, ?_, ?_⟩
  · rw [ec, en, f2]
    omega
  · rw [eq, ec, en, f2, List.append_nil, ← List.map_append]
    congr 1
    have e1 : s.completed + 1 + ((rr_ff order s).nextArrIdx - (s.completed + 1)) =
        (rr_ff order s).nextArrIdx := by omega
    have := List.range'_append_1 (s.completed + 1)
      ((rr_ff order s).nextArrIdx - (s.completed + 1)) (k1 - (rr_ff order s).nextArrIdx)
    rw [e1] at this
    rw [this]
    congr 1
    omega
  · intro i hi1 hi2
    rw [ec, f2] at hi1
    have hne : ¬ ord order s.completed = ord order i := by
      intro e
      have := ho.inj _ _ hc hi2 e
      omega
    rw [ep, hn, if_neg hne]
    exact hb.pending i (by omega) hi2
  · rw [ec, f2]
  · rw [et]
    ring
  · intro y hy
    rw [ep, hn, if_neg (fun e => hy e.symm)]
  · rw [ep, hn, if_pos rfl, g1]
    exact hst.2.2
  · rw [ep, hn, if_pos rfl, g2]
    exact hst.1
  · rw [ep, hn, if_pos rfl, g3]
    exact hst.2.1
  · rw [ep, hn, if_pos rfl, g5]
  · rw [ep, hn, if_pos rfl, g6]
    ring

theorem rr_run_of_final (order : List Nat) (tq : Int) (b : Nat) (s : RRState)
    (h : ¬ s.completed < s.p.length) : rr_run order tq b s = s := by
  cases b with
  | zero => rfl
  | succ b => simp only [rr_run, h, if_false]

theorem rr_run_add (order : List Nat) (tq : Int) (a b : Nat) (s : RRState) :
    rr_run order tq (a + b) s = rr_run order tq b (rr_run order tq a s) := by
  induction a generalizing s with
  | zero => simp [rr_run]
  | succ a ih =>
    have : a + 1 + b = (a + b) + 1 := by omega
    rw [this]
    simp only [rr_run]
    by_cases h : s.completed < s.p.length
    · simp only [h, if_true]
      exact ih _
    · simp only [h, if_false]
      exact (rr_run_of_final order tq b s h).symm

/-- The state in which the loop ends does not depend on the fuel. -/
theorem rr_run_final_unique (order : List Nat) (tq : Int) (a b : Nat) (s : RRState)
    (ha : ¬ (rr_run order tq a s).completed < (rr_run order tq a s).p.length)
    (hb : ¬ (rr_run order tq b s).completed < (rr_run order tq b s).p.length) :
    rr_run order tq a s = rr_run order tq b s := by
  rcases Nat.le_total a b with h | h
  · obtain ⟨c, rfl⟩ := Nat.exists_eq_add_of_le h
    rw [rr_run_add, rr_run_of_final order tq c _ ha]
  · obtain ⟨c, rfl⟩ := Nat.exists_eq_add_of_le h
    rw [rr_run_add, rr_run_of_final order tq c _ hb]

theorem map_range_nth (p : List Process) : (List.range p.length).map (nth p) = p := by
  apply List.ext_getElem
  · simp
  · intro i h1 h2
    simp [nth, h2]

theorem map_range_ord (order : List Nat) :
    (List.range order.length).map (ord order) = order := by
  apply List.ext_getElem
  · simp
  · intro i h1 h2
    simp [ord, h2]

/-- The sorted array of FCFS is the working copy read through `order[]` of Round Robin. -/
theorem qsort_copy_eq_order (p : List Process) :
    qsort cmp_arrival_proc p = (rr_order p).map (nth p) := by
  have h := qsort_map cmp_arrival_proc (nth p) (List.range p.length)
  rw [map_range_nth] at h
  rw [h]
  rfl

theorem metrics_of_congr (l1 l2 : List Process)
    (h : (l1.map outcome).Perm (l2.map outcome)) : metrics_of l1 = metrics_of l2 := by
  have hlen : l1.length = l2.length := by
    have := h.length_eq
    simpa using this
  have hs : ∀ g : Int × Int × Int × Int × Int → Int,
      (l1.map (fun q => g (outcome q))).sum = (l2.map (fun q => g (outcome q))).sum := by
    intro g
    have := (h.map g).sum_eq
    simpa [List.map_map, Function.comp_def] using this
  have e1 := hs (fun o => o.2.2.2.2 - o.2.1)
  have e2 := hs (fun o => (o.2.2.2.2 - o.2.1) - o.2.2.1)
  have e3 := hs (fun o => o.2.2.2.1 - o.2.1)
  simp only [outcome] at e1 e2 e3
  simp only [metrics_of, hlen, e1, e2, e3]

/-- Under `RRBig`, `m` more passes complete the remaining `m` processes exactly as the
FCFS loop does from the same clock. -/
theorem rr_big_run (proc : List Process) (hv : Valid proc) (order : List Nat)
    (ho : OrderOK proc order) (tq : Int) (htq : 0 < tq) (hq : ∀ q ∈ proc, q.burstTime ≤ tq)
    (m : Nat) :
    ∀ s : RRState, RRInv proc order s → RRBig proc order s →
      s.completed + m = proc.length →
      (rr_run order tq m s).completed = proc.length ∧
      (rr_run order tq m s).p.length = proc.length ∧
      (List.range' s.completed m).map
          (fun i => outcome (nth (rr_run order tq m s).p (ord order i))) =
        (fcfs_loop s.currentTime ((List.range' s.completed m).map
          (fun i => nth (init_copy proc) (ord order i)))).map outcome ∧
      ∀ i, i < s.completed →
        nth (rr_run order tq m s).p (ord order i) = nth s.p (ord order i) := by
  induction m with
  | zero =>
    intro s h _ hc
    refine ⟨by simpa [rr_run] using hc, h.len_p, by simp [fcfs_loop], fun i _ => rfl⟩
  | succ m ih =>
    intro s h hb hc
    have hlt : s.completed < proc.length := by omega
    have hlt2 : s.completed < s.p.length := by rw [h.len_p]; exact hlt
    obtain ⟨b1, b2, b3, b4, b5, b6, b7, b8, b9⟩ := rr_big_step proc hv order ho tq hq s h hb hlt
    have h1 := rr_inv_step proc hv order ho tq htq s h
    obtain ⟨c1, c2, c3, c4⟩ := ih (rr_step order tq s) h1 b1 (by rw [b2]; omega)
    have hrun : rr_run order tq (m + 1) s = rr_run order tq m (rr_step order tq s) := by
      simp only [rr_run, hlt2, if_true]
    rw [hrun]
    refine ⟨c1, c2, ?_, ?_⟩
    · rw [List.range'_succ, List.map_cons, List.map_cons]
      simp only [fcfs_loop, List.map_cons]
      rw [b2] at c3
      rw [b3] at c3
      rw [nth_init_copy proc _ (ho.lt _ hlt)]
      have hhead := c4 s.completed (by rw [b2]; omega)
      congr 1
      · rw [hhead]
        simp only [outcome, b5, b6, b7, b8, b9, reset]
    · intro i hi
      rw [c4 i (by rw [b2]; omega)]
      apply b4
      intro e
      have := ho.inj _ _ (by omega) hlt e
      omega

/-- With a quantum no shorter than any burst, `n` passes end the Round Robin loop with
the records, read through `order[]`, that the FCFS loop leaves in its sorted array. -/
theorem rr_big_final (proc : List Process) (hv : Valid proc) (tq : Int) (htq : 0 < tq)
    (hq : ∀ q ∈ proc, q.burstTime ≤ tq) :
    ¬ (rr_run (rr_order (init_copy proc)) tq proc.length (rr_init proc)).completed <
        (rr_run (rr_order (init_copy proc)) tq proc.length (rr_init proc)).p.length ∧
      (rr_run (rr_order (init_copy proc)) tq proc.length (rr_init proc)).p.length =
        proc.length ∧
      (fcfs_sim proc).map outcome = (rr_order (init_copy proc)).map (fun x => outcome
        (nth (rr_run (rr_order (init_copy proc)) tq proc.length (rr_init proc)).p x)) := by
  have ho := rr_order_ok proc
  obtain ⟨h1, h2, h3, _⟩ := rr_big_run proc hv _ ho tq htq hq proc.length (rr_init proc)
    (rr_inv_init proc hv _ ho) (rr_big_init proc _ ho) (by simp [rr_init])
  refine ⟨by omega, h2, ?_⟩
  have e0 : (rr_init proc).completed = 0 := rfl
  have e1 : (rr_init proc).currentTime = 0 := rfl
  rw [e0, e1, ← List.range_eq_range'] at h3
  have hmap : ∀ {β : Type} (g : Nat → β),
      (List.range proc.length).map (fun i => g (ord (rr_order (init_copy proc)) i)) =
        (rr_order (init_copy proc)).map g := by
    intro β g
    have := congrArg (List.map g) (map_range_ord (rr_order (init_copy proc)))
    rw [ho.len, List.map_map] at this
    exact this
  rw [hmap (fun x => outcome (nth (rr_run (rr_order (init_copy proc)) tq proc.length
    (rr_init proc)).p x)), hmap (fun x => nth (init_copy proc) x),
    ← qsort_copy_eq_order] at h3
  exact h3.symm

/-! ### SJF with every burst below `INT_MAX` -/

theorem sjf_exists_undone (proc : List Process) (s : SjfState) (h : SjfInv proc s)
    (hc : s.completed < s.p.length) : ∃ i, i < proc.length ∧ isDone s.done i = false := by
  by_contra hne
  have hall : ∀ i ∈ List.range proc.length, (fun i => isDone s.done i) i = true := by
    intro i hi
    have hi := List.mem_range.1 hi
    by_contra hd
    exact hne ⟨i, hi, by simpa using hd⟩
  have := List.countP_eq_length.2 hall
  rw [← h.count, List.length_range] at this
  have := h.len_p
  omega

theorem sjf_all_done (proc : List Process) (s : SjfState) (h : SjfInv proc s)
    (hc : ¬ s.completed < s.p.length) :
    s.completed = proc.length ∧ ∀ i, i < proc.length → isDone s.done i = true := by
  have hlen := h.len_p
  have hle := List.countP_le_length (fun i => isDone s.done i) (l := List.range proc.length)
  rw [← h.count, List.length_range] at hle
  have hc2 : s.completed = proc.length := by omega
  refine ⟨hc2, ?_⟩
  have hcount := h.count
  rw [hc2] at hcount
  have hall := List.countP_eq_length.1
    (show (List.range proc.length).countP (fun i => isDone s.done i) =
      (List.range proc.length).length by rw [← hcount, List.length_range])
  intro i hi
  exact hall i (List.mem_range.2 hi)

theorem sjf_run_succ (k : Nat) (s : SjfState) (hc : s.completed < s.p.length) :
    sjf_run (k + 1) s = sjf_run k (sjf_step s) := by
  simp only [sjf_run, hc, if_true]

/-- After an idle pass the selection scan finds a process, when every burst is below
`INT_MAX` and every arrival time is at most `INT_MAX`. -/
theorem sjf_scan_after_idle (proc : List Process)
    (hb : ∀ q ∈ proc, q.burstTime < INT_MAX ∧ q.arrivalTime ≤ INT_MAX) (s : SjfState)
    (h : SjfInv proc s) (hc : s.completed < s.p.length) :
    ∃ idx, (sjf_scan s.p s.done (sjf_earliest s.p s.done)).1 = some idx := by
  obtain ⟨i, hi, hdi⟩ := sjf_exists_undone proc s h hc
  obtain ⟨e1, e2, e3⟩ := sjf_earliest_fold s.p s.done s.p.length
  have hlen := h.len_p
  have hst : ∀ j, j < proc.length → (nth s.p j).burstTime < INT_MAX ∧
      (nth s.p j).arrivalTime ≤ INT_MAX := by
    intro j hj
    have h1 := (reset_eq_iff _ _).1 (h.static j hj).1
    have h2 := hb _ (nth_mem proc j hj)
    omega
  have hj : ∃ j, j < proc.length ∧ isDone s.done j = false ∧
      (nth s.p j).arrivalTime ≤ sjf_earliest s.p s.done := by
    rcases e3 with e | ⟨j, hj, hdj, e⟩
    · refine ⟨i, hi, hdi, ?_⟩
      unfold sjf_earliest
      rw [e]
      exact (hst i hi).2
    · refine ⟨j, by omega, hdj, ?_⟩
      unfold sjf_earliest
      rw [e]
  obtain ⟨j, hj1, hj2, hj3⟩ := hj
  cases hs : (sjf_scan s.p s.done (sjf_earliest s.p s.done)).1 with
  | some idx => exact ⟨idx, rfl⟩
  | none =>
    have := sjf_scan_none _ _ _ hs j (by omega) hj2 hj3
    have := (hst j hj1).1
    omega

/-- The SJF loop ends within two passes per remaining process when every burst is below
`INT_MAX` and every arrival time is at most `INT_MAX`. -/
theorem sjf_terminates (proc : List Process) (hv : Valid proc)
    (hb : ∀ q ∈ proc, q.burstTime < INT_MAX ∧ q.arrivalTime ≤ INT_MAX) (m : Nat) :
    ∀ s : SjfState, SjfInv proc s → proc.length - s.completed ≤ m →
      ∃ f, f ≤ 2 * m ∧ ¬ (sjf_run f s).completed < (sjf_run f s).p.length := by
  induction m with
  | zero =>
    intro s h hm
    exact ⟨0, le_refl _, by have := h.len_p; simp only [sjf_run]; omega⟩
  | succ m ih =>
    intro s h hm
    by_cases hc : s.completed < s.p.length
    swap
    · exact ⟨0, Nat.zero_le _, hc⟩
    have hlen := h.len_p
    cases hscan : (sjf_scan s.p s.done s.currentTime).1 with
    | some idx =>
      have h1 := sjf_inv_step proc hv s h
      have hcomp : (sjf_step s).completed = s.completed + 1 := by
        rw [sjf_step_some s idx hscan]
      obtain ⟨f, hf, hfin⟩ := ih (sjf_step s) h1 (by omega)
      exact ⟨f + 1, by omega, by rw [sjf_run_succ f s hc]; exact hfin⟩
    | none =>
      have h1 := sjf_inv_step proc hv s h
      have hs1 : sjf_step s = { s with currentTime := sjf_earliest s.p s.done } :=
        sjf_step_none s hscan
      obtain ⟨idx, hidx⟩ := sjf_scan_after_idle proc hb s h hc
      have hc1 : (sjf_step s).completed < (sjf_step s).p.length := by
        rw [hs1]
        exact hc
      have hscan1 : (sjf_scan (sjf_step s).p (sjf_step s).done (sjf_step s).currentTime).1 =
          some idx := by
        rw [hs1]
        exact hidx
      have h2 := sjf_inv_step proc hv _ h1
      have hcomp : (sjf_step (sjf_step s)).completed = s.completed + 1 := by
        rw [sjf_step_some _ idx hscan1, hs1]
      obtain ⟨f, hf, hfin⟩ := ih _ h2 (by omega)
      refine ⟨f + 2, by omega, ?_⟩
      rw [sjf_run_succ (f + 1) s hc, sjf_run_succ f _ hc1]
      exact hfin

/-- The SJF half of the start/completion contract, for bursts below `INT_MAX`: the loop
ends within `2 n` passes with `completed = n`, and when it has ended every process has
its input arrival and burst time, `startTime ≥ arrivalTime` and
`completionTime = startTime + burstTime`.  The second part holds for every valid input
on which the loop ends. -/
theorem sjf_start_completion (proc : List Process) (hv : Valid proc) :
    ((∀ q ∈ proc, q.burstTime < INT_MAX ∧ q.arrivalTime ≤ INT_MAX) →
        ∃ fuel s, fuel ≤ 2 * proc.length ∧ sjf_loop fuel (sjf_init proc) = some s ∧
          s.completed = proc.length) ∧
      ∀ fuel p, sjf_sim fuel proc = some p →
        p.length = proc.length ∧
        ∀ i, i < proc.length →
          (nth p i).arrivalTime = (nth proc i).arrivalTime ∧
          (nth p i).burstTime = (nth proc i).burstTime ∧
          (nth p i).arrivalTime ≤ (nth p i).startTime ∧
          (nth p i).completionTime = (nth p i).startTime + (nth p i).burstTime := by
  constructor
  · intro hb
    obtain ⟨f, hf, hfin⟩ := sjf_terminates proc hv hb proc.length (sjf_init proc)
      (sjf_inv_init proc) (by omega)
    have hinv := sjf_inv_run proc hv f _ (sjf_inv_init proc)
    refine ⟨f, sjf_run f (sjf_init proc), hf, ?_, (sjf_all_done proc _ hinv hfin).1⟩
    rw [sjf_loop_eq_run, if_neg hfin]
  · intro fuel p h
    simp only [sjf_sim, Option.map_eq_some'] at h
    obtain ⟨s, hs, rfl⟩ := h
    rw [sjf_loop_eq_run] at hs
    split_ifs at hs with hc
    simp only [Option.some.injEq] at hs
    subst hs
    have hinv := sjf_inv_run proc hv fuel _ (sjf_inv_init proc)
    refine ⟨hinv.len_p, ?_⟩
    intro i hi
    have h1 := (reset_eq_iff _ _).1 (hinv.static i hi).1
    have h2 := hinv.started i hi ((sjf_all_done proc _ hinv hc).2 i hi)
    exact ⟨h1.2.1, h1.2.2, h2.1, h2.2⟩

/-! ### SJF with equal bursts and increasing arrival times -/

theorem sjf_run_of_final (b : Nat) (s : SjfState) (h : ¬ s.completed < s.p.length) :
    sjf_run b s = s := by
  cases b with
  | zero => rfl
  | succ b => simp only [sjf_run, h, if_false]

theorem sjf_run_add (a b : Nat) (s : SjfState) :
    sjf_run (a + b) s = sjf_run b (sjf_run a s) := by
  induction a generalizing s with
  | zero => simp [sjf_run]
  | succ a ih =>
    have : a + 1 + b = (a + b) + 1 := by omega
    rw [this]
    simp only [sjf_run]
    by_cases h : s.completed < s.p.length
    · simp only [h, if_true]
      exact ih _
    · simp only [h, if_false]
      exact (sjf_run_of_final b s h).symm

/-- The state in which the SJF loop ends does not depend on the fuel. -/
theorem sjf_run_final_unique (a b : Nat) (s : SjfState)
    (ha : ¬ (sjf_run a s).completed < (sjf_run a s).p.length)
    (hb : ¬ (sjf_run b s).completed < (sjf_run b s).p.length) :
    sjf_run a s = sjf_run b s := by
  rcases Nat.le_total a b with h | h
  · obtain ⟨c, rfl⟩ := Nat.exists_eq_add_of_le h
    rw [sjf_run_add, sjf_run_of_final c _ ha]
  · obtain ⟨c, rfl⟩ := Nat.exists_eq_add_of_le h
    rw [sjf_run_add, sjf_run_of_final c _ hb]

/-- An array that is already in ascending arrival order is left as it is by the sort. -/
theorem qsort_of_sorted (l : List Process)
    (h : l.Pairwise (fun a b => a.arrivalTime ≤ b.arrivalTime)) :
    qsort cmp_arrival_proc l = l :=
  eq_of_sorted_of_filter_eq _ _ (qsort_sorted cmp_arrival_proc_le l) h
    (fun v => qsort_filter cmp_arrival_proc_le l v)

/-- With equal bursts below `INT_MAX` and increasing arrival times, the scan at a time by
which the first undone process has arrived selects that process. -/
theorem sjf_scan_seq (proc : List Process) (b : Int) (hb : ∀ q ∈ proc, q.burstTime = b)
    (hbm : b < INT_MAX) (s : SjfState) (h : SjfInv proc s) (hs : SjfSeq proc s)
    (hc : s.completed < proc.length) (t : Int)
    (ht : (nth proc s.completed).arrivalTime ≤ t) :
    (sjf_scan s.p s.done t).1 = some s.completed := by
  have hlen := h.len_p
  have hbst : ∀ j, j < proc.length → (nth s.p j).burstTime = b ∧
      (nth s.p j).arrivalTime = (nth proc j).arrivalTime := by
    intro j hj
    have h1 := (reset_eq_iff _ _).1 (h.static j hj).1
    have h2 := hb _ (nth_mem proc j hj)
    exact ⟨by omega, h1.2.1⟩
  have hund : isDone s.done s.completed = false := by
    by_contra hd
    have hd : isDone s.done s.completed = true := by simpa using hd
    have := (hs.done_iff _ hc).1 hd
    omega
  cases hscan : (sjf_scan s.p s.done t).1 with
  | none =>
    have := sjf_scan_none _ _ _ hscan s.completed (by omega) hund
      (by rw [(hbst _ hc).2]; exact ht)
    have := (hbst _ hc).1
    omega
  | some idx =>
    obtain ⟨a1, a2, a3, a4, a5⟩ := sjf_scan_some _ _ _ idx hscan
    have h1 := (a5 s.completed (by omega) hund (by rw [(hbst _ hc).2]; exact ht)).2
      (by rw [(hbst _ hc).1, (hbst idx (by omega)).1])
    have h2 : ¬ idx < s.completed := by
      intro hlt
      have := (hs.done_iff idx (by omega)).2 hlt
      rw [a2] at this
      exact absurd this (by decide)
    congr 1
    omega

/-- A dispatch of the first undone process keeps `SjfSeq`, and writes the record that the
FCFS loop writes at clock `t`. -/
theorem sjf_seq_dispatch (proc : List Process) (s : SjfState) (h : SjfInv proc s)
    (hs : SjfSeq proc s) (hc : s.completed < proc.length)
    (hscan : (sjf_scan s.p s.done s.currentTime).1 = some s.completed) :
    SjfSeq proc (sjf_step s) ∧ (sjf_step s).completed = s.completed + 1 ∧
      (sjf_step s).p = upd s.p s.completed
        { nth s.p s.completed with
          startTime := s.currentTime
          completionTime := (nth s.p s.completed).burstTime + s.currentTime } ∧
      (sjf_step s).currentTime = (nth s.p s.completed).burstTime + s.currentTime := by
  rw [sjf_step_some s _ hscan]
  refine ⟨⟨?_⟩, rfl, ?_, ?_⟩
  · intro i hi
    show isDone (s.done.set s.completed true) i = true ↔ i < s.completed + 1
    rw [isDone_set _ _ _ (by rw [h.len_done]; exact hc)]
    have := hs.done_iff i hi
    by_cases e : s.completed = i
    · simp [e]
    · simp only [e, if_false, this]
      omega
  · show upd s.p s.completed _ = upd s.p s.completed _
    congr 1
    simp only [Process.mk.injEq, true_and]
    exact add_comm _ _
  · exact add_comm _ _

/-- With equal bursts below `INT_MAX` and increasing arrival times, one or two passes
serve the first undone process exactly as the FCFS loop does. -/
theorem sjf_seq_step (proc : List Process) (hv : Valid proc) (b : Int)
    (hb : ∀ q ∈ proc, q.burstTime = b) (hbm : b < INT_MAX)
    (ham : ∀ q ∈ proc, q.arrivalTime ≤ INT_MAX)
    (hinc : ∀ i j, i < j → j < proc.length →
      (nth proc i).arrivalTime < (nth proc j).arrivalTime)
    (s : SjfState) (h : SjfInv proc s) (hs : SjfSeq proc s)
    (hc : s.completed < proc.length) :
    ∃ f, SjfInv proc (sjf_run f s) ∧ SjfSeq proc (sjf_run f s) ∧
      (sjf_run f s).completed = s.completed + 1 ∧
      (sjf_run f s).p = upd s.p s.completed
        { nth s.p s.completed with
          startTime := (if s.currentTime < (nth s.p s.completed).arrivalTime
            then (nth s.p s.completed).arrivalTime else s.currentTime)
          completionTime := (nth s.p s.completed).burstTime +
            (if s.currentTime < (nth s.p s.completed).arrivalTime
              then (nth s.p s.completed).arrivalTime else s.currentTime) } ∧
      (sjf_run f s).currentTime = (nth s.p s.completed).burstTime +
        (if s.currentTime < (nth s.p s.completed).arrivalTime
          then (nth s.p s.completed).arrivalTime else s.currentTime) := by
  have hlen := h.len_p
  have hc2 : s.completed < s.p.length := by omega
  have harr : ∀ j, j < proc.length →
      (nth s.p j).arrivalTime = (nth proc j).arrivalTime := by
    intro j hj
    exact ((reset_eq_iff _ _).1 (h.static j hj).1).2.1
  by_cases ht : s.currentTime < (nth s.p s.completed).arrivalTime
  · -- idle pass, then dispatch
    have hund : ∀ j, j < proc.length → isDone s.done j = false → s.completed ≤ j := by
      intro j hj hd
      by_contra hlt
      have := (hs.done_iff j hj).2 (by omega)
      rw [hd] at this
      exact absurd this (by decide)
    have hundc : isDone s.done s.completed = false := by
      by_contra hd
      have hd : isDone s.done s.completed = true := by simpa using hd
      have := (hs.done_iff _ hc).1 hd
      omega
    have hge : ∀ j, j < proc.length → s.completed ≤ j →
        (nth s.p s.completed).arrivalTime ≤ (nth s.p j).arrivalTime := by
      intro j hj hle
      rw [harr _ hc, harr j hj]
      rcases Nat.lt_or_eq_of_le hle with e | e
      · exact le_of_lt (hinc _ _ e hj)
      · rw [e]
    have hnone : (sjf_scan s.p s.done s.currentTime).1 = none := by
      cases hscan : (sjf_scan s.p s.done s.currentTime).1 with
      | none => rfl
      | some idx =>
        obtain ⟨a1, a2, a3, _⟩ := sjf_scan_some _ _ _ idx hscan
        have := hge idx (by omega) (hund idx (by omega) a2)
        omega
    have he : sjf_earliest s.p s.done = (nth s.p s.completed).arrivalTime := by
      obtain ⟨e1, e2, e3⟩ := sjf_earliest_fold s.p s.done s.p.length
      have h1 := e2 s.completed hc2 hundc
      have h2 := ham _ (nth_mem proc _ hc)
      rw [← harr _ hc] at h2
      unfold sjf_earliest
      rcases e3 with e | ⟨j, hj, hdj, e⟩
      · omega
      · have := hge j (by omega) (hund j (by omega) hdj)
        omega
    have hs1 : sjf_step s = { s with currentTime := (nth s.p s.completed).arrivalTime } := by
      rw [sjf_step_none s hnone, he]
    have hi1 := sjf_inv_step proc hv s h
    have hq1 : SjfSeq proc (sjf_step s) := by
      rw [hs1]
      exact ⟨hs.done_iff⟩
    have hc1 : (sjf_step s).completed < proc.length := by
      rw [hs1]
      exact hc
    have hscan1 := sjf_scan_seq proc b hb hbm (sjf_step s) hi1 hq1 hc1 (sjf_step s).currentTime
      (by rw [hs1]; show _ ≤ (nth s.p s.completed).arrivalTime; rw [harr _ hc])
    obtain ⟨d1, d2, d3, d4⟩ := sjf_seq_dispatch proc (sjf_step s) hi1 hq1 hc1 hscan1
    refine ⟨2, ?_⟩
    have hrun : sjf_run 2 s = sjf_step (sjf_step s) := by
      rw [sjf_run_succ 1 s hc2, sjf_run_succ 0 _ (by rw [hi1.len_p]; exact hc1)]
      rfl
    rw [hrun]
    refine ⟨sjf_inv_step proc hv _ hi1, d1, ?_, ?_, ?_⟩
    · rw [d2, hs1]
    · rw [d3, hs1]
      simp only [ht, if_true]
    · rw [d4, hs1]
      simp only [ht, if_true]
  · have hscan := sjf_scan_seq proc b hb hbm s h hs hc s.currentTime
      (by rw [← harr _ hc]; omega)
    obtain ⟨d1, d2, d3, d4⟩ := sjf_seq_dispatch proc s h hs hc hscan
    refine ⟨1, ?_⟩
    have hrun : sjf_run 1 s = sjf_step s := by
      rw [sjf_run_succ 0 s hc2]
      rfl
    rw [hrun]
    refine ⟨sjf_inv_step proc hv s h, d1, d2, ?_, ?_⟩
    · rw [d3]
      simp only [ht, if_false]
    · rw [d4]
      simp only [ht, if_false]

/-- With equal bursts below `INT_MAX` and increasing arrival times, the SJF loop serves
the remaining processes in input order, as the FCFS loop does from the same clock. -/
theorem sjf_seq_run (proc : List Process) (hv : Valid proc) (b : Int)
    (hb : ∀ q ∈ proc, q.burstTime = b) (hbm : b < INT_MAX)
    (ham : ∀ q ∈ proc, q.arrivalTime ≤ INT_MAX)
    (hinc : ∀ i j, i < j → j < proc.length →
      (nth proc i).arrivalTime < (nth proc j).arrivalTime) (m : Nat) :
    ∀ s : SjfState, SjfInv proc s → SjfSeq proc s → s.completed + m = proc.length →
      ∃ f, (sjf_run f s).completed = proc.length ∧ (sjf_run f s).p.length = proc.length ∧
        (sjf_run f s).p.drop s.completed = fcfs_loop s.currentTime (s.p.drop s.completed) ∧
        ∀ i, i < s.completed → nth (sjf_run f s).p i = nth s.p i := by
  induction m with
  | zero =>
    intro s h _ hc
    refine ⟨0, by simpa [sjf_run] using hc, h.len_p, ?_, fun i _ => rfl⟩
    have : s.p.drop s.completed = [] := by
      apply List.drop_eq_nil_of_le
      rw [h.len_p]
      omega
    simp only [sjf_run, this, fcfs_loop]
  | succ m ih =>
    intro s h hs hc
    have hlt : s.completed < proc.length := by omega
    have hlt2 : s.completed < s.p.length := by rw [h.len_p]; exact hlt
    obtain ⟨f1, i1, q1, c1, p1, t1⟩ := sjf_seq_step proc hv b hb hbm ham hinc s h hs hlt
    obtain ⟨f2, a1, a2, a3, a4⟩ := ih (sjf_run f1 s) i1 q1 (by rw [c1]; omega)
    refine ⟨f1 + f2, ?_⟩
    rw [sjf_run_add]
    refine ⟨a1, a2, ?_, ?_⟩
    · have hlt3 : s.completed < (sjf_run f2 (sjf_run f1 s)).p.length := by rw [a2]; exact hlt
      rw [List.drop_eq_getElem_cons hlt3, List.drop_eq_getElem_cons hlt2]
      rw [c1] at a3
      rw [a3, t1, p1]
      simp only [fcfs_loop, upd, List.drop_set_of_lt _ _ (Nat.lt_succ_self _)]
      have e1 := a4 s.completed (by rw [c1]; omega)
      rw [nth_eq_getElem _ _ hlt3, p1, nth_upd_same _ _ _ hlt2] at e1
      rw [e1, ← nth_eq_getElem s.p _ hlt2]
    · intro i hi
      rw [a4 i (by rw [c1]; omega), p1, nth_upd_ne _ _ _ _ (by omega)]

/-- SJF with equal bursts and strictly increasing arrival times is FCFS, when the common
burst is below `INT_MAX` (and arrival times are at most `INT_MAX`): `sjf_metrics` ends,
and it ends with the array that `fcfs_metrics` ends with. -/
theorem sjf_eq_fcfs (proc : List Process) (hv : Valid proc) (b : Int)
    (hb : ∀ q ∈ proc, q.burstTime = b) (hbm : b < INT_MAX)
    (ham : ∀ q ∈ proc, q.arrivalTime ≤ INT_MAX)
    (hinc : (proc.map (fun q => q.arrivalTime)).Pairwise (fun x y => x < y)) :
    (∃ fuel, sjf_sim fuel proc = some (fcfs_sim proc)) ∧
      ∀ fuel p, sjf_sim fuel proc = some p → p = fcfs_sim proc := by
  have hinc2 : ∀ i j, i < j → j < proc.length →
      (nth proc i).arrivalTime < (nth proc j).arrivalTime := by
    intro i j hij hj
    rw [List.pairwise_map, List.pairwise_iff_getElem] at hinc
    rw [nth_eq_getElem _ _ (by omega), nth_eq_getElem _ _ hj]
    exact hinc i j (by omega) hj hij
  have hsorted : qsort cmp_arrival_proc (init_copy proc) = init_copy proc := by
    apply qsort_of_sorted
    unfold init_copy
    rw [List.pairwise_map]
    rw [List.pairwise_map] at hinc
    exact hinc.imp (fun h => le_of_lt h)
  have hseq0 : SjfSeq proc (sjf_init proc) := by
    refine ⟨fun i _ => ?_⟩
    simp [sjf_init, isDone_replicate]
  obtain ⟨f, a1, a2, a3, _⟩ := sjf_seq_run proc hv b hb hbm ham hinc2 proc.length
    (sjf_init proc) (sjf_inv_init proc) hseq0 (by simp [sjf_init])
  have hfin : ¬ (sjf_run f (sjf_init proc)).completed < (sjf_run f (sjf_init proc)).p.length := by
    omega
  have hp : (sjf_run f (sjf_init proc)).p = fcfs_sim proc := by
    have e0 : (sjf_init proc).completed = 0 := rfl
    rw [e0, List.drop_zero, List.drop_zero] at a3
    rw [a3]
    unfold fcfs_sim
    rw [hsorted]
    rfl
  constructor
  · refine ⟨f, ?_⟩
    rw [← hp]
    simp only [sjf_sim, sjf_loop_eq_run, hfin, if_false, Option.map_some']
  · intro fuel p h
    simp only [sjf_sim, Option.map_eq_some'] at h
    obtain ⟨s, hs, rfl⟩ := h
    rw [sjf_loop_eq_run] at hs
    split_ifs at hs with hc
    simp only [Option.some.injEq] at hs
    subst hs
    rw [sjf_run_final_unique fuel f _ hc hfin, hp]

theorem sjf_eq_fcfs_witness :
    Valid (mkProcs [(0, 3), (1, 3), (9, 3)]) ∧
      ((∃ fuel, sjf_sim fuel (mkProcs [(0, 3), (1, 3), (9, 3)]) =
          some (fcfs_sim (mkProcs [(0, 3), (1, 3), (9, 3)]))) ∧
        ∀ fuel p, sjf_sim fuel (mkProcs [(0, 3), (1, 3), (9, 3)]) = some p →
          p = fcfs_sim (mkProcs [(0, 3), (1, 3), (9, 3)])) :=
  ⟨by decide, sjf_eq_fcfs _ (by decide) 3 (by decide) (by decide) (by decide) (by decide)⟩

/-! ## The concrete scenarios -/

/-- Whatever fuel lets the SJF loop end, it ends in the same state. -/
theorem sjf_loop_unique (a b : Nat) (s0 s1 s2 : SjfState) (h1 : sjf_loop a s0 = some s1)
    (h2 : sjf_loop b s0 = some s2) : s1 = s2 := by
  rw [sjf_loop_eq_run] at h1 h2
  split_ifs at h1 with c1
  split_ifs at h2 with c2
  simp only [Option.some.injEq] at h1 h2
  rw [← h1, ← h2]
  exact sjf_run_final_unique a b s0 c1 c2

theorem sjf_sim_unique (a b : Nat) (proc p1 p2 : List Process)
    (h1 : sjf_sim a proc = some p1) (h2 : sjf_sim b proc = some p2) : p1 = p2 := by
  simp only [sjf_sim, Option.map_eq_some'] at h1 h2
  obtain ⟨s1, e1, rfl⟩ := h1
  obtain ⟨s2, e2, rfl⟩ := h2
  rw [sjf_loop_unique a b _ s1 s2 e1 e2]

theorem sjf_metrics_unique (a b : Nat) (proc : List Process) (m1 m2 : Metrics)
    (h1 : sjf_metrics a proc = some m1) (h2 : sjf_metrics b proc = some m2) : m1 = m2 := by
  simp only [sjf_metrics, Option.map_eq_some'] at h1 h2
  obtain ⟨p1, e1, rfl⟩ := h1
  obtain ⟨p2, e2, rfl⟩ := h2
  rw [sjf_sim_unique a b proc p1 p2 e1 e2]

/-- Whatever fuel lets the Round Robin loop end, it ends in the same state. -/
theorem rr_loop_unique (order : List Nat) (tq : Int) (a b : Nat) (s0 s1 s2 : RRState)
    (h1 : rr_loop order tq a s0 = some s1) (h2 : rr_loop order tq b s0 = some s2) :
    s1 = s2 := by
  rw [rr_loop_eq_run] at h1 h2
  split_ifs at h1 with c1
  split_ifs at h2 with c2
  simp only [Option.some.injEq] at h1 h2
  rw [← h1, ← h2]
  exact rr_run_final_unique order tq a b s0 c1 c2

theorem rr_sim_unique (a b : Nat) (proc : List Process) (tq : Int) (p1 p2 : List Process)
    (h1 : rr_sim a proc tq = some p1) (h2 : rr_sim b proc tq = some p2) : p1 = p2 := by
  simp only [rr_sim, Option.map_eq_some'] at h1 h2
  obtain ⟨s1, e1, rfl⟩ := h1
  obtain ⟨s2, e2, rfl⟩ := h2
  rw [rr_loop_unique _ tq a b _ s1 s2 e1 e2]

/-- Claim C12. On `[(0,5),(1,3),(2,8)]` the FCFS loop leaves completion times
`[5,8,16]`, and `fcfs_metrics` returns `avgWaiting = 10/3`, `avgTurnaround = 26/3` and
`avgResponse = 10/3 = avgWaiting`. -/
theorem fcfs_scenario :
    (fcfs_sim (mkProcs [(0, 5), (1, 3), (2, 8)])).map (fun q => q.completionTime) =
        [5, 8, 16] ∧
      (fcfs_metrics (mkProcs [(0, 5), (1, 3), (2, 8)])).avgWaiting = 10 / 3 ∧
      (fcfs_metrics (mkProcs [(0, 5), (1, 3), (2, 8)])).avgTurnaround = 26 / 3 ∧
      (fcfs_metrics (mkProcs [(0, 5), (1, 3), (2, 8)])).avgResponse = 10 / 3 ∧
      (fcfs_metrics (mkProcs [(0, 5), (1, 3), (2, 8)])).avgResponse =
        (fcfs_metrics (mkProcs [(0, 5), (1, 3), (2, 8)])).avgWaiting := by
  have h : fcfs_sim (mkProcs [(0, 5), (1, 3), (2, 8)]) =
      [⟨0, 0, 5, 5, 0, 5⟩, ⟨1, 1, 3, 3, 5, 8⟩, ⟨2, 2, 8, 8, 8, 16⟩] := by decide
  have hm : fcfs_metrics (mkProcs [(0, 5), (1, 3), (2, 8)]) = ⟨26 / 3, 10 / 3, 10 / 3⟩ := by
    norm_num [fcfs_metrics, metrics_of, h]
  rw [hm, h]
  exact ⟨by decide, rfl, rfl, rfl, rfl⟩

theorem sjf_scenario_sim :
    sjf_sim 4 (mkProcs [(0, 7), (2, 4), (4, 1), (5, 4)]) =
      some [⟨0, 0, 7, 7, 0, 7⟩, ⟨1, 2, 4, 4, 8, 12⟩, ⟨2, 4, 1, 1, 7, 8⟩,
        ⟨3, 5, 4, 4, 12, 16⟩] := by
  decide

/-- Claim C13, counterexample. On `[(0,7),(2,4),(4,1),(5,4)]` the loop of `sjf_metrics`
ends, and the per-process completion times it ends with are not `[7,11,12,16]`: at time 7
the job of burst 1 is the shortest arrived one and runs before the job of burst 4. -/
theorem sjf_scenario_counterexample :
    (∃ fuel p, sjf_sim fuel (mkProcs [(0, 7), (2, 4), (4, 1), (5, 4)]) = some p) ∧
      ∀ fuel p, sjf_sim fuel (mkProcs [(0, 7), (2, 4), (4, 1), (5, 4)]) = some p →
        p.map (fun q => q.completionTime) ≠ [7, 11, 12, 16] := by
  refine ⟨⟨4, _, sjf_scenario_sim⟩, ?_⟩
  intro fuel p h
  rw [sjf_sim_unique fuel 4 _ p _ h sjf_scenario_sim]
  decide

/-- Claim C13, amended. On `[(0,7),(2,4),(4,1),(5,4)]` the loop of `sjf_metrics` ends with
the per-process completion times `[7,12,8,16]` (dispatch order: processes 0, 2, 1, 3, with
start times `0, 8, 7, 12`). -/
theorem sjf_scenario_completions :
    (∃ fuel p, sjf_sim fuel (mkProcs [(0, 7), (2, 4), (4, 1), (5, 4)]) = some p) ∧
      ∀ fuel p, sjf_sim fuel (mkProcs [(0, 7), (2, 4), (4, 1), (5, 4)]) = some p →
        p.map (fun q => q.completionTime) = [7, 12, 8, 16] ∧
        p.map (fun q => q.startTime) = [0, 8, 7, 12] := by
  refine ⟨⟨4, _, sjf_scenario_sim⟩, ?_⟩
  intro fuel p h
  rw [sjf_sim_unique fuel 4 _ p _ h sjf_scenario_sim]
  exact ⟨by decide, by decide⟩

/-- Claim C14. On `[(0,7),(2,4),(4,1),(5,4)]` `sjf_metrics` returns, with
`avgWaiting = 4`; the waiting times `completion - arrival - burst` sum to 16 over the
4 processes. -/
theorem sjf_scenario_waiting :
    (∃ fuel m, sjf_metrics fuel (mkProcs [(0, 7), (2, 4), (4, 1), (5, 4)]) = some m) ∧
      (∀ fuel m, sjf_metrics fuel (mkProcs [(0, 7), (2, 4), (4, 1), (5, 4)]) = some m →
        m.avgWaiting = 4) ∧
      ∀ fuel p, sjf_sim fuel (mkProcs [(0, 7), (2, 4), (4, 1), (5, 4)]) = some p →
        (p.map (fun q => (q.completionTime - q.arrivalTime) - q.burstTime)).sum = 16 ∧
        p.length = 4 := by
  have hm : sjf_metrics 4 (mkProcs [(0, 7), (2, 4), (4, 1), (5, 4)]) =
      some ⟨8, 4, 4⟩ := by
    norm_num [sjf_metrics, sjf_scenario_sim, metrics_of]
  refine ⟨⟨4, _, hm⟩, ?_, ?_⟩
  · intro fuel m h
    rw [sjf_metrics_unique fuel 4 _ m _ h hm]
  · intro fuel p h
    rw [sjf_sim_unique fuel 4 _ p _ h sjf_scenario_sim]
    exact ⟨by decide, by decide⟩

theorem rr_scenario_loop :
    rr_loop (rr_order (init_copy (mkProcs [(0, 5), (1, 3), (2, 1)]))) 2 6
        (rr_init (mkProcs [(0, 5), (1, 3), (2, 1)])) =
      some { p := [⟨0, 0, 5, 0, 0, 9⟩, ⟨1, 1, 3, 0, 2, 8⟩, ⟨2, 2, 1, 0, 4, 5⟩]
             queue := [], currentTime := 9, completed := 3, nextArrIdx := 3 } := by
  decide

/-- Claim C15. With `timeQuantum = 2` on `[(0,5),(1,3),(2,1)]` the loop of `rr_metrics`
ends at `currentTime = 9`, the sum of the bursts; the completion times are `9, 8, 5`
(largest 9), and the start times are `0, 2, 4`, the times of first dispatch, against the
arrival times `0, 1, 2`. -/
theorem rr_scenario :
    (∃ fuel s, rr_loop (rr_order (init_copy (mkProcs [(0, 5), (1, 3), (2, 1)]))) 2 fuel
        (rr_init (mkProcs [(0, 5), (1, 3), (2, 1)])) = some s) ∧
      (∀ fuel s, rr_loop (rr_order (init_copy (mkProcs [(0, 5), (1, 3), (2, 1)]))) 2 fuel
          (rr_init (mkProcs [(0, 5), (1, 3), (2, 1)])) = some s →
        s.currentTime = 9 ∧
        s.p.map (fun q => q.completionTime) = [9, 8, 5] ∧
        s.p.map (fun q => q.startTime) = [0, 2, 4] ∧
        s.p.map (fun q => q.arrivalTime) = [0, 1, 2] ∧
        (s.p.map (fun q => q.burstTime)).sum = 9) ∧
      (rr_log (rr_order (init_copy (mkProcs [(0, 5), (1, 3), (2, 1)]))) 2 6
          (rr_init (mkProcs [(0, 5), (1, 3), (2, 1)]))) =
        [(0, 2), (1, 2), (2, 1), (0, 2), (1, 1), (0, 1)] := by
  refine ⟨⟨6, _, rr_scenario_loop⟩, ?_, by decide⟩
  intro fuel s h
  rw [rr_loop_unique _ 2 fuel 6 _ s _ h rr_scenario_loop]
  exact ⟨rfl, by decide, by decide, by decide, by decide⟩

/-! ## The ready queue -/

/-- Claim C16. In every state that the loop of `rr_metrics` reaches on valid input with a
positive quantum, while `completed < n`: an empty queue comes with `nextArrIdx < n`, the
queue is not empty after the fast-forward step, `dequeue` does not return `-1`, and the
pass makes a dispatch (does not end at `continue`). -/
theorem rr_queue_nonempty (proc : List Process) (hv : Valid proc) (tq : Int) (htq : 0 < tq)
    (k : Nat)
    (hc : (rr_run (rr_order (init_copy proc)) tq k (rr_init proc)).completed < proc.length) :
    ((rr_run (rr_order (init_copy proc)) tq k (rr_init proc)).queue = [] →
        (rr_run (rr_order (init_copy proc)) tq k (rr_init proc)).nextArrIdx < proc.length) ∧
      (rr_ff (rr_order (init_copy proc))
        (rr_run (rr_order (init_copy proc)) tq k (rr_init proc))).queue ≠ [] ∧
      (dequeue (rr_ff (rr_order (init_copy proc))
        (rr_run (rr_order (init_copy proc)) tq k (rr_init proc))).queue).1 ≠ none ∧
      rr_dispatch (rr_order (init_copy proc)) tq
        (rr_run (rr_order (init_copy proc)) tq k (rr_init proc)) ≠ none := by
  have ho := rr_order_ok proc
  have h := rr_inv_run proc hv _ ho tq htq k _ (rr_inv_init proc hv _ ho)
  generalize rr_run (rr_order (init_copy proc)) tq k (rr_init proc) = s at h hc
  have hc2 : s.completed < s.p.length := by rw [h.len_p]; exact hc
  have hne := rr_ff_queue_ne_nil proc _ s h hc2
  refine ⟨?_, hne, ?_, ?_⟩
  · intro hq
    have := h.count
    rw [hq, List.length_nil] at this
    omega
  · cases hq : (rr_ff (rr_order (init_copy proc)) s).queue with
    | nil => exact absurd hq hne
    | cons idx rest => simp [dequeue]
  · cases hq : (rr_ff (rr_order (init_copy proc)) s).queue with
    | nil => exact absurd hq hne
    | cons idx rest =>
      rw [rr_dispatch_eq _ tq s idx rest hq]
      simp

theorem rr_queue_nonempty_witness :
    Valid (mkProcs [(3, 5), (1, 3), (20, 1)]) ∧ (0 : Int) < 2 ∧
      (rr_run (rr_order (init_copy (mkProcs [(3, 5), (1, 3), (20, 1)]))) 2 5
        (rr_init (mkProcs [(3, 5), (1, 3), (20, 1)]))).completed <
        (mkProcs [(3, 5), (1, 3), (20, 1)]).length ∧
      (((rr_run (rr_order (init_copy (mkProcs [(3, 5), (1, 3), (20, 1)]))) 2 5
          (rr_init (mkProcs [(3, 5), (1, 3), (20, 1)]))).queue = [] →
          (rr_run (rr_order (init_copy (mkProcs [(3, 5), (1, 3), (20, 1)]))) 2 5
            (rr_init (mkProcs [(3, 5), (1, 3), (20, 1)]))).nextArrIdx <
            (mkProcs [(3, 5), (1, 3), (20, 1)]).length) ∧
        (rr_ff (rr_order (init_copy (mkProcs [(3, 5), (1, 3), (20, 1)])))
          (rr_run (rr_order (init_copy (mkProcs [(3, 5), (1, 3), (20, 1)]))) 2 5
            (rr_init (mkProcs [(3, 5), (1, 3), (20, 1)])))).queue ≠ [] ∧
        (dequeue (rr_ff (rr_order (init_copy (mkProcs [(3, 5), (1, 3), (20, 1)])))
          (rr_run (rr_order (init_copy (mkProcs [(3, 5), (1, 3), (20, 1)]))) 2 5
            (rr_init (mkProcs [(3, 5), (1, 3), (20, 1)])))).queue).1 ≠ none ∧
        rr_dispatch (rr_order (init_copy (mkProcs [(3, 5), (1, 3), (20, 1)]))) 2
          (rr_run (rr_order (init_copy (mkProcs [(3, 5), (1, 3), (20, 1)]))) 2 5
            (rr_init (mkProcs [(3, 5), (1, 3), (20, 1)]))) ≠ none) :=
  ⟨by decide, by decide, by decide, rr_queue_nonempty _ (by decide) 2 (by decide) 5 (by decide)⟩

theorem filter_range_split (P : Nat → Bool) (k k1 n : Nat) (h1 : k ≤ k1) (h2 : k1 ≤ n)
    (hp : ∀ i, k ≤ i → i < k1 → P i = true) (hn : ∀ i, k1 ≤ i → i < n → P i = false) :
    (List.range' k (n - k)).filter P = List.range' k (k1 - k) := by
  have e : List.range' k (n - k) = List.range' k (k1 - k) ++ List.range' k1 (n - k1) := by
    have := List.range'_append_1 k (k1 - k) (n - k1)
    rw [show k + (k1 - k) = k1 by omega, show n - k1 + (k1 - k) = n - k by omega] at this
    exact this.symm
  rw [e, List.filter_append]
  have e1 : (List.range' k (k1 - k)).filter P = List.range' k (k1 - k) := by
    rw [List.filter_eq_self]
    intro i hi
    rw [List.mem_range'_1] at hi
    exact hp i hi.1 (by omega)
  have e2 : (List.range' k1 (n - k1)).filter P = [] := by
    rw [List.filter_eq_nil_iff]
    intro i hi
    rw [List.mem_range'_1] at hi
    rw [hn i hi.1 (by omega)]
    simp
  rw [e1, e2, List.append_nil]

/-- Claim C17. In a pass of the loop of `rr_metrics` (valid input, positive quantum, any
reachable state) that dequeues `idx` and leaves `Q` in the queue, the queue after the
pass is `Q`, then every process not yet enqueued (position at least `nextArrIdx` in
`order[]`) whose arrival time is at most the new `currentTime`, in `order[]` order, then
`idx` if and only if its `remainingTime` is still positive. -/
theorem rr_queue_after_pass (proc : List Process) (hv : Valid proc) (tq : Int)
    (htq : 0 < tq) (k idx : Nat) (Q : List Nat)
    (hq : (rr_ff (rr_order (init_copy proc))
      (rr_run (rr_order (init_copy proc)) tq k (rr_init proc))).queue = idx :: Q) :
    (rr_step (rr_order (init_copy proc)) tq
        (rr_run (rr_order (init_copy proc)) tq k (rr_init proc))).queue =
      Q ++ ((List.range'
          (rr_ff (rr_order (init_copy proc))
            (rr_run (rr_order (init_copy proc)) tq k (rr_init proc))).nextArrIdx
          (proc.length - (rr_ff (rr_order (init_copy proc))
            (rr_run (rr_order (init_copy proc)) tq k (rr_init proc))).nextArrIdx)).filter
          (fun i => decide ((nth proc (ord (rr_order (init_copy proc)) i)).arrivalTime ≤
            (rr_step (rr_order (init_copy proc)) tq
              (rr_run (rr_order (init_copy proc)) tq k (rr_init proc))).currentTime))).map
          (ord (rr_order (init_copy proc))) ++
        (if 0 < (nth (rr_step (rr_order (init_copy proc)) tq
            (rr_run (rr_order (init_copy proc)) tq k (rr_init proc))).p idx).remainingTime
          then [idx] else []) := by
  have ho := rr_order_ok proc
  have h := rr_inv_run proc hv _ ho tq htq k _ (rr_inv_init proc hv _ ho)
  generalize rr_run (rr_order (init_copy proc)) tq k (rr_init proc) = s at h hq
  generalize rr_order (init_copy proc) = order at ho h hq
  have h1 := rr_inv_ff proc hv order ho s h
  obtain ⟨i0, hi0, hord0, hrem0⟩ :=
    (h1.queue_mem idx).1 (by rw [hq]; exact List.mem_cons_self _ _)
  have hidx : idx < proc.length := by
    rw [← hord0]; exact ho.lt i0 (by have := h1.next_le; omega)
  obtain ⟨k1, qf, ep, eq, et, _, _, a1, a2, a3, a4, _⟩ :=
    rr_exec_spec proc order tq (rr_ff order s) idx Q ho h1.len_p
      (fun x hx => (h1.static x hx).1) hidx h1.next_le
  rw [rr_step_eq order tq s idx Q hq, eq, ep, et,
    nth_upd_same _ _ _ (by rw [h1.len_p]; exact hidx)]
  congr 2
  rw [filter_range_split _ _ k1 proc.length a1 a2]
  · intro i hi1 hi2
    simpa using a3 i hi1 hi2
  · intro i hi1 hi2
    have := a4 (by omega)
    have := ho.sorted k1 i hi1 hi2
    simp only [decide_eq_false_iff_not, not_le]
    omega

theorem rr_queue_after_pass_witness :
    Valid (mkProcs [(0, 5), (1, 3), (2, 1)]) ∧ (0 : Int) < 2 ∧
      (rr_ff (rr_order (init_copy (mkProcs [(0, 5), (1, 3), (2, 1)])))
        (rr_run (rr_order (init_copy (mkProcs [(0, 5), (1, 3), (2, 1)]))) 2 0
          (rr_init (mkProcs [(0, 5), (1, 3), (2, 1)])))).queue = 0 :: [] ∧
      (rr_step (rr_order (init_copy (mkProcs [(0, 5), (1, 3), (2, 1)]))) 2
        (rr_run (rr_order (init_copy (mkProcs [(0, 5), (1, 3), (2, 1)]))) 2 0
          (rr_init (mkProcs [(0, 5), (1, 3), (2, 1)])))).queue = [1, 2, 0] ∧
      (rr_step (rr_order (init_copy (mkProcs [(0, 5), (1, 3), (2, 1)]))) 2
          (rr_run (rr_order (init_copy (mkProcs [(0, 5), (1, 3), (2, 1)]))) 2 0
            (rr_init (mkProcs [(0, 5), (1, 3), (2, 1)])))).queue =
        [] ++ ((List.range'
            (rr_ff (rr_order (init_copy (mkProcs [(0, 5), (1, 3), (2, 1)])))
              (rr_run (rr_order (init_copy (mkProcs [(0, 5), (1, 3), (2, 1)]))) 2 0
                (rr_init (mkProcs [(0, 5), (1, 3), (2, 1)])))).nextArrIdx
            ((mkProcs [(0, 5), (1, 3), (2, 1)]).length -
              (rr_ff (rr_order (init_copy (mkProcs [(0, 5), (1, 3), (2, 1)])))
                (rr_run (rr_order (init_copy (mkProcs [(0, 5), (1, 3), (2, 1)]))) 2 0
                  (rr_init (mkProcs [(0, 5), (1, 3), (2, 1)])))).nextArrIdx)).filter
            (fun i => decide ((nth (mkProcs [(0, 5), (1, 3), (2, 1)])
                (ord (rr_order (init_copy (mkProcs [(0, 5), (1, 3), (2, 1)]))) i)).arrivalTime ≤
              (rr_step (rr_order (init_copy (mkProcs [(0, 5), (1, 3), (2, 1)]))) 2
                (rr_run (rr_order (init_copy (mkProcs [(0, 5), (1, 3), (2, 1)]))) 2 0
                  (rr_init (mkProcs [(0, 5), (1, 3), (2, 1)])))).currentTime))).map
            (ord (rr_order (init_copy (mkProcs [(0, 5), (1, 3), (2, 1)])))) ++
          (if 0 < (nth (rr_step (rr_order (init_copy (mkProcs [(0, 5), (1, 3), (2, 1)]))) 2
              (rr_run (rr_order (init_copy (mkProcs [(0, 5), (1, 3), (2, 1)]))) 2 0
                (rr_init (mkProcs [(0, 5), (1, 3), (2, 1)])))).p 0).remainingTime
            then [0] else []) :=
  ⟨by decide, by decide, by decide, by decide,
    rr_queue_after_pass _ (by decide) 2 (by decide) 0 0 [] (by decide)⟩

/-! ## One processor, never idle with work waiting -/

theorem sjf_sim_final (proc : List Process) (hv : Valid proc) (fuel : Nat)
    (p : List Process) (h : sjf_sim fuel proc = some p) :
    ∃ s, SjfInv proc s ∧ s.p = p ∧ s = sjf_run fuel (sjf_init proc) ∧
      ∀ i, i < proc.length → isDone s.done i = true := by
  simp only [sjf_sim, Option.map_eq_some'] at h
  obtain ⟨s, hs, rfl⟩ := h
  rw [sjf_loop_eq_run] at hs
  split_ifs at hs with hc
  simp only [Option.some.injEq] at hs
  subst hs
  have hinv := sjf_inv_run proc hv fuel _ (sjf_inv_init proc)
  exact ⟨_, hinv, rfl, rfl, (sjf_all_done proc _ hinv hc).2⟩

theorem fcfs_sim_length (proc : List Process) : (fcfs_sim proc).length = proc.length := by
  unfold fcfs_sim
  rw [fcfs_loop_length, length_qsort, length_init_copy]

/-- Claim C18. On valid input the execution intervals do not overlap.  In the final array
of `fcfs_metrics` any two distinct records have `completionTime_i ≤ startTime_j` or
`completionTime_j ≤ startTime_i`.  In every state of the loop of `sjf_metrics` the same
holds of any two distinct dispatched processes, and when the loop has ended it holds of
any two distinct processes. -/
theorem intervals_disjoint (proc : List Process) (hv : Valid proc) :
    (∀ i j, i < proc.length → j < proc.length → i ≠ j →
        (nth (fcfs_sim proc) i).completionTime ≤ (nth (fcfs_sim proc) j).startTime ∨
        (nth (fcfs_sim proc) j).completionTime ≤ (nth (fcfs_sim proc) i).startTime) ∧
      (∀ k i j, i < proc.length → j < proc.length → i ≠ j →
        isDone (sjf_run k (sjf_init proc)).done i = true →
        isDone (sjf_run k (sjf_init proc)).done j = true →
        (nth (sjf_run k (sjf_init proc)).p i).completionTime ≤
            (nth (sjf_run k (sjf_init proc)).p j).startTime ∨
          (nth (sjf_run k (sjf_init proc)).p j).completionTime ≤
            (nth (sjf_run k (sjf_init proc)).p i).startTime) ∧
      ∀ fuel p, sjf_sim fuel proc = some p →
        ∀ i j, i < proc.length → j < proc.length → i ≠ j →
          (nth p i).completionTime ≤ (nth p j).startTime ∨
          (nth p j).completionTime ≤ (nth p i).startTime := by
  refine ⟨?_, ?_, ?_⟩
  · have hp := fcfs_loop_pairwise (fun _ _ => True) (fun _ _ _ _ _ _ _ => trivial) 0 _
      (sorted_copy_burst proc hv) (List.pairwise_of_forall (fun _ _ => trivial))
    have hp2 : (fcfs_sim proc).Pairwise (fun a b => a.completionTime ≤ b.startTime) :=
      hp.imp (fun h => h.2)
    rw [List.pairwise_iff_getElem] at hp2
    have hlen := fcfs_sim_length proc
    intro i j hi hj hij
    rw [nth_eq_getElem _ i (by omega), nth_eq_getElem _ j (by omega)]
    rcases Nat.lt_or_gt_of_ne hij with h | h
    · exact Or.inl (hp2 i j (by omega) (by omega) h)
    · exact Or.inr (hp2 j i (by omega) (by omega) h)
  · intro k i j hi hj hij hdi hdj
    exact (sjf_inv_run proc hv k _ (sjf_inv_init proc)).disjoint i j hi hj hij hdi hdj
  · intro fuel p h i j hi hj hij
    obtain ⟨s, hinv, rfl, _, hall⟩ := sjf_sim_final proc hv fuel p h
    exact hinv.disjoint i j hi hj hij (hall i hi) (hall j hj)

theorem intervals_disjoint_witness :
    Valid (mkProcs [(0, 7), (2, 4), (4, 1), (5, 4)]) ∧
      ((∀ i j, i < (mkProcs [(0, 7), (2, 4), (4, 1), (5, 4)]).length →
          j < (mkProcs [(0, 7), (2, 4), (4, 1), (5, 4)]).length → i ≠ j →
          (nth (fcfs_sim (mkProcs [(0, 7), (2, 4), (4, 1), (5, 4)])) i).completionTime ≤
              (nth (fcfs_sim (mkProcs [(0, 7), (2, 4), (4, 1), (5, 4)])) j).startTime ∨
            (nth (fcfs_sim (mkProcs [(0, 7), (2, 4), (4, 1), (5, 4)])) j).completionTime ≤
              (nth (fcfs_sim (mkProcs [(0, 7), (2, 4), (4, 1), (5, 4)])) i).startTime) ∧
        (∀ k i j, i < (mkProcs [(0, 7), (2, 4), (4, 1), (5, 4)]).length →
          j < (mkProcs [(0, 7), (2, 4), (4, 1), (5, 4)]).length → i ≠ j →
          isDone (sjf_run k (sjf_init (mkProcs [(0, 7), (2, 4), (4, 1), (5, 4)]))).done i =
            true →
          isDone (sjf_run k (sjf_init (mkProcs [(0, 7), (2, 4), (4, 1), (5, 4)]))).done j =
            true →
          (nth (sjf_run k (sjf_init (mkProcs [(0, 7), (2, 4), (4, 1), (5, 4)]))).p
                i).completionTime ≤
              (nth (sjf_run k (sjf_init (mkProcs [(0, 7), (2, 4), (4, 1), (5, 4)]))).p
                j).startTime ∨
            (nth (sjf_run k (sjf_init (mkProcs [(0, 7), (2, 4), (4, 1), (5, 4)]))).p
                j).completionTime ≤
              (nth (sjf_run k (sjf_init (mkProcs [(0, 7), (2, 4), (4, 1), (5, 4)]))).p
                i).startTime) ∧
        ∀ fuel p, sjf_sim fuel (mkProcs [(0, 7), (2, 4), (4, 1), (5, 4)]) = some p →
          ∀ i j, i < (mkProcs [(0, 7), (2, 4), (4, 1), (5, 4)]).length →
            j < (mkProcs [(0, 7), (2, 4), (4, 1), (5, 4)]).length → i ≠ j →
            (nth p i).completionTime ≤ (nth p j).startTime ∨
            (nth p j).completionTime ≤ (nth p i).startTime) :=
  ⟨by decide, intervals_disjoint _ (by decide)⟩

theorem rr_first_init (proc : List Process) (order : List Nat) (ho : OrderOK proc order) :
    RRFirst proc order (rr_init proc) 0 := by
  refine ⟨le_refl _, ?_, by simp [rr_init], fun i hi => absurd hi (by omega),
    fun a b _ hb => absurd hb (by omega)⟩
  intro i hi
  simp only [rr_init, nth_init_copy proc _ (ho.lt i hi)]
  constructor
  · intro h
    have h : (0 : Int) ≤ -1 := h
    omega
  · intro h
    omega

/-- Step (a) keeps `RRFirst`. -/
theorem rr_first_ff (proc : List Process) (order : List Nat) (ho : OrderOK proc order)
    (s : RRState) (h : RRInv proc order s) (m : Nat) (hf : RRFirst proc order s m) :
    RRFirst proc order (rr_ff order s) m := by
  by_cases hq : s.queue = []
  swap
  · rw [rr_ff_busy order s hq]
    exact hf
  by_cases hn : s.nextArrIdx < s.p.length
  swap
  · rw [rr_ff_end order s hn]
    exact hf
  rw [rr_ff_idle order s hq hn]
  have hlen := h.len_p
  have hk : s.nextArrIdx < proc.length := by omega
  have hx := ho.lt _ hk
  have hfr := h.fresh _ (le_refl _) hk
  have hw := hf.waiting
  rw [hq, List.filter_nil] at hw
  have hm : s.nextArrIdx - m = 0 := by
    by_contra hne
    have hpos : s.nextArrIdx - m = (s.nextArrIdx - m - 1) + 1 := by omega
    rw [hpos, List.range'_succ] at hw
    simp at hw
  have hmle := hf.m_le
  have hme : m = s.nextArrIdx := by omega
  refine ⟨?_, hf.started_iff, ?_, ?_, hf.increasing⟩
  · show m ≤ s.nextArrIdx + 1
    omega
  · show [ord order s.nextArrIdx].filter (fun x => decide ((nth s.p x).startTime < 0)) =
      (List.range' m (s.nextArrIdx + 1 - m)).map (ord order)
    have : s.nextArrIdx + 1 - m = 1 := by omega
    rw [this, hme]
    have h1 : (nth s.p (ord order s.nextArrIdx)).startTime < 0 := by
      rw [hfr.2.1]
      omega
    simp [List.filter_cons, h1]
  · intro i hi
    have := hf.before_clock i hi
    show (nth s.p (ord order i)).startTime < (nth s.p (ord order s.nextArrIdx)).arrivalTime
    rw [(h.static _ hx).1]
    have := hfr.2.2
    omega

/-- The body of the loop after a dequeue keeps `RRFirst`, with one more process started
when the dequeued one had not run before. -/
theorem rr_first_exec (proc : List Process) (order : List Nat)
    (ho : OrderOK proc order) (tq : Int) (htq : 0 < tq) (s : RRState)
    (h : RRInv proc order s) (m : Nat) (hf : RRFirst proc order s m) (idx : Nat)
    (rest : List Nat) (hq : s.queue = idx :: rest) :
    ∃ m1, RRFirst proc order (rr_exec order tq s idx rest) m1 := by
  have hlen := h.len_p
  obtain ⟨i0, hi0, hord0, hrem0⟩ := (h.queue_mem idx).1 (by rw [hq]; exact List.mem_cons_self _ _)
  have hnext := h.next_le
  have hi0n : i0 < proc.length := by omega
  have hidx : idx < proc.length := by rw [← hord0]; exact ho.lt i0 hi0n
  obtain ⟨k1, qf, ep, eq, et, ec, en, a1, a2, a3, a4, g1, g2, g3, g4, g5, g6⟩ :=
    rr_exec_spec proc order tq s idx rest ho hlen (fun x hx => (h.static x hx).1) hidx hnext
  obtain ⟨sl1, sl2, sl3, _⟩ := rr_slice_pos tq _ htq hrem0
  have hct := h.time_nonneg
  have hnd := h.queue_nodup
  rw [hq, List.nodup_cons] at hnd
  have hmle := hf.m_le
  have hn : ∀ x, nth (upd s.p idx qf) x = if idx = x then qf else nth s.p x :=
    fun x => nth_upd _ _ _ _ (by omega)
  have hqf0 : 0 ≤ qf.startTime := by
    rw [g5]
    split_ifs <;> omega
  have hw := hf.waiting
  rw [hq] at hw
  -- the filter of the new queue
  have hfrest : rest.filter (fun x => decide ((nth (upd s.p idx qf) x).startTime < 0)) =
      rest.filter (fun x => decide ((nth s.p x).startTime < 0)) := by
    apply List.filter_congr
    intro x hx
    have hne : ¬ idx = x := fun e => hnd.1 (e ▸ hx)
    rw [hn, if_neg hne]
  have hfnew : ((List.range' s.nextArrIdx (k1 - s.nextArrIdx)).map (ord order)).filter
      (fun x => decide ((nth (upd s.p idx qf) x).startTime < 0)) =
      (List.range' s.nextArrIdx (k1 - s.nextArrIdx)).map (ord order) := by
    rw [List.filter_eq_self]
    intro x hx
    obtain ⟨j, hj, rfl⟩ := List.mem_map.1 hx
    rw [List.mem_range'_1] at hj
    have hjn : j < proc.length := by omega
    have hne : ¬ idx = ord order j := by
      intro e
      have := ho.inj i0 j hi0n hjn (by rw [hord0, e])
      omega
    rw [hn, if_neg hne, (h.fresh j hj.1 hjn).2.1]
    decide
  have hftail : (if 0 < qf.remainingTime then [idx] else []).filter
      (fun x => decide ((nth (upd s.p idx qf) x).startTime < 0)) = [] := by
    split_ifs
    · rw [List.filter_cons, hn, if_pos rfl]
      simp only [List.filter_nil]
      rw [if_neg]
      simp only [decide_eq_true_eq, not_lt]
      exact hqf0
    · rfl
  have hfq : (rr_exec order tq s idx rest).queue.filter
      (fun x => decide ((nth (rr_exec order tq s idx rest).p x).startTime < 0)) =
      rest.filter (fun x => decide ((nth s.p x).startTime < 0)) ++
        (List.range' s.nextArrIdx (k1 - s.nextArrIdx)).map (ord order) := by
    rw [eq, ep, List.filter_append, List.filter_append, hfrest, hfnew, hftail,
      List.append_nil]
  have hjoin : ∀ m0, m0 ≤ s.nextArrIdx →
      (List.range' m0 (s.nextArrIdx - m0)).map (ord order) ++
        (List.range' s.nextArrIdx (k1 - s.nextArrIdx)).map (ord order) =
      (List.range' m0 (k1 - m0)).map (ord order) := by
    intro m0 hm0
    rw [← List.map_append]
    congr 1
    have := List.range'_append_1 m0 (s.nextArrIdx - m0) (k1 - s.nextArrIdx)
    rw [show m0 + (s.nextArrIdx - m0) = s.nextArrIdx by omega,
      show k1 - s.nextArrIdx + (s.nextArrIdx - m0) = k1 - m0 by omega] at this
    exact this
  by_cases hst : (nth s.p idx).startTime < 0
  · -- first dispatch of `idx`
    rw [if_pos hst] at g5
    rw [List.filter_cons, if_pos (by simpa using hst)] at hw
    have hpos : s.nextArrIdx - m = (s.nextArrIdx - (m + 1)) + 1 := by
      by_contra hne
      have : s.nextArrIdx - m = 0 := by omega
      rw [this] at hw
      simp at hw
    rw [hpos, List.range'_succ, List.map_cons] at hw
    have hidm : idx = ord order m := (List.cons.inj hw).1
    have hw2 := (List.cons.inj hw).2
    have hmn : m < proc.length := by omega
    refine ⟨m + 1, ?_, ?_, ?_, ?_, ?_⟩
    · rw [en]
      omega
    · intro i hi
      rw [ep, hn]
      by_cases e : idx = ord order i
      · rw [if_pos e]
        have : i = m := ho.inj i m hi hmn (by rw [← e, hidm])
        constructor
        · intro _
          omega
        · intro _
          exact hqf0
      · rw [if_neg e]
        have hne : i ≠ m := fun e2 => e (by rw [e2, hidm])
        rw [hf.started_iff i hi]
        omega
    · rw [hfq, hw2, en]
      exact hjoin (m + 1) (by omega)
    · intro i hi
      rw [ep, et, hn]
      by_cases e : idx = ord order i
      · rw [if_pos e, g5]
        omega
      · rw [if_neg e]
        have hne : i ≠ m := fun e2 => e (by rw [e2, hidm])
        have := hf.before_clock i (by omega)
        omega
    · intro a b hab hb
      rw [ep, hn, hn]
      have hea : ¬ idx = ord order a := by
        intro e
        have := ho.inj a m (by omega) hmn (by rw [← e, hidm])
        omega
      rw [if_neg hea]
      by_cases e : idx = ord order b
      · rw [if_pos e, g5]
        exact hf.before_clock a (by
          have := ho.inj b m (by omega) hmn (by rw [← e, hidm])
          omega)
      · rw [if_neg e]
        have hne : b ≠ m := fun e2 => e (by rw [e2, hidm])
        exact hf.increasing a b hab (by omega)
  · -- `idx` had started before
    rw [if_neg hst] at g5
    rw [List.filter_cons, if_neg (by simpa using hst)] at hw
    have hsame : ∀ x, (nth (upd s.p idx qf) x).startTime = (nth s.p x).startTime := by
      intro x
      rw [hn]
      split_ifs with e
      · rw [g5, e]
      · rfl
    refine ⟨m, ?_, ?_, ?_, ?_, ?_⟩
    · rw [en]
      omega
    · intro i hi
      rw [ep, hsame]
      exact hf.started_iff i hi
    · rw [hfq, hw, en]
      exact hjoin m hmle
    · intro i hi
      rw [ep, et, hsame]
      have := hf.before_clock i hi
      omega
    · intro a b hab hb
      rw [ep, hsame, hsame]
      exact hf.increasing a b hab hb

theorem rr_first_step (proc : List Process) (hv : Valid proc) (order : List Nat)
    (ho : OrderOK proc order) (tq : Int) (htq : 0 < tq) (s : RRState)
    (h : RRInv proc order s) (m : Nat) (hf : RRFirst proc order s m) :
    ∃ m1, RRFirst proc order (rr_step order tq s) m1 := by
  have h1 := rr_inv_ff proc hv order ho s h
  have f1 := rr_first_ff proc order ho s h m hf
  cases hq : (rr_ff order s).queue with
  | nil =>
    rw [rr_step_nil order tq s hq]
    exact ⟨m, f1⟩
  | cons idx rest =>
    rw [rr_step_eq order tq s idx rest hq]
    exact rr_first_exec proc order ho tq htq _ h1 m f1 idx rest hq

theorem rr_first_run (proc : List Process) (hv : Valid proc) (order : List Nat)
    (ho : OrderOK proc order) (tq : Int) (htq : 0 < tq) (k : Nat) :
    ∀ (s : RRState) (m : Nat), RRInv proc order s → RRFirst proc order s m →
      ∃ m1, RRFirst proc order (rr_run order tq k s) m1 := by
  induction k with
  | zero => exact fun s m _ hf => ⟨m, hf⟩
  | succ k ih =>
    intro s m h hf
    simp only [rr_run]
    split
    · obtain ⟨m1, hf1⟩ := rr_first_step proc hv order ho tq htq s h m hf
      exact ih _ m1 (rr_inv_step proc hv order ho tq htq s h) hf1
    · exact ⟨m, hf⟩

/-- Claim C20. On valid input with a positive quantum the loop of `rr_metrics` ends, and
when it has ended first dispatches follow arrival order: `arrivalTime_i < arrivalTime_j`
gives `startTime_i < startTime_j`. -/
theorem rr_start_order (proc : List Process) (hv : Valid proc) (tq : Int) (htq : 0 < tq) :
    (∃ fuel p, rr_sim fuel proc tq = some p) ∧
      ∀ fuel p, rr_sim fuel proc tq = some p →
        ∀ i j, i < proc.length → j < proc.length →
          (nth proc i).arrivalTime < (nth proc j).arrivalTime →
          (nth p i).startTime < (nth p j).startTime := by
  constructor
  · obtain ⟨fuel, s, h⟩ := rr_loop_terminates proc hv tq htq
    exact ⟨fuel, s.p, by simp [rr_sim, h]⟩
  · intro fuel p h i j hi hj hlt
    have ho := rr_order_ok proc
    obtain ⟨s, hs, rfl⟩ := rr_sim_some fuel proc tq p h
    obtain ⟨hinv, hc, e⟩ := rr_loop_some proc hv tq htq fuel s hs
    obtain ⟨m, hf⟩ := rr_first_run proc hv _ ho tq htq fuel (rr_init proc) 0
      (rr_inv_init proc hv _ ho) (rr_first_init proc _ ho)
    rw [← e] at hf
    obtain ⟨_, _, _, hfin⟩ := rr_inv_final proc hv _ ho s hinv hc
    obtain ⟨a, ha, rfl⟩ := ho.surj i hi
    obtain ⟨b, hb, rfl⟩ := ho.surj j hj
    have hab : a < b := by
      by_contra hn
      have := ho.sorted b a (by omega) ha
      omega
    have hbm : b < m := by
      apply (hf.started_iff b hb).1
      have h1 := (hfin _ hj).2.1
      have h2 := (valid_nth proc hv _ hj).1
      omega
    exact hf.increasing a b hab hbm

theorem rr_start_order_witness :
    Valid (mkProcs [(3, 5), (1, 3), (20, 1)]) ∧ (0 : Int) < 2 ∧
      ((∃ fuel p, rr_sim fuel (mkProcs [(3, 5), (1, 3), (20, 1)]) 2 = some p) ∧
        ∀ fuel p, rr_sim fuel (mkProcs [(3, 5), (1, 3), (20, 1)]) 2 = some p →
          ∀ i j, i < (mkProcs [(3, 5), (1, 3), (20, 1)]).length →
            j < (mkProcs [(3, 5), (1, 3), (20, 1)]).length →
            (nth (mkProcs [(3, 5), (1, 3), (20, 1)]) i).arrivalTime <
              (nth (mkProcs [(3, 5), (1, 3), (20, 1)]) j).arrivalTime →
            (nth p i).startTime < (nth p j).startTime) :=
  ⟨by decide, by decide, rr_start_order _ (by decide) 2 (by decide)⟩

/-! ## A single process -/

theorem ilog2_aux_le (fuel : Nat) :
    ∀ k a : Nat, a < 2 ^ (k + 1) → ilog2_aux fuel a ≤ k := by
  induction fuel with
  | zero =>
    intro k a _
    simp [ilog2_aux]
  | succ f ih =>
    intro k a h
    simp only [ilog2_aux]
    split_ifs with h2
    · omega
    · cases k with
      | zero =>
        simp at h
        omega
      | succ k =>
        have h3 : a / 2 < 2 ^ (k + 1) := by
          rw [Nat.div_lt_iff_lt_mul (by norm_num)]
          rw [pow_succ] at h
          exact h
        have := ih k (a / 2) h3
        omega

/-- Integers below `2 ^ 24` are binary32 values. -/
theorem f32_nat_small (a : Nat) (h : a < 2 ^ 24) : f32_nat a = a := by
  have h1 : ilog2 a ≤ 23 := ilog2_aux_le a 23 a h
  have h2 : ilog2 a - 23 = 0 := by omega
  simp [f32_nat, h2, round_even, Nat.mod_one]

theorem f32_int_small (x : Int) (h0 : 0 ≤ x) (h : x < 2 ^ 24) : f32_int x = x := by
  have h1 : x.natAbs < 2 ^ 24 := by omega
  have h2 : ¬ x < 0 := by omega
  simp only [f32_int, h2, if_false, f32_nat_small _ h1]
  omega

theorem f32_foldl_exact (xs : List Int) :
    ∀ s : Int, 0 ≤ s → (∀ x ∈ xs, 0 ≤ x) → s + xs.sum < 2 ^ 24 →
      xs.foldl (fun s x => f32_int (s + f32_int x)) s = s + xs.sum := by
  induction xs with
  | nil =>
    intro s _ _ _
    simp
  | cons x xs ih =>
    intro s hs h0 hb
    have hx : 0 ≤ x := h0 x (List.mem_cons_self _ _)
    have hxs : 0 ≤ xs.sum := List.sum_nonneg (fun y hy => h0 y (List.mem_cons_of_mem _ hy))
    rw [List.sum_cons] at hb
    rw [List.foldl_cons, f32_int_small x hx (by omega), f32_int_small (s + x) (by omega)
      (by omega), ih (s + x) (by omega) (fun y hy => h0 y (List.mem_cons_of_mem _ hy))
      (by omega), List.sum_cons]
    ring

/-- While the total stays below `2 ^ 24` the binary32 accumulation of non-negative
integers is exact. -/
theorem f32_sum_exact (xs : List Int) (h0 : ∀ x ∈ xs, 0 ≤ x) (hb : xs.sum < 2 ^ 24) :
    f32_sum xs = xs.sum := by
  have := f32_foldl_exact xs 0 (le_refl _) h0 (by simpa using hb)
  simpa [f32_sum] using this

theorem f32_sum_perm (xs ys : List Int) (h : xs.Perm ys) (h0 : ∀ x ∈ xs, 0 ≤ x)
    (hb : xs.sum < 2 ^ 24) : f32_sum xs = f32_sum ys := by
  rw [f32_sum_exact xs h0 hb, f32_sum_exact ys (fun y hy => h0 y (h.mem_iff.2 hy))
    (by rw [← h.sum_eq]; exact hb), h.sum_eq]

/-- The binary32 averages read the array only through the outcomes, in array order. -/
theorem metrics_f32_congr (l1 l2 : List Process) (h : l1.map outcome = l2.map outcome) :
    metrics_f32 l1 = metrics_f32 l2 := by
  have hlen : l1.length = l2.length := by
    have := congrArg List.length h
    simpa using this
  have hs : ∀ g : Int × Int × Int × Int × Int → Int,
      l1.map (fun q => g (outcome q)) = l2.map (fun q => g (outcome q)) := by
    intro g
    have := congrArg (List.map g) h
    simpa [List.map_map, Function.comp_def] using this
  have e1 := hs (fun o => o.2.2.2.2 - o.2.1)
  have e2 := hs (fun o => (o.2.2.2.2 - o.2.1) - o.2.2.1)
  have e3 := hs (fun o => o.2.2.2.1 - o.2.1)
  simp only [outcome] at e1 e2 e3
  simp only [metrics_f32, hlen, e1, e2, e3]

/-- Two arrays with the same outcomes in any order have the same binary32 averages when
no process starts before it arrives, each completes one burst after its start, and the
turnaround times add up to less than `2 ^ 24`. -/
theorem metrics_f32_of_perm (l1 l2 : List Process)
    (h1 : ∀ q ∈ l1, q.arrivalTime ≤ q.startTime ∧
      q.completionTime = q.startTime + q.burstTime ∧ 0 ≤ q.burstTime)
    (hb : (l1.map (fun q => q.completionTime - q.arrivalTime)).sum < 2 ^ 24)
    (h : (l1.map outcome).Perm (l2.map outcome)) : metrics_f32 l1 = metrics_f32 l2 := by
  have hlen : l1.length = l2.length := by
    have := h.length_eq
    simpa using this
  have hs : ∀ g : Int × Int × Int × Int × Int → Int,
      (∀ q ∈ l1, 0 ≤ g (outcome q)) →
      (∀ q ∈ l1, g (outcome q) ≤ q.completionTime - q.arrivalTime) →
      f32_sum (l1.map (fun q => g (outcome q))) =
        f32_sum (l2.map (fun q => g (outcome q))) := by
    intro g g0 g1
    apply f32_sum_perm
    · have := h.map g
      simpa [List.map_map, Function.comp_def] using this
    · intro x hx
      obtain ⟨q, hq, rfl⟩ := List.mem_map.1 hx
      exact g0 q hq
    · exact lt_of_le_of_lt (List.sum_le_sum g1) hb
  have e1 := hs (fun o => o.2.2.2.2 - o.2.1)
    (fun q hq => by have := h1 q hq; simp only [outcome]; omega)
    (fun q hq => by simp only [outcome]; omega)
  have e2 := hs (fun o => (o.2.2.2.2 - o.2.1) - o.2.2.1)
    (fun q hq => by have := h1 q hq; simp only [outcome]; omega)
    (fun q hq => by have := h1 q hq; simp only [outcome]; omega)
  have e3 := hs (fun o => o.2.2.2.1 - o.2.1)
    (fun q hq => by have := h1 q hq; simp only [outcome]; omega)
    (fun q hq => by have := h1 q hq; simp only [outcome]; omega)
  simp only [outcome] at e1 e2 e3
  simp only [metrics_f32, hlen, e1, e2, e3]

/-- On input already in arrival order the index sort of Round Robin changes nothing. -/
theorem rr_order_of_sorted (p : List Process)
    (h : p.Pairwise (fun a b => a.arrivalTime ≤ b.arrivalTime)) :
    rr_order p = List.range p.length := by
  have hr : (List.range p.length).Pairwise
      (fun a b => (nth p a).arrivalTime ≤ (nth p b).arrivalTime) := by
    have h2 := h
    rw [← map_range_nth p, List.pairwise_map] at h2
    exact h2
  exact eq_of_sorted_of_filter_eq _ _ (qsort_sorted (cmp_arrival_idx_le p) _) hr
    (fun v => qsort_filter (cmp_arrival_idx_le p) _ v)

/-- While the turnaround times add up to less than `2 ^ 24` the three binary32 sums are
the exact sums, and the binary32 averages are the roundings of the exact quotients. -/
theorem metrics_f32_small (p : List Process)
    (h1 : ∀ q ∈ p, q.arrivalTime ≤ q.startTime ∧
      q.completionTime = q.startTime + q.burstTime ∧ 0 ≤ q.burstTime)
    (hb : (p.map (fun q => q.completionTime - q.arrivalTime)).sum < 2 ^ 24) :
    metrics_f32 p =
      { avgTurnaround :=
          f32_avg (p.map (fun q => q.completionTime - q.arrivalTime)).sum p.length
        avgWaiting :=
          f32_avg (p.map (fun q => (q.completionTime - q.arrivalTime) - q.burstTime)).sum
            p.length
        avgResponse := f32_avg (p.map (fun q => q.startTime - q.arrivalTime)).sum p.length } := by
  have hs : ∀ g : Process → Int, (∀ q ∈ p, 0 ≤ g q) →
      (∀ q ∈ p, g q ≤ q.completionTime - q.arrivalTime) →
      f32_sum (p.map g) = (p.map g).sum := by
    intro g g0 g1
    apply f32_sum_exact
    · intro x hx
      obtain ⟨q, hq, rfl⟩ := List.mem_map.1 hx
      exact g0 q hq
    · exact lt_of_le_of_lt (List.sum_le_sum g1) hb
  have e1 := hs (fun q => q.completionTime - q.arrivalTime)
    (fun q hq => by have := h1 q hq; show 0 ≤ q.completionTime - q.arrivalTime; omega)
    (fun q _ => le_refl _)
  have e2 := hs (fun q => (q.completionTime - q.arrivalTime) - q.burstTime)
    (fun q hq => by
      have := h1 q hq
      show 0 ≤ (q.completionTime - q.arrivalTime) - q.burstTime
      omega)
    (fun q hq => by
      have := h1 q hq
      show (q.completionTime - q.arrivalTime) - q.burstTime ≤ q.completionTime - q.arrivalTime
      omega)
  have e3 := hs (fun q => q.startTime - q.arrivalTime)
    (fun q hq => by have := h1 q hq; show 0 ≤ q.startTime - q.arrivalTime; omega)
    (fun q hq => by
      have := h1 q hq
      show q.startTime - q.arrivalTime ≤ q.completionTime - q.arrivalTime
      omega)
  simp only [metrics_f32, e1, e2, e3]

theorem pairwise_init_copy (proc : List Process)
    (h : proc.Pairwise (fun a b => a.arrivalTime ≤ b.arrivalTime)) :
    (init_copy proc).Pairwise (fun a b => a.arrivalTime ≤ b.arrivalTime) := by
  unfold init_copy
  rw [List.pairwise_map]
  exact h

/-- Claim C5, amended. On valid input with `timeQuantum` at least every burst time,
`rr_metrics` returns, and each process has under Round Robin the start and completion time
it has under FCFS (the sorted array of FCFS is the array of Round Robin read through
`order[]`), so the averages taken as exact rationals are those of `fcfs_metrics`.  The
binary32 `Metrics` that the two functions return are identical when the turnaround times
add up to less than `2 ^ 24`, and when the input is already in arrival order. -/
theorem rr_eq_fcfs (proc : List Process) (hv : Valid proc) (tq : Int)
    (hq : ∀ q ∈ proc, q.burstTime ≤ tq) :
    (∃ fuel m, rr_metrics fuel proc tq = some m) ∧
      (∀ fuel m, rr_metrics fuel proc tq = some m → m = fcfs_metrics proc) ∧
      (∀ fuel p, rr_sim fuel proc tq = some p →
        (fcfs_sim proc).map outcome =
          (rr_order (init_copy proc)).map (fun x => outcome (nth p x))) ∧
      (∃ fuel m, rr_metrics_f32 fuel proc tq = some m) ∧
      (((fcfs_sim proc).map (fun q => q.completionTime - q.arrivalTime)).sum < 2 ^ 24 ∨
          proc.Pairwise (fun a b => a.arrivalTime ≤ b.arrivalTime) →
        ∀ fuel m, rr_metrics_f32 fuel proc tq = some m → m = fcfs_metrics_f32 proc) := by
  have htq : 0 < tq := by
    have h0 : 0 < proc.length := hv.1
    have h1 := valid_nth proc hv 0 h0
    have h2 := hq _ (nth_mem proc 0 h0)
    omega
  obtain ⟨f1, f2, f3⟩ := rr_big_final proc hv tq htq hq
  have hex : rr_sim proc.length proc tq =
      some (rr_run (rr_order (init_copy proc)) tq proc.length (rr_init proc)).p := by
    simp [rr_sim, rr_loop_eq_run, f1]
  have hsim : ∀ fuel p, rr_sim fuel proc tq = some p →
      p = (rr_run (rr_order (init_copy proc)) tq proc.length (rr_init proc)).p := by
    intro fuel p h
    obtain ⟨s, hs, rfl⟩ := rr_sim_some fuel proc tq p h
    obtain ⟨_, hc, e⟩ := rr_loop_some proc hv tq htq fuel s hs
    rw [e] at hc ⊢
    rw [rr_run_final_unique _ tq fuel proc.length (rr_init proc) hc f1]
  generalize rr_run (rr_order (init_copy proc)) tq proc.length (rr_init proc) = sf
    at f1 f2 f3 hex hsim
  have e : (List.range proc.length).map (nth sf.p) = sf.p := by
    rw [← f2]
    exact map_range_nth _
  have hperm : ((fcfs_sim proc).map outcome).Perm (sf.p.map outcome) := by
    rw [f3]
    have hp := ((rr_order_perm (init_copy proc)).map (nth sf.p)).map outcome
    rw [length_init_copy, e, List.map_map] at hp
    exact hp
  have hmet : metrics_of sf.p = fcfs_metrics proc := by
    unfold fcfs_metrics
    exact metrics_of_congr _ _ hperm.symm
  refine ⟨⟨proc.length, metrics_of sf.p, by simp only [rr_metrics, hex, Option.map_some']⟩,
    ?_, ?_, ⟨proc.length, metrics_f32 sf.p, by
      simp only [rr_metrics_f32, hex, Option.map_some']⟩, ?_⟩
  · intro fuel m h
    simp only [rr_metrics, Option.map_eq_some'] at h
    obtain ⟨p, hp, rfl⟩ := h
    rw [hsim fuel p hp]
    exact hmet
  · intro fuel p h
    rw [hsim fuel p h]
    exact f3
  · intro hc fuel m h
    simp only [rr_metrics_f32, Option.map_eq_some'] at h
    obtain ⟨p, hp, rfl⟩ := h
    rw [hsim fuel p hp]
    unfold fcfs_metrics_f32
    rcases hc with hb | hs
    · refine (metrics_f32_of_perm _ _ ?_ hb hperm).symm
      intro q hq1
      obtain ⟨_, h2⟩ := fcfs_start_completion proc hv
      obtain ⟨a1, a2, a3⟩ := h2 q hq1
      exact ⟨a1, a2, by omega⟩
    · apply metrics_f32_congr
      rw [f3, rr_order_of_sorted _ (pairwise_init_copy proc hs), length_init_copy]
      have e2 := congrArg (List.map outcome) e
      rw [List.map_map] at e2
      exact e2.symm

theorem rr_eq_fcfs_witness :
    Valid (mkProcs [(3, 5), (1, 3), (20, 1)]) ∧
      (∀ q ∈ mkProcs [(3, 5), (1, 3), (20, 1)], q.burstTime ≤ 5) ∧
      ((fcfs_sim (mkProcs [(3, 5), (1, 3), (20, 1)])).map
        (fun q => q.completionTime - q.arrivalTime)).sum < 2 ^ 24 ∧
      ((∃ fuel m, rr_metrics fuel (mkProcs [(3, 5), (1, 3), (20, 1)]) 5 = some m) ∧
        (∀ fuel m, rr_metrics fuel (mkProcs [(3, 5), (1, 3), (20, 1)]) 5 = some m →
          m = fcfs_metrics (mkProcs [(3, 5), (1, 3), (20, 1)])) ∧
        (∀ fuel p, rr_sim fuel (mkProcs [(3, 5), (1, 3), (20, 1)]) 5 = some p →
          (fcfs_sim (mkProcs [(3, 5), (1, 3), (20, 1)])).map outcome =
            (rr_order (init_copy (mkProcs [(3, 5), (1, 3), (20, 1)]))).map
              (fun x => outcome (nth p x))) ∧
        (∃ fuel m, rr_metrics_f32 fuel (mkProcs [(3, 5), (1, 3), (20, 1)]) 5 = some m) ∧
        (((fcfs_sim (mkProcs [(3, 5), (1, 3), (20, 1)])).map
              (fun q => q.completionTime - q.arrivalTime)).sum < 2 ^ 24 ∨
            (mkProcs [(3, 5), (1, 3), (20, 1)]).Pairwise
              (fun a b => a.arrivalTime ≤ b.arrivalTime) →
          ∀ fuel m, rr_metrics_f32 fuel (mkProcs [(3, 5), (1, 3), (20, 1)]) 5 = some m →
            m = fcfs_metrics_f32 (mkProcs [(3, 5), (1, 3), (20, 1)]))) :=
  ⟨by decide, by decide, by decide, rr_eq_fcfs _ (by decide) 5 (by decide)⟩

theorem rr_big_quantum_sim :
    rr_sim 3 (mkProcs [(2, 16777216), (0, 1), (1, 1)]) 16777216 =
      some [⟨0, 2, 16777216, 0, 2, 16777218⟩, ⟨1, 0, 1, 0, 0, 1⟩, ⟨2, 1, 1, 0, 1, 2⟩] := by
  decide

/-- Claim C5, counterexample. On `[(2,16777216),(0,1),(1,1)]` with
`timeQuantum = 16777216`, the largest burst, the turnaround times are `16777216, 1, 1`.
FCFS adds them in arrival order, `1 + 1 + 16777216 = 16777218`, a binary32 value, and
returns `avgTurnaround = 5592406`.  Round Robin adds them in input order: `16777216 + 1`
rounds back to `16777216`, twice, and it returns `avgTurnaround = 5592405.5`. -/
theorem rr_eq_fcfs_counterexample :
    Valid (mkProcs [(2, 16777216), (0, 1), (1, 1)]) ∧
      (∀ q ∈ mkProcs [(2, 16777216), (0, 1), (1, 1)], q.burstTime ≤ 16777216) ∧
      fcfs_metrics_f32 (mkProcs [(2, 16777216), (0, 1), (1, 1)]) = ⟨5592406, 0, 0⟩ ∧
      rr_metrics_f32 3 (mkProcs [(2, 16777216), (0, 1), (1, 1)]) 16777216 =
        some ⟨11184811 / 2, 0, 0⟩ ∧
      ∀ fuel m, rr_metrics_f32 fuel (mkProcs [(2, 16777216), (0, 1), (1, 1)]) 16777216 =
        some m → m ≠ fcfs_metrics_f32 (mkProcs [(2, 16777216), (0, 1), (1, 1)]) := by
  have h1 : fcfs_sim (mkProcs [(2, 16777216), (0, 1), (1, 1)]) =
      [⟨1, 0, 1, 1, 0, 1⟩, ⟨2, 1, 1, 1, 1, 2⟩, ⟨0, 2, 16777216, 16777216, 2, 16777218⟩] := by
    decide
  have s1 : f32_sum [1, 1, 16777216] = 16777218 := by decide
  have s2 : f32_sum [16777216, 1, 1] = 16777216 := by decide
  have s0 : f32_sum [0, 0, 0] = 0 := by decide
  have n3 : f32_nat 3 = 3 := by decide
  have q1 : f32_mant 16777218 3 = 11184812 ∧ f32_ulp 16777218 3 = -1 := by decide
  have q2 : f32_mant 16777216 3 = 11184811 ∧ f32_ulp 16777216 3 = -1 := by decide
  have e1 : fcfs_metrics_f32 (mkProcs [(2, 16777216), (0, 1), (1, 1)]) = ⟨5592406, 0, 0⟩ := by
    simp only [fcfs_metrics_f32, metrics_f32, h1, List.map_cons, List.map_nil,
      List.length_cons, List.length_nil]
    norm_num [s1, s0, f32_avg, n3, f32_quot, q1.1, q1.2]
  have e2 : rr_metrics_f32 3 (mkProcs [(2, 16777216), (0, 1), (1, 1)]) 16777216 =
      some ⟨11184811 / 2, 0, 0⟩ := by
    simp only [rr_metrics_f32, rr_big_quantum_sim, Option.map_some', metrics_f32,
      List.map_cons, List.map_nil, List.length_cons, List.length_nil]
    norm_num [s2, s0, f32_avg, n3, f32_quot, q2.1, q2.2]
  refine ⟨by decide, by decide, e1, e2, ?_⟩
  intro fuel m h
  simp only [rr_metrics_f32, Option.map_eq_some'] at h e2
  obtain ⟨p, hp, rfl⟩ := h
  obtain ⟨p2, hp2, e3⟩ := e2
  rw [rr_sim_unique fuel 3 _ 16777216 p p2 hp hp2, e3, e1]
  intro hc
  have := congrArg Metrics.avgTurnaround hc
  norm_num at this

end Scheduler
